import Mathlib

/-! # Fleet management (`fleetManagement.c`): a shallow embedding

The program keeps up to `MAX_BOATS` boats in the global array `boatArray`
(with `numBoats` the number of used slots), loads them from a CSV file, and
changes them through the menu commands Inventory, Add, Remove, Payment, Month.

Modelling conventions.

* The pair `boatArray`/`numBoats` is a `List (Boat D)`: the list holds the used
  slots in array order, and `numBoats` is its length.
* A C string is the list of its characters before the terminating NUL; a
  `Char` stands for the byte with the same code.
* The C type `int` is `Int`; the text-to-`int` conversions reduce the value
  the way the C library on a 64-bit platform does (`strtol`, then a cast).
* The C type `double` is a type parameter `D` with the operations the program
  uses (class `CDouble`): a theorem stated for every `D` holds for any such
  arithmetic.  Where a claim depends on how `double` rounds or orders its
  values, it is settled in `F64`, a model of IEEE 754 binary64 with rounding to
  nearest; `Dec` is an exact decimal arithmetic used in examples.
* `qsort` is any function that meets the C standard's contract (structure
  `Qsort`).  The standard leaves the order of elements that compare equal
  open; where a claim depends on it, it is settled for `qsortMerge`, the merge
  sort that `qsort` of the GNU C library runs on an array of this size.
* The environment cooperates: `fopen` and `malloc` succeed.  What a failed
  `scanf`/`sscanf` conversion leaves unassigned keeps the indeterminate value it
  had, which is given explicitly (structure `Fields`).
-/

namespace Fleet

/-! ## Constants and the record model -/

/-- Source: `#define MAX_BOATS 120`. -/
def MAX_BOATS : Nat := 120

/-- Source: `#define MAX_NAME_LENGTH 128`. -/
def MAX_NAME_LENGTH : Nat := 128

/-- The string terminator. -/
def NUL : Char := Char.ofNat 0

/-- Source: `typedef enum { SLIP, LAND, TRAILOR, STORAGE } LocationType;`. -/
inductive LocationType where
  | SLIP
  | LAND
  | TRAILOR
  | STORAGE
  deriving DecidableEq, Repr

/-- Source: the union `LocationInfo`.  The program writes and reads only the
member selected by `locationType`, so the union together with its tag is the
sum of the four members. -/
inductive LocationInfo where
  | slipNumber (n : Int)
  | bayLetter (c : Char)
  | licenseTag (s : List Char)
  | storageNumber (n : Int)
  deriving DecidableEq, Repr

/-- Source: the `locationType` field, the tag of the union. -/
def LocationInfo.locationType : LocationInfo → LocationType
  | .slipNumber _ => .SLIP
  | .bayLetter _ => .LAND
  | .licenseTag _ => .TRAILOR
  | .storageNumber _ => .STORAGE

/-- Source: `struct Boat`. -/
structure Boat (D : Type) where
  name : List Char
  length : Int
  locationInfo : LocationInfo
  amountOwed : D
  deriving DecidableEq, Repr

/-- Source: `boatArray[i]->locationType`. -/
def Boat.locationType {D : Type} (b : Boat D) : LocationType :=
  b.locationInfo.locationType

/-! ## The arithmetic of `double` -/

/-- The operations on `double` that the program performs, and two facts about
them that hold in every C implementation.
`ofDecimal m k` is the value of the decimal constant `m / 10 ^ k` (the source
writes `12.5`, `14.0`, `25.0`, `11.2`), `ofInt` the conversion of an `int`,
`printf2` the text `printf` writes for `"%.2f"`, and `scanDouble s` what a final
`%lf` directive stores when the rest of the input is `s` (`none`: nothing is
stored). -/
class CDouble (D : Type) where
  add : D → D → D
  sub : D → D → D
  mul : D → D → D
  gt : D → D → Bool
  le : D → D → Bool
  ofInt : Int → D
  ofDecimal : Int → Nat → D
  printf2 : D → List Char
  scanDouble : List Char → Option D
  gt_eq_false_of_le : ∀ a b, le a b = true → gt a b = false
  printf2_chars : ∀ x, ∀ c ∈ printf2 x, c ≠ '\n' ∧ c ≠ NUL

/-! ## `strcasecmp` and `getLocationType` -/

/-- The C-locale `tolower`, as the code of the resulting byte. -/
def lowerCode (c : Char) : Int :=
  if 65 ≤ c.toNat ∧ c.toNat ≤ 90 then (c.toNat : Int) + 32 else (c.toNat : Int)

/-- The library function `strcasecmp`: the difference of the first pair of bytes
that differ after `tolower`; the end of a list is the terminating NUL, and the
comparison stops at a NUL. -/
def strcasecmp : List Char → List Char → Int
  | [], [] => 0
  | [], b :: _ => 0 - lowerCode b
  | a :: _, [] => lowerCode a - 0
  | a :: s, b :: t =>
    if lowerCode a ≠ lowerCode b then lowerCode a - lowerCode b
    else if a = NUL then 0
    else strcasecmp s t

/-- Source: `getLocationType`. -/
def getLocationType (locationStr : List Char) : LocationType :=
  if strcasecmp locationStr ['s', 'l', 'i', 'p'] = 0 then .SLIP
  else if strcasecmp locationStr ['l', 'a', 'n', 'd'] = 0 then .LAND
  else if strcasecmp locationStr ['t', 'r', 'a', 'i', 'l', 'o', 'r'] = 0 then .TRAILOR
  else if strcasecmp locationStr ['s', 't', 'o', 'r', 'a', 'g', 'e'] = 0 then .STORAGE
  else .STORAGE

/-- Source: `compareBoats`, the comparison function handed to `qsort`. -/
def compareBoats {D : Type} (a b : Boat D) : Int :=
  strcasecmp a.name b.name

/-! ## Messages -/

/-- The prompt of `removeBoat` and `acceptPayment`. -/
def promptName : List Char :=
  "Please enter the boat name                               : ".toList

/-- The second prompt of `acceptPayment`. -/
def promptAmount : List Char :=
  "Please enter the amount to be paid                       : ".toList

/-- The prompt of `addBoat`. -/
def promptData : List Char :=
  "Please enter the boat data in CSV format                 : ".toList

/-- The not-found report of `removeBoat` and `acceptPayment`. -/
def msgNoBoat : List Char := "No boat with that name\n".toList

/-- The report of `addBoat` when the array is full. -/
def msgFull : List Char := "Marina is full\n".toList

/-- The rejection report of `acceptPayment`:
`printf("That is more than the amount owed, $%.2f \n", amountOwed)`. -/
def msgTooMuch {D : Type} [CDouble D] (amountOwed : D) : List Char :=
  "That is more than the amount owed, $".toList ++ CDouble.printf2 amountOwed ++ " \n".toList

/-! ## Payment, monthly fees, removal -/

/-- Source: the search loop of `acceptPayment`, from index 0.  `payment` is the
value in the variable `payment` after `scanf("%lf", &payment)`.  The result
is the array after the loop and what the loop printed; `none` for the text
means the loop ended with `found == 0`. -/
def paymentLoop {D : Type} [CDouble D] (name : List Char) (payment : D) :
    List (Boat D) → List (Boat D) × Option (List Char)
  | [] => ([], none)
  | b :: rest =>
    if strcasecmp b.name name = 0 then
      if CDouble.gt payment b.amountOwed = true then
        (b :: rest, some (promptAmount ++ msgTooMuch b.amountOwed))
      else
        ({ b with amountOwed := CDouble.sub b.amountOwed payment } :: rest, some promptAmount)
    else
      let r := paymentLoop name payment rest
      (b :: r.1, r.2)

/-- Source: `acceptPayment`, with the name and the amount that were read.
Result: the new array and the text printed. -/
def acceptPayment {D : Type} [CDouble D] (name : List Char) (payment : D)
    (boats : List (Boat D)) : List (Boat D) × List Char :=
  match paymentLoop name payment boats with
  | (boats', some out) => (boats', promptName ++ out)
  | (boats', none) => (boats', promptName ++ msgNoBoat)

/-- Source: the body of the loop of `updateMonthlyFees` for one boat. -/
def monthlyFee {D : Type} [CDouble D] (b : Boat D) : Boat D :=
  match b.locationType with
  | .SLIP =>
    { b with amountOwed := CDouble.add b.amountOwed (CDouble.mul (CDouble.ofDecimal 125 1) (CDouble.ofInt b.length)) }
  | .LAND =>
    { b with amountOwed := CDouble.add b.amountOwed (CDouble.mul (CDouble.ofDecimal 140 1) (CDouble.ofInt b.length)) }
  | .TRAILOR =>
    { b with amountOwed := CDouble.add b.amountOwed (CDouble.mul (CDouble.ofDecimal 250 1) (CDouble.ofInt b.length)) }
  | .STORAGE =>
    { b with amountOwed := CDouble.add b.amountOwed (CDouble.mul (CDouble.ofDecimal 112 1) (CDouble.ofInt b.length)) }

/-- Source: `updateMonthlyFees`. -/
def updateMonthlyFees {D : Type} [CDouble D] (boats : List (Boat D)) : List (Boat D) :=
  boats.map monthlyFee

/-- Source: the search loop of `removeBoat`, from index 0: at the first boat whose
name matches, the later boats are shifted down by one; `none` means the loop
ended with `found == 0`. -/
def removeLoop {D : Type} (name : List Char) : List (Boat D) → Option (List (Boat D))
  | [] => none
  | b :: rest =>
    if strcasecmp b.name name = 0 then some rest
    else (removeLoop name rest).map (fun r => b :: r)

/-- Source: `removeBoat`, with the name that was read.  Result: the new array
and the text printed. -/
def removeBoat {D : Type} (name : List Char) (boats : List (Boat D)) :
    List (Boat D) × List Char :=
  match removeLoop name boats with
  | some boats' => (boats', promptName)
  | none => (boats, promptName ++ msgNoBoat)

/-! ## Reading text: `fgets`, the conversions of `scanf`, `atoi` -/

/-- The string held by a character array: the characters before the first NUL. -/
def cstr (s : List Char) : List Char :=
  s.takeWhile (fun c => c ≠ NUL)

/-- The library predicate `isspace` in the C locale. -/
def isspace (c : Char) : Bool :=
  c = ' ' || (9 ≤ c.toNat && c.toNat ≤ 13)

/-- White space is skipped. -/
def skipSpace (s : List Char) : List Char :=
  s.dropWhile isspace

/-- The library predicate `isdigit`. -/
def isdigit (c : Char) : Bool :=
  48 ≤ c.toNat && c.toNat ≤ 57

/-- The number a run of decimal digits denotes. -/
def digitsVal (ds : List Char) : Nat :=
  ds.foldl (fun acc c => 10 * acc + (c.toNat - 48)) 0

/-- The result of `strtol` for the mathematical value `v`: out-of-range values
become `LONG_MIN` or `LONG_MAX` (64-bit `long`). -/
def clampLong (v : Int) : Int :=
  if v < -(2 ^ 63) then -(2 ^ 63) else if 2 ^ 63 - 1 < v then 2 ^ 63 - 1 else v

/-- The conversion of a `long` to the 32-bit `int`. -/
def toInt32 (v : Int) : Int :=
  (v + 2 ^ 31) % 2 ^ 32 - 2 ^ 31

/-- The digits of a decimal integer after its sign: the `int` they give and
the rest of the input; `none` when there is no digit. -/
def scanUnsigned (negative : Bool) (s : List Char) : Option (Int × List Char) :=
  if s.takeWhile isdigit = [] then none
  else
    some (toInt32 (clampLong (if negative then -(digitsVal (s.takeWhile isdigit) : Int)
        else (digitsVal (s.takeWhile isdigit) : Int))), s.dropWhile isdigit)

/-- An optionally signed decimal integer at the start of `s`. -/
def scanSigned : List Char → Option (Int × List Char)
  | [] => none
  | c :: s =>
    if c = '-' then scanUnsigned true s
    else if c = '+' then scanUnsigned false s
    else scanUnsigned false (c :: s)

/-- The conversion `%d` of `scanf`: white space is skipped, then an optionally
signed decimal integer is read. -/
def scanInt (s : List Char) : Option (Int × List Char) :=
  scanSigned (skipSpace s)

/-- The library function `atoi`: `(int) strtol(s, NULL, 10)`, which is 0 when no
number can be read. -/
def atoi (s : List Char) : Int :=
  match scanSigned (skipSpace s) with
  | some (v, _) => v
  | none => 0

/-- The conversion `%N[^,]` of `scanf` with `N = width`: the longest run of at
most `width` characters other than the comma, which must not be empty; the
array receives the run and a NUL. -/
def scanSet (width : Nat) (s : List Char) : Option (List Char × List Char) :=
  if (s.take width).takeWhile (fun c => c ≠ ',') = [] then none
  else
    some (cstr ((s.take width).takeWhile (fun c => c ≠ ',')),
      s.drop ((s.take width).takeWhile (fun c => c ≠ ',')).length)

/-- An ordinary character of a `scanf` format: the next input character must be
that character. -/
def matchChar (c : Char) : List Char → Option (List Char)
  | [] => none
  | d :: s => if d = c then some s else none

/-- The five objects that the `scanf` calls of `loadBoatsFromCSV` and `addBoat`
store into: `newBoat->name`, `newBoat->length`, `locationStr`, `extraInfo` and
`newBoat->amountOwed`. -/
structure Fields (D : Type) where
  name : List Char
  length : Int
  locationStr : List Char
  extraInfo : List Char
  amountOwed : D

/-- The directives `%127[^,],%d,%9[^,],%127[^,],%lf` applied to the input `s`.
`init` is the indeterminate content of the five objects before the call; a
directive that fails ends the call and leaves the remaining objects as they
were. -/
def scanFields {D : Type} [CDouble D] (init : Fields D) (s : List Char) : Fields D :=
  match scanSet 127 s with
  | none => init
  | some (name, s1) =>
    match matchChar ',' s1 with
    | none => { init with name := name }
    | some s2 =>
      match scanInt s2 with
      | none => { init with name := name }
      | some (len, s3) =>
        match matchChar ',' s3 with
        | none => { init with name := name, length := len }
        | some s4 =>
          match scanSet 9 s4 with
          | none => { init with name := name, length := len }
          | some (loc, s5) =>
            match matchChar ',' s5 with
            | none => { init with name := name, length := len, locationStr := loc }
            | some s6 =>
              match scanSet 127 s6 with
              | none => { init with name := name, length := len, locationStr := loc }
              | some (extra, s7) =>
                match matchChar ',' s7 with
                | none =>
                  { init with name := name, length := len, locationStr := loc, extraInfo := extra }
                | some s8 =>
                  match CDouble.scanDouble s8 with
                  | none =>
                    { init with name := name, length := len, locationStr := loc,
                                extraInfo := extra }
                  | some x =>
                    { name := name, length := len, locationStr := loc, extraInfo := extra,
                      amountOwed := x }

/-- Source: the statements after the `scanf` call in `loadBoatsFromCSV` and in
`addBoat` (the two are the same): the location type from `locationStr`, then
the member of the union from `extraInfo`. -/
def mkBoat {D : Type} (f : Fields D) : Boat D :=
  { name := f.name
    length := f.length
    locationInfo :=
      match getLocationType f.locationStr with
      | .SLIP => .slipNumber (atoi f.extraInfo)
      | .LAND => .bayLetter (f.extraInfo.headD NUL)
      | .TRAILOR => .licenseTag (f.extraInfo.take MAX_NAME_LENGTH)
      | .STORAGE => .storageNumber (atoi f.extraInfo)
    amountOwed := f.amountOwed }

/-- The characters one call `fgets(line, count + 1, file)` reads, and the rest
of the file: at most `count` characters, ending after a newline. -/
def fgetsChars : Nat → List Char → List Char × List Char
  | 0, s => ([], s)
  | _ + 1, [] => ([], [])
  | count + 1, c :: s =>
    if c = '\n' then ([c], s)
    else ((c :: (fgetsChars count s).1), (fgetsChars count s).2)

/-- Source: `char line[256]`. -/
def LINE_SIZE : Nat := 256

/-- The library function `fgets(line, size, file)`. -/
def fgets (size : Nat) (file : List Char) : List Char × List Char :=
  fgetsChars (size - 1) file

/-- Source: the `while` loop of `loadBoatsFromCSV`.  `boats` is the array so far,
`init k` the indeterminate content of the objects of the iteration that fills
slot `k`, and the first argument bounds the number of iterations. -/
def loadLoop {D : Type} [CDouble D] (init : Nat → Fields D) :
    Nat → List Char → List (Boat D) → List (Boat D)
  | 0, _, boats => boats
  | fuel + 1, file, boats =>
    match fgets LINE_SIZE file with
    | ([], _) => boats
    | (c :: line, rest) =>
      if boats.length < MAX_BOATS then
        loadLoop init fuel rest
          (boats ++ [mkBoat (scanFields (init boats.length) (cstr (c :: line)))])
      else boats

/-- Source: `loadBoatsFromCSV` on a file with the content `file`, from the
initial state `numBoats = 0`.  Every iteration reads at least one character, so
`file.length` iterations are enough (`loadLoop_fuel`). -/
def loadBoatsFromCSV {D : Type} [CDouble D] (init : Nat → Fields D) (file : List Char) :
    List (Boat D) :=
  loadLoop init file.length file []

/-- The lines that successive calls `fgets(line, sizeof(line), file)` return
until the end of the file; the first argument bounds the number of calls. -/
def fgetsAll : Nat → List Char → List (List Char)
  | 0, _ => []
  | fuel + 1, file =>
    match fgets LINE_SIZE file with
    | ([], _) => []
    | (c :: line, rest) => (c :: line) :: fgetsAll fuel rest

/-- The lines of a file as `fgets` delivers them to `loadBoatsFromCSV`: a line
of the file longer than the buffer comes in several pieces. -/
def fileLines (file : List Char) : List (List Char) :=
  fgetsAll file.length file

/-- The records the loop of `loadBoatsFromCSV` builds from the given lines when
the first of them goes to slot `k`. -/
def recordsFrom {D : Type} [CDouble D] (init : Nat → Fields D) :
    Nat → List (List Char) → List (Boat D)
  | _, [] => []
  | k, line :: rest => mkBoat (scanFields (init k) (cstr line)) :: recordsFrom init (k + 1) rest

/-! ## Writing text: `saveBoatsToCSV` -/

/-- The decimal digit with the value `d`. -/
def digitChar (d : Nat) : Char :=
  Char.ofNat (48 + d % 10)

/-- The decimal digits of `n`, most significant first; the first argument
bounds the number of digits. -/
def printNatFuel : Nat → Nat → List Char
  | 0, _ => []
  | fuel + 1, n =>
    if n < 10 then [digitChar n] else printNatFuel fuel (n / 10) ++ [digitChar n]

/-- The decimal digits of `n`. -/
def printNat (n : Nat) : List Char :=
  printNatFuel (n + 1) n

/-- The text `printf` writes for `%d`. -/
def printInt (n : Int) : List Char :=
  if n < 0 then '-' :: printNat n.natAbs else printNat n.natAbs

/-- Source: the three `fprintf` calls of one iteration of the loop of
`saveBoatsToCSV`. -/
def boatLine {D : Type} [CDouble D] (b : Boat D) : List Char :=
  cstr b.name ++ [','] ++ printInt b.length ++ [','] ++
    (match b.locationInfo with
      | .slipNumber n => ['s', 'l', 'i', 'p', ','] ++ printInt n ++ [',']
      | .bayLetter c => ['l', 'a', 'n', 'd', ','] ++ [c] ++ [',']
      | .licenseTag s => ['t', 'r', 'a', 'i', 'l', 'o', 'r', ','] ++ cstr s ++ [',']
      | .storageNumber n => ['s', 't', 'o', 'r', 'a', 'g', 'e', ','] ++ printInt n ++ [',']) ++
    CDouble.printf2 b.amountOwed ++ ['\n']

/-- Source: `saveBoatsToCSV`: the content of the file after the call. -/
def saveBoatsToCSV {D : Type} [CDouble D] : List (Boat D) → List Char
  | [] => []
  | b :: rest => boatLine b ++ saveBoatsToCSV rest

/-! ## Add, Inventory, and the command loop -/

/-- Source: `addBoat`.  `input` is what is left on the standard input when the
`scanf` call starts (the format begins with a blank, so white space is skipped
first), `init` the indeterminate content of the five objects.  Result: the new
array and the text printed. -/
def addBoat {D : Type} [CDouble D] (init : Fields D) (input : List Char)
    (boats : List (Boat D)) : List (Boat D) × List Char :=
  if MAX_BOATS ≤ boats.length then (boats, msgFull)
  else (boats ++ [mkBoat (scanFields init (skipSpace input))], promptData)

/-- What the C standard requires of a comparison function of `qsort`: its
results define a total ordering. -/
def Consistent {α : Type} (cmp : α → α → Int) : Prop :=
  (∀ a b, 0 < cmp a b ↔ cmp b a < 0) ∧
    (∀ a b c, cmp a b ≤ 0 → cmp b c ≤ 0 → cmp a c ≤ 0)

/-- The library function `qsort`, by its contract in the C standard: for a
consistent comparison function the array afterwards holds the same elements in
ascending order.  The order of elements that compare equal is unspecified. -/
structure Qsort (α : Type) where
  sort : (α → α → Int) → List α → List α
  perm : ∀ cmp l, Consistent cmp → (sort cmp l).Perm l
  sorted : ∀ cmp l, Consistent cmp → (sort cmp l).Pairwise (fun a b => cmp a b ≤ 0)

/-- Source: `printInventory`, its effect on the array:
`qsort(boatArray, numBoats, sizeof(Boat *), compareBoats)`.  The report it
prints is not modelled. -/
def printInventory {D : Type} (Q : Qsort (Boat D)) (boats : List (Boat D)) : List (Boat D) :=
  Q.sort compareBoats boats

/-- The menu commands of `main` that change or show the array, each with the
input it reads. -/
inductive Command (D : Type) where
  | inventory
  | add (init : Fields D) (input : List Char)
  | remove (name : List Char)
  | payment (name : List Char) (amount : D)
  | month

/-- Source: one iteration of the menu loop of `main`: the array after the
command. -/
def step {D : Type} [CDouble D] (Q : Qsort (Boat D)) (boats : List (Boat D)) :
    Command D → List (Boat D)
  | .inventory => printInventory Q boats
  | .add init input => (addBoat init input boats).1
  | .remove name => (removeBoat name boats).1
  | .payment name amount => (acceptPayment name amount boats).1
  | .month => updateMonthlyFees boats

/-- Source: the menu loop of `main` over a sequence of commands. -/
def runCommands {D : Type} [CDouble D] (Q : Qsort (Boat D)) (boats : List (Boat D))
    (cmds : List (Command D)) : List (Boat D) :=
  cmds.foldl (step Q) boats

/-! ## Two `qsort`s and an exact decimal arithmetic

The instances of this section show that the interfaces `Qsort` and `CDouble` are
met, and serve to evaluate the definitions on concrete inputs.  `qsortMerge` is
the `qsort` of the GNU C library. -/

/-- Insertion sort from the back of the array: a `qsort` that keeps elements
that compare equal in their order. -/
def qsortInsertion (α : Type) : Qsort α where
  sort cmp l := List.insertionSort (fun a b => cmp a b ≤ 0) l
  perm cmp l _ := List.perm_insertionSort (fun a b => cmp a b ≤ 0) l
  sorted cmp l h := by
    haveI : IsTotal α (fun a b => cmp a b ≤ 0) :=
      ⟨fun a b => by
        rcases le_or_lt (cmp a b) 0 with h1 | h1
        · exact Or.inl h1
        · exact Or.inr (le_of_lt ((h.1 a b).1 h1))⟩
    haveI : IsTrans α (fun a b => cmp a b ≤ 0) := ⟨h.2⟩
    exact List.sorted_insertionSort (fun a b => cmp a b ≤ 0) l

/-- The merge loop of `msort_with_tmp` in the GNU C library (`stdlib/msort.c`):
while both runs have elements, the head of the first run is taken if
`cmp(b1, b2) <= 0` and the head of the second run otherwise; what is left of a
run follows.  The first argument bounds the number of iterations. -/
def mergeRuns {α : Type} (cmp : α → α → Int) : Nat → List α → List α → List α
  | 0, l1, l2 => l1 ++ l2
  | _ + 1, [], l2 => l2
  | _ + 1, a :: l1, [] => a :: l1
  | fuel + 1, a :: l1, b :: l2 =>
    if cmp a b ≤ 0 then a :: mergeRuns cmp fuel l1 (b :: l2)
    else b :: mergeRuns cmp fuel (a :: l1) l2

/-- The function `msort_with_tmp` of the GNU C library: an array of at most one
element is left as it is; otherwise the first `n / 2` elements and the other
`n - n / 2` are sorted and the two runs merged.  The first argument bounds the
depth of the recursion. -/
def msort {α : Type} (cmp : α → α → Int) : Nat → List α → List α
  | 0, l => l
  | fuel + 1, l =>
    if l.length ≤ 1 then l
    else
      mergeRuns cmp l.length (msort cmp fuel (l.take (l.length / 2)))
        (msort cmp fuel (l.drop (l.length / 2)))

/-- The library function `qsort` of the GNU C library for an array whose
temporary copy takes less than 1024 bytes (here at most 120 pointers): the merge
sort `msort_with_tmp`. -/
def qsortMerge (α : Type) : Qsort α where
  sort cmp l := msort cmp l.length l
  perm cmp l _ := by
    have hm : ∀ (f : Nat) (l1 l2 : List α), (mergeRuns cmp f l1 l2).Perm (l1 ++ l2) := by
      intro f
      induction f with
      | zero => intro l1 l2; exact List.Perm.refl _
      | succ f ih =>
        intro l1 l2
        cases l1 with
        | nil => exact List.Perm.refl _
        | cons a l1 =>
          cases l2 with
          | nil => simp [mergeRuns]
          | cons b l2 =>
            by_cases hab : cmp a b ≤ 0
            · simp only [mergeRuns, if_pos hab, List.cons_append]
              exact (ih l1 (b :: l2)).cons a
            · simp only [mergeRuns, if_neg hab]
              exact ((ih (a :: l1) l2).cons b).trans
                (List.perm_middle.symm)
    have hs : ∀ (f : Nat) (l : List α), (msort cmp f l).Perm l := by
      intro f
      induction f with
      | zero => intro l; exact List.Perm.refl _
      | succ f ih =>
        intro l
        by_cases h1 : l.length ≤ 1
        · simp only [msort, if_pos h1]; exact List.Perm.refl _
        · simp only [msort, if_neg h1]
          refine (hm _ _ _).trans ?_
          refine ((ih _).append (ih _)).trans ?_
          rw [List.take_append_drop]
    exact hs _ l
  sorted cmp l h := by
    have hm : ∀ (f : Nat) (l1 l2 : List α), (mergeRuns cmp f l1 l2).Perm (l1 ++ l2) := by
      intro f
      induction f with
      | zero => intro l1 l2; exact List.Perm.refl _
      | succ f ih =>
        intro l1 l2
        cases l1 with
        | nil => exact List.Perm.refl _
        | cons a l1 =>
          cases l2 with
          | nil => simp [mergeRuns]
          | cons b l2 =>
            by_cases hab : cmp a b ≤ 0
            · simp only [mergeRuns, if_pos hab, List.cons_append]
              exact (ih l1 (b :: l2)).cons a
            · simp only [mergeRuns, if_neg hab]
              exact ((ih (a :: l1) l2).cons b).trans
                (List.perm_middle.symm)
    have hs : ∀ (f : Nat) (l : List α), (msort cmp f l).Perm l := by
      intro f
      induction f with
      | zero => intro l; exact List.Perm.refl _
      | succ f ih =>
        intro l
        by_cases h1 : l.length ≤ 1
        · simp only [msort, if_pos h1]; exact List.Perm.refl _
        · simp only [msort, if_neg h1]
          refine (hm _ _ _).trans ?_
          refine ((ih _).append (ih _)).trans ?_
          rw [List.take_append_drop]
    have hmo : ∀ (f : Nat) (l1 l2 : List α), l1.length + l2.length ≤ f →
        l1.Pairwise (fun a b => cmp a b ≤ 0) → l2.Pairwise (fun a b => cmp a b ≤ 0) →
        (mergeRuns cmp f l1 l2).Pairwise (fun a b => cmp a b ≤ 0) := by
      intro f
      induction f with
      | zero =>
        intro l1 l2 hf p1 p2
        have e1 : l1 = [] := List.length_eq_zero.mp (by omega)
        subst e1
        simpa [mergeRuns] using p2
      | succ f ih =>
        intro l1 l2 hf p1 p2
        cases l1 with
        | nil => simpa [mergeRuns] using p2
        | cons a l1 =>
          cases l2 with
          | nil => simpa [mergeRuns] using p1
          | cons b l2 =>
            simp only [List.length_cons] at hf
            rw [List.pairwise_cons] at p1 p2
            by_cases hab : cmp a b ≤ 0
            · simp only [mergeRuns, if_pos hab]
              rw [List.pairwise_cons]
              refine ⟨?_, ih l1 (b :: l2) (by simp only [List.length_cons]; omega) p1.2
                (List.pairwise_cons.mpr p2)⟩
              intro x hx
              rcases List.mem_append.mp ((hm f l1 (b :: l2)).mem_iff.mp hx) with hx | hx
              · exact p1.1 x hx
              · rcases List.mem_cons.mp hx with hx | hx
                · rw [hx]; exact hab
                · exact h.2 a b x hab (p2.1 x hx)
            · simp only [mergeRuns, if_neg hab]
              have hba : cmp b a ≤ 0 := le_of_lt ((h.1 a b).mp (not_le.mp hab))
              rw [List.pairwise_cons]
              refine ⟨?_, ih (a :: l1) l2 (by simp only [List.length_cons]; omega)
                (List.pairwise_cons.mpr p1) p2.2⟩
              intro x hx
              rcases List.mem_append.mp ((hm f (a :: l1) l2).mem_iff.mp hx) with hx | hx
              · rcases List.mem_cons.mp hx with hx | hx
                · rw [hx]; exact hba
                · exact h.2 b a x hba (p1.1 x hx)
              · exact p2.1 x hx
    have hso : ∀ (f : Nat) (l : List α), l.length ≤ f →
        (msort cmp f l).Pairwise (fun a b => cmp a b ≤ 0) := by
      intro f
      induction f with
      | zero =>
        intro l hf
        have e1 : l = [] := List.length_eq_zero.mp (by omega)
        subst e1
        simp [msort]
      | succ f ih =>
        intro l hf
        by_cases h1 : l.length ≤ 1
        · simp only [msort, if_pos h1]
          match l, h1 with
          | [], _ => exact List.Pairwise.nil
          | [a], _ => exact List.pairwise_singleton _ a
          | _ :: _ :: _, h1 => simp at h1
        · simp only [msort, if_neg h1]
          refine hmo _ _ _ ?_ (ih _ ?_) (ih _ ?_)
          · rw [(hs f _).length_eq, (hs f _).length_eq, ← List.length_append,
              List.take_append_drop]
          · rw [List.length_take]; omega
          · rw [List.length_drop]; omega
    exact hso _ l (le_refl _)

/-- A decimal number `num / 10 ^ scale`. -/
structure Dec where
  num : Int
  scale : Nat
  deriving DecidableEq, Repr

/-- Exact sum. -/
def Dec.add (a b : Dec) : Dec :=
  ⟨a.num * 10 ^ b.scale + b.num * 10 ^ a.scale, a.scale + b.scale⟩

/-- Exact difference. -/
def Dec.sub (a b : Dec) : Dec :=
  ⟨a.num * 10 ^ b.scale - b.num * 10 ^ a.scale, a.scale + b.scale⟩

/-- Exact product. -/
def Dec.mul (a b : Dec) : Dec :=
  ⟨a.num * b.num, a.scale + b.scale⟩

/-- The comparison `a > b`. -/
def Dec.gt (a b : Dec) : Bool :=
  decide (b.num * 10 ^ a.scale < a.num * 10 ^ b.scale)

/-- The comparison `a <= b`. -/
def Dec.le (a b : Dec) : Bool :=
  decide (a.num * 10 ^ b.scale ≤ b.num * 10 ^ a.scale)

/-- The absolute value in hundredths, rounded to the nearest, ties to even. -/
def Dec.hundredths (x : Dec) : Nat :=
  if 10 ^ x.scale < 2 * (x.num.natAbs * 100 % 10 ^ x.scale) ∨
      (2 * (x.num.natAbs * 100 % 10 ^ x.scale) = 10 ^ x.scale ∧
        x.num.natAbs * 100 / 10 ^ x.scale % 2 = 1) then
    x.num.natAbs * 100 / 10 ^ x.scale + 1
  else x.num.natAbs * 100 / 10 ^ x.scale

/-- The text of `"%.2f"`: sign, integer digits, point, two digits. -/
def Dec.printf2 (x : Dec) : List Char :=
  (if x.num < 0 then ['-'] else []) ++ printNat (x.hundredths / 100) ++
    ['.', digitChar (x.hundredths / 10), digitChar x.hundredths]

/-- The digits after a decimal point at the start of `s`. -/
def Dec.fraction : List Char → List Char
  | [] => []
  | c :: s => if c = '.' then s.takeWhile isdigit else []

/-- A plain decimal numeral after its sign: digits, then optionally a point
and digits. -/
def Dec.scanUnsigned (negative : Bool) (s : List Char) : Option Dec :=
  if s.takeWhile isdigit = [] ∧ Dec.fraction (s.dropWhile isdigit) = [] then none
  else
    some ⟨if negative then
          -(digitsVal (s.takeWhile isdigit ++ Dec.fraction (s.dropWhile isdigit)) : Int)
        else (digitsVal (s.takeWhile isdigit ++ Dec.fraction (s.dropWhile isdigit)) : Int),
      (Dec.fraction (s.dropWhile isdigit)).length⟩

/-- An optionally signed plain decimal numeral at the start of `s`. -/
def Dec.scanSigned : List Char → Option Dec
  | [] => none
  | c :: s =>
    if c = '-' then Dec.scanUnsigned true s
    else if c = '+' then Dec.scanUnsigned false s
    else Dec.scanUnsigned false (c :: s)

/-- Reading a plain decimal numeral with `%lf`: white space is skipped first. -/
def Dec.scanDouble (s : List Char) : Option Dec :=
  Dec.scanSigned (skipSpace s)

/-- Exact decimal arithmetic as an instance of the interface of `double`. -/
instance : CDouble Dec where
  add := Dec.add
  sub := Dec.sub
  mul := Dec.mul
  gt := Dec.gt
  le := Dec.le
  ofInt n := ⟨n, 0⟩
  ofDecimal m k := ⟨m, k⟩
  printf2 := Dec.printf2
  scanDouble := Dec.scanDouble
  gt_eq_false_of_le a b h := by
    simp only [Dec.le, decide_eq_true_eq] at h
    simp only [Dec.gt, decide_eq_false_iff_not, not_lt]
    exact h
  printf2_chars x c hc := by
    have hd : ∀ d : Nat, digitChar d ≠ '\n' ∧ digitChar d ≠ NUL := by
      intro d
      have h10 : d % 10 < 10 := Nat.mod_lt _ (by decide)
      unfold digitChar
      generalize d % 10 = r at h10 ⊢
      interval_cases r <;> decide
    have hn : ∀ fuel n, ∀ c ∈ printNatFuel fuel n, c ≠ '\n' ∧ c ≠ NUL := by
      intro fuel
      induction fuel with
      | zero => intro n c h; simp [printNatFuel] at h
      | succ f ih =>
        intro n c h
        unfold printNatFuel at h
        split at h
        · simp only [List.mem_singleton] at h
          rw [h]; exact hd n
        · rcases List.mem_append.1 h with h1 | h1
          · exact ih _ c h1
          · simp only [List.mem_singleton] at h1
            rw [h1]; exact hd n
    simp only [Dec.printf2, List.mem_append, List.mem_cons, List.mem_singleton] at hc
    rcases hc with (hc | hc) | hc
    · split at hc
      · simp only [List.mem_singleton] at hc
        rw [hc]; decide
      · simp at hc
    · exact hn _ _ c hc
    · rcases hc with hc | hc | hc | hc
      · rw [hc]; decide
      · rw [hc]; exact hd _
      · rw [hc]; exact hd _
      · simp at hc

/-! ## IEEE 754 binary64

The arithmetic of `double` where the claims depend on its rounding: the
values of the binary64 format, operations rounded to nearest with ties to even,
the text of `"%.2f"` and the numerals `%lf` reads. -/

/-- A binary64 value: a NaN, an infinity, or the finite number
`(-1) ^ neg * m * 2 ^ e`.  The operations produce zero as `m = 0`, `e = 0`, and
the other numbers with `m < 2 ^ 53` and `-1074 ≤ e ≤ 971`, where `2 ^ 52 ≤ m`
unless `e = -1074`.  The sign and payload of a NaN are not represented. -/
inductive F64 where
  | nan
  | inf (neg : Bool)
  | fin (neg : Bool) (m : Nat) (e : Int)
  deriving DecidableEq, Repr

/-- The number of binary digits of `n`; the first argument bounds the count. -/
def bitLenFuel : Nat → Nat → Nat
  | 0, _ => 0
  | fuel + 1, n => if n = 0 then 0 else bitLenFuel fuel (n / 2) + 1

/-- The number of binary digits of `n`. -/
def bitLen (n : Nat) : Nat :=
  bitLenFuel n n

/-- The exponent of the last place of the binary64 value nearest to a number
with the digits `M` at exponent `E`. -/
def F64.lastPlace (M : Nat) (E : Int) : Int :=
  max (E + (bitLen M : Int) - 53) (-1074)

/-- The digits `M` without their last `s` binary digits, rounded to nearest,
ties to even. -/
def F64.shiftRound (M s : Nat) : Nat :=
  if 2 ^ s < 2 * (M % 2 ^ s) ∨ (2 * (M % 2 ^ s) = 2 ^ s ∧ M / 2 ^ s % 2 = 1) then M / 2 ^ s + 1
  else M / 2 ^ s

/-- The finite value with the given sign, digits and exponent. -/
def F64.finite (neg : Bool) (m : Nat) (e : Int) : F64 :=
  if m = 0 then .fin neg 0 0 else .fin neg m e

/-- The binary64 value nearest to `(-1) ^ neg * M * 2 ^ E`, ties to even;
on overflow an infinity. -/
def F64.round (neg : Bool) (M : Nat) (E : Int) : F64 :=
  if M = 0 then .fin neg 0 0
  else if F64.lastPlace M E ≤ E then
    if 971 < F64.lastPlace M E then .inf neg
    else .fin neg (M * 2 ^ (E - F64.lastPlace M E).toNat) (F64.lastPlace M E)
  else if F64.shiftRound M (F64.lastPlace M E - E).toNat = 2 ^ 53 then
    if 971 < F64.lastPlace M E + 1 then .inf neg else .fin neg (2 ^ 52) (F64.lastPlace M E + 1)
  else if 971 < F64.lastPlace M E then .inf neg
  else F64.finite neg (F64.shiftRound M (F64.lastPlace M E - E).toNat) (F64.lastPlace M E)

/-- The integer `v` with `(-1) ^ neg * m * 2 ^ e = v * 2 ^ e0`, for `e0 ≤ e`. -/
def F64.scaled (neg : Bool) (m : Nat) (e e0 : Int) : Int :=
  (if neg then -(m : Int) else (m : Int)) * ((2 ^ (e - e0).toNat : Nat) : Int)

/-- The sign changed. -/
def F64.neg : F64 → F64
  | .nan => .nan
  | .inf n => .inf (!n)
  | .fin n m e => .fin (!n) m e

/-- The sum, rounded.  An exact zero sum is `-0` only when both terms are
negative. -/
def F64.add : F64 → F64 → F64
  | .nan, _ => .nan
  | _, .nan => .nan
  | .inf n1, .inf n2 => if n1 = n2 then .inf n1 else .nan
  | .inf n1, .fin _ _ _ => .inf n1
  | .fin _ _ _, .inf n2 => .inf n2
  | .fin n1 m1 e1, .fin n2 m2 e2 =>
    if F64.scaled n1 m1 e1 (min e1 e2) + F64.scaled n2 m2 e2 (min e1 e2) = 0 then
      .fin (n1 && n2) 0 0
    else
      F64.round (decide (F64.scaled n1 m1 e1 (min e1 e2) + F64.scaled n2 m2 e2 (min e1 e2) < 0))
        (F64.scaled n1 m1 e1 (min e1 e2) + F64.scaled n2 m2 e2 (min e1 e2)).natAbs (min e1 e2)

/-- The difference, rounded. -/
def F64.sub (a b : F64) : F64 :=
  F64.add a (F64.neg b)

/-- The product, rounded. -/
def F64.mul : F64 → F64 → F64
  | .nan, _ => .nan
  | _, .nan => .nan
  | .inf n1, .inf n2 => .inf (xor n1 n2)
  | .inf n1, .fin n2 m2 _ => if m2 = 0 then .nan else .inf (xor n1 n2)
  | .fin n1 m1 _, .inf n2 => if m1 = 0 then .nan else .inf (xor n1 n2)
  | .fin n1 m1 e1, .fin n2 m2 e2 => F64.round (xor n1 n2) (m1 * m2) (e1 + e2)

/-- The comparison `a > b`: false when an operand is a NaN. -/
def F64.gt : F64 → F64 → Bool
  | .nan, _ => false
  | _, .nan => false
  | .inf n1, .inf n2 => !n1 && n2
  | .inf n1, .fin _ _ _ => !n1
  | .fin _ _ _, .inf n2 => n2
  | .fin n1 m1 e1, .fin n2 m2 e2 =>
    decide (F64.scaled n2 m2 e2 (min e1 e2) < F64.scaled n1 m1 e1 (min e1 e2))

/-- The comparison `a <= b`: false when an operand is a NaN. -/
def F64.le : F64 → F64 → Bool
  | .nan, _ => false
  | _, .nan => false
  | .inf n1, .inf n2 => n1 || !n2
  | .inf n1, .fin _ _ _ => n1
  | .fin _ _ _, .inf n2 => !n2
  | .fin n1 m1 e1, .fin n2 m2 e2 =>
    decide (F64.scaled n1 m1 e1 (min e1 e2) ≤ F64.scaled n2 m2 e2 (min e1 e2))

/-- The conversion of an integer. -/
def F64.ofInt (n : Int) : F64 :=
  F64.round (decide (n < 0)) n.natAbs 0

/-- The binary64 value nearest to `(-1) ^ neg * p / q`, for `0 < q`: the
quotient is taken with more than 64 binary digits, and a last digit records
whether the division left a remainder. -/
def F64.ofRat (neg : Bool) (p q : Nat) : F64 :=
  F64.round neg
    (2 * (p * 2 ^ (64 + bitLen q) / q) + (if p * 2 ^ (64 + bitLen q) % q = 0 then 0 else 1))
    (-((64 + bitLen q : Nat) : Int) - 1)

/-- The value of the decimal constant `m / 10 ^ k`. -/
def F64.ofDecimal (m : Int) (k : Nat) : F64 :=
  F64.ofRat (decide (m < 0)) m.natAbs (10 ^ k)

/-- The absolute value of `m * 2 ^ e` in hundredths, rounded to nearest, ties to
even. -/
def F64.hundredths (m : Nat) (e : Int) : Nat :=
  if 0 ≤ e then m * 100 * 2 ^ e.toNat
  else F64.shiftRound (m * 100) (-e).toNat

/-- The text of `"%.2f"`. -/
def F64.printf2 : F64 → List Char
  | .nan => ['n', 'a', 'n']
  | .inf n => (if n then ['-'] else []) ++ ['i', 'n', 'f']
  | .fin n m e =>
    (if n then ['-'] else []) ++ printNat (F64.hundredths m e / 100) ++
      ['.', digitChar (F64.hundredths m e / 10), digitChar (F64.hundredths m e)]

/-- The library predicate `isxdigit`. -/
def isxdigit (c : Char) : Bool :=
  isdigit c || (65 ≤ c.toNat && c.toNat ≤ 70) || (97 ≤ c.toNat && c.toNat ≤ 102)

/-- The number a run of hexadecimal digits denotes. -/
def hexVal (ds : List Char) : Nat :=
  ds.foldl (fun acc c =>
    16 * acc + (if isdigit c then c.toNat - 48 else if c.toNat ≤ 70 then c.toNat - 55
      else c.toNat - 87)) 0

/-- Whether the input starts with the given lower-case word, in any case. -/
def startsWithWord : List Char → List Char → Bool
  | _, [] => true
  | [], _ :: _ => false
  | c :: s, w :: word => decide (lowerCode c = lowerCode w) && startsWithWord s word

/-- The digits after a point at the start of `s`, read with `digit`. -/
def fractionDigits (digit : Char → Bool) : List Char → List Char
  | [] => []
  | c :: s => if c = '.' then s.takeWhile digit else []

/-- The input after the digits before and after the point. -/
def afterMantissa (digit : Char → Bool) (s : List Char) : List Char :=
  match s.dropWhile digit with
  | [] => []
  | c :: r => if c = '.' then r.dropWhile digit else c :: r

/-- The exponent part at the start of `s`: the letter `mark` in either case, an
optional sign, and digits; 0 when there is none. -/
def exponentPart (mark : Char) : List Char → Int
  | [] => 0
  | c :: s =>
    if lowerCode c = lowerCode mark then
      match s with
      | [] => 0
      | d :: r =>
        if d = '-' then -(digitsVal (r.takeWhile isdigit) : Int)
        else if d = '+' then (digitsVal (r.takeWhile isdigit) : Int)
        else (digitsVal ((d :: r).takeWhile isdigit) : Int)
    else 0

/-- The value `(-1) ^ neg * d * 10 ^ x` of a decimal numeral. -/
def F64.ofDigits10 (neg : Bool) (d : Nat) (x : Int) : F64 :=
  if 0 ≤ x then F64.round neg (d * 10 ^ x.toNat) 0 else F64.ofRat neg d (10 ^ (-x).toNat)

/-- A decimal numeral after its sign: digits with an optional point, then an
optional exponent part. -/
def F64.scanDecimal (neg : Bool) (s : List Char) : Option F64 :=
  if s.takeWhile isdigit = [] ∧ fractionDigits isdigit (s.dropWhile isdigit) = [] then none
  else
    some (F64.ofDigits10 neg
      (digitsVal (s.takeWhile isdigit ++ fractionDigits isdigit (s.dropWhile isdigit)))
      (exponentPart 'e' (afterMantissa isdigit s) -
        ((fractionDigits isdigit (s.dropWhile isdigit)).length : Int)))

/-- A hexadecimal numeral after `0x`: hexadecimal digits with an optional point,
then an optional binary exponent part. -/
def F64.scanHex (neg : Bool) (s : List Char) : Option F64 :=
  if s.takeWhile isxdigit = [] ∧ fractionDigits isxdigit (s.dropWhile isxdigit) = [] then none
  else
    some (F64.round neg
      (hexVal (s.takeWhile isxdigit ++ fractionDigits isxdigit (s.dropWhile isxdigit)))
      (exponentPart 'p' (afterMantissa isxdigit s) -
        4 * ((fractionDigits isxdigit (s.dropWhile isxdigit)).length : Int)))

/-- A numeral after its sign, as `scanf` of the GNU C library reads it: `nan`,
`inf` or `infinity` in any case, a hexadecimal numeral after `0x`, or a decimal
numeral. -/
def F64.scanMagnitude (neg : Bool) (s : List Char) : Option F64 :=
  if startsWithWord s ['n', 'a', 'n'] then some .nan
  else if startsWithWord s ['i', 'n', 'f'] then
    if startsWithWord s ['i', 'n', 'f', 'i'] then
      if startsWithWord s ['i', 'n', 'f', 'i', 'n', 'i', 't', 'y'] then some (.inf neg) else none
    else some (.inf neg)
  else if startsWithWord s ['0', 'x'] then F64.scanHex neg (s.drop 2)
  else F64.scanDecimal neg s

/-- An optionally signed numeral at the start of `s`. -/
def F64.scanSigned : List Char → Option F64
  | [] => none
  | c :: s =>
    if c = '-' then F64.scanMagnitude true s
    else if c = '+' then F64.scanMagnitude false s
    else F64.scanMagnitude false (c :: s)

/-- The conversion `%lf`: white space is skipped, then a numeral is read. -/
def F64.scanDouble (s : List Char) : Option F64 :=
  F64.scanSigned (skipSpace s)

/-- The binary64 arithmetic as an instance of the interface of `double`. -/
instance : CDouble F64 where
  add := F64.add
  sub := F64.sub
  mul := F64.mul
  gt := F64.gt
  le := F64.le
  ofInt := F64.ofInt
  ofDecimal := F64.ofDecimal
  printf2 := F64.printf2
  scanDouble := F64.scanDouble
  gt_eq_false_of_le a b h := by
    cases a with
    | nan => cases b <;> rfl
    | inf n1 =>
      cases b with
      | nan => rfl
      | inf n2 => revert h; cases n1 <;> cases n2 <;> decide
      | fin n2 m2 e2 => revert h; cases n1 <;> simp [F64.le, F64.gt]
    | fin n1 m1 e1 =>
      cases b with
      | nan => rfl
      | inf n2 => revert h; cases n2 <;> simp [F64.le, F64.gt]
      | fin n2 m2 e2 =>
        simp only [F64.le, decide_eq_true_eq] at h
        simp only [F64.gt, decide_eq_false_iff_not, not_lt]
        exact h
  printf2_chars x c hc := by
    have hd : ∀ d : Nat, digitChar d ≠ '\n' ∧ digitChar d ≠ NUL := by
      intro d
      have h10 : d % 10 < 10 := Nat.mod_lt _ (by decide)
      unfold digitChar
      generalize d % 10 = r at h10 ⊢
      interval_cases r <;> decide
    have hn : ∀ fuel n, ∀ c ∈ printNatFuel fuel n, c ≠ '\n' ∧ c ≠ NUL := by
      intro fuel
      induction fuel with
      | zero => intro n c h; simp [printNatFuel] at h
      | succ f ih =>
        intro n c h
        unfold printNatFuel at h
        split at h
        · simp only [List.mem_singleton] at h
          rw [h]; exact hd n
        · rcases List.mem_append.1 h with h1 | h1
          · exact ih _ c h1
          · simp only [List.mem_singleton] at h1
            rw [h1]; exact hd n
    have hsign : ∀ n : Bool, ∀ c ∈ (if n then ['-'] else []), c ≠ '\n' ∧ c ≠ NUL := by
      intro n c h
      cases n
      · simp at h
      · simp only [if_true, List.mem_singleton] at h
        rw [h]; decide
    cases x with
    | nan =>
      simp only [F64.printf2] at hc
      revert c
      decide
    | inf n =>
      simp only [F64.printf2, List.mem_append] at hc
      rcases hc with hc | hc
      · exact hsign n c hc
      · revert c
        decide
    | fin n m e =>
      simp only [F64.printf2, List.mem_append, List.mem_cons, List.mem_singleton] at hc
      rcases hc with (hc | hc) | hc
      · exact hsign n c hc
      · exact hn _ _ c hc
      · rcases hc with hc | hc | hc | hc
        · rw [hc]; decide
        · rw [hc]; exact hd _
        · rw [hc]; exact hd _
        · simp at hc

/-- The spec's words "equals ... ignoring case": the two texts have the same
characters once upper-case letters are replaced by lower-case ones. -/
def equalsIgnoringCase (s t : List Char) : Prop :=
  s.map lowerCode = t.map lowerCode

/-- The charge `updateMonthlyFees` adds for a boat: rate times length, with the
constants of the source. -/
def monthlyCharge {D : Type} [CDouble D] (b : Boat D) : D :=
  match b.locationType with
  | .SLIP => CDouble.mul (CDouble.ofDecimal 125 1) (CDouble.ofInt b.length)
  | .LAND => CDouble.mul (CDouble.ofDecimal 140 1) (CDouble.ofInt b.length)
  | .TRAILOR => CDouble.mul (CDouble.ofDecimal 250 1) (CDouble.ofInt b.length)
  | .STORAGE => CDouble.mul (CDouble.ofDecimal 112 1) (CDouble.ofInt b.length)

/-! ## Sample data -/

/-- The boat of the line `Pier One,20,slip,5,250.00`. -/
def pierOne : Boat Dec :=
  ⟨"Pier One".toList, 20, .slipNumber 5, ⟨25000, 2⟩⟩

/-- A boat on a trailer. -/
def seaBreeze : Boat Dec :=
  ⟨"Sea Breeze".toList, 31, .licenseTag "XY 12".toList, ⟨12345, 1⟩⟩

/-- A boat on land whose name differs from `pierOne` in case only. -/
def pierOneLand : Boat Dec :=
  ⟨"PIER ONE".toList, 7, .bayLetter 'Q', ⟨0, 0⟩⟩

/-- Indeterminate content for the objects a `scanf` call stores into. -/
def sampleFields : Fields Dec :=
  ⟨"J".toList, 99, "junk".toList, "jj".toList, ⟨777, 0⟩⟩

/-- A line of the file whose name field begins with a blank. -/
def spacedLine : List Char :=
  " Pier One,20,slip,5,250.00\n".toList

/-- A line whose length field is not a number. -/
def malformedLengthLine : List Char :=
  "Boat,abc,slip,5,10.00\n".toList

/-- A line whose amount field is not a number. -/
def malformedAmountLine : List Char :=
  "Boat,20,slip,5,abc\n".toList

/-- A line whose slip number is not a number. -/
def malformedSlipLine : List Char :=
  "Boat,20,slip,abc,10.00\n".toList

/-- The file of the scenario: the one line `Pier One,20,slip,5,250.00`. -/
def scenarioFile : List Char :=
  "Pier One,20,slip,5,250.00\n".toList

/-- The boat of the scenario with a given amount owed. -/
def pierOne64 (amount : F64) : Boat F64 :=
  ⟨"Pier One".toList, 20, .slipNumber 5, amount⟩

/-- Indeterminate content for the objects a `scanf` call stores into, with a
binary64 amount. -/
def sampleFields64 : Fields F64 :=
  ⟨"J".toList, 99, "junk".toList, "jj".toList, F64.ofInt 777⟩

/-- A boat of one foot in storage that owes 0.01. -/
def dinghy : Boat F64 :=
  ⟨"Dinghy".toList, 1, .storageNumber 7, F64.ofDecimal 1 2⟩

/-- The comparison `x >= 0` on `double`. -/
def F64.nonneg (x : F64) : Prop :=
  CDouble.le (CDouble.ofInt 0 : F64) x = true

instance (x : F64) : Decidable (F64.nonneg x) := by
  unfold F64.nonneg
  infer_instance

/-- The commands Inventory, Remove, Month, and Payment with an amount that is a
number other than plus infinity. -/
def Command.plain : Command F64 → Prop
  | .inventory => True
  | .add _ _ => False
  | .remove _ => True
  | .payment _ amount => amount ≠ .nan ∧ amount ≠ .inf false
  | .month => True

instance : (c : Command F64) → Decidable (Command.plain c)
  | .inventory => isTrue trivial
  | .add _ _ => isFalse (fun h => h)
  | .remove _ => isTrue trivial
  | .payment _ amount => inferInstanceAs (Decidable (amount ≠ .nan ∧ amount ≠ .inf false))
  | .month => isTrue trivial

/-- The sign test behind `x >= 0`: plus infinity, or a finite value that is not
negative or is zero. -/
def F64.signOk : F64 → Bool
  | .nan => false
  | .inf n => !n
  | .fin n m _ => !n || decide (m = 0)

/-! ## Records that survive a save and a load -/

/-- The values of the C type `int`. -/
def IntRange (n : Int) : Prop :=
  -(2 ^ 31) ≤ n ∧ n < 2 ^ 31

instance (n : Int) : Decidable (IntRange n) := by
  unfold IntRange
  infer_instance

/-- A text that a directive `%127[^,]` reads back from a line of the file: not
empty, at most 127 characters, none of them a comma, a newline or a NUL. -/
def FieldText (s : List Char) : Prop :=
  s ≠ [] ∧ s.length ≤ 127 ∧ ∀ c ∈ s, c ≠ ',' ∧ c ≠ '\n' ∧ c ≠ NUL

instance (s : List Char) : Decidable (FieldText s) := by
  unfold FieldText
  infer_instance

/-- The member of the union is one that its text in the file gives back. -/
def DetailOk : LocationInfo → Prop
  | .slipNumber n => IntRange n
  | .bayLetter c => c ≠ ',' ∧ c ≠ '\n' ∧ c ≠ NUL
  | .licenseTag s => FieldText s
  | .storageNumber n => IntRange n

instance : (l : LocationInfo) → Decidable (DetailOk l)
  | .slipNumber n => inferInstanceAs (Decidable (IntRange n))
  | .bayLetter c => inferInstanceAs (Decidable (c ≠ ',' ∧ c ≠ '\n' ∧ c ≠ NUL))
  | .licenseTag s => inferInstanceAs (Decidable (FieldText s))
  | .storageNumber n => inferInstanceAs (Decidable (IntRange n))

/-- A finite value of the binary64 format: at most 53 binary digits at an
exponent from -1074 to 971. -/
def F64.InFormat : F64 → Prop
  | .nan => False
  | .inf _ => False
  | .fin _ m e => m < 2 ^ 53 ∧ -1074 ≤ e ∧ e ≤ 971

instance : (x : F64) → Decidable (F64.InFormat x)
  | .nan => isFalse (fun h => h)
  | .inf _ => isFalse (fun h => h)
  | .fin _ m e => inferInstanceAs (Decidable (m < 2 ^ 53 ∧ -1074 ≤ e ∧ e ≤ 971))

/-- The number `m * 2 ^ e`. -/
def F64.val (m : Nat) (e : Int) : ℚ :=
  (m : ℚ) * (2 : ℚ) ^ e

/-- The amount rounded to two decimal places: the binary64 value nearest to
`h / 100`, for the number `h` of hundredths that `"%.2f"` prints, with the sign of
the amount.  A NaN and the infinities have no decimal places and are left as
they are. -/
def F64.roundCents : F64 → F64
  | .nan => .nan
  | .inf n => .inf n
  | .fin n m e => F64.ofRat n (F64.hundredths m e) 100

/-- A record whose line in the file `loadBoatsFromCSV` reads back: the name and
a license tag are field texts, the numbers are values of `int`, a bay letter
is not a comma, a newline or a NUL, and the line with its newline fits the
buffer `line` (255 characters and the NUL). -/
def Storable {D : Type} [CDouble D] (b : Boat D) : Prop :=
  FieldText b.name ∧ IntRange b.length ∧ DetailOk b.locationInfo ∧
    (boatLine b).length ≤ 255

instance {D : Type} [CDouble D] (b : Boat D) : Decidable (Storable b) := by
  unfold Storable
  infer_instance

/-- The kind tag `saveBoatsToCSV` writes. -/
def kindTag : LocationInfo → List Char
  | .slipNumber _ => ['s', 'l', 'i', 'p']
  | .bayLetter _ => ['l', 'a', 'n', 'd']
  | .licenseTag _ => ['t', 'r', 'a', 'i', 'l', 'o', 'r']
  | .storageNumber _ => ['s', 't', 'o', 'r', 'a', 'g', 'e']

/-- The detail text `saveBoatsToCSV` writes after the kind tag. -/
def detailText : LocationInfo → List Char
  | .slipNumber n => printInt n
  | .bayLetter c => [c]
  | .licenseTag s => cstr s
  | .storageNumber n => printInt n

/-- A boat with a name and a license tag of 127 characters each. -/
def longBoat : Boat F64 :=
  ⟨List.replicate 127 'a', 20, .licenseTag (List.replicate 127 'b'), F64.ofInt 0⟩

/-- A boat on a trailer that owes 1234.567. -/
def seaBreeze64 : Boat F64 :=
  ⟨"Sea Breeze".toList, 31, .licenseTag "XY 12".toList, F64.ofDecimal 1234567 3⟩

/-- A boat on land with a credit of 0.125. -/
def pierOneLand64 : Boat F64 :=
  ⟨"PIER ONE".toList, 7, .bayLetter 'Q', F64.ofDecimal (-125) 3⟩

/-! ## Facts about `strcasecmp` -/

theorem lowerCode_nonneg (c : Char) : 0 ≤ lowerCode c := by
  unfold lowerCode
  split <;> omega

theorem lowerCode_eq_zero_iff (c : Char) : lowerCode c = 0 ↔ c = NUL := by
  constructor
  · intro h
    have h0 : c.toNat = 0 := by
      unfold lowerCode at h
      split at h <;> omega
    have h1 : Char.ofNat c.toNat = c := Char.ofNat_toNat c
    rw [h0] at h1
    exact h1.symm
  · intro h
    rw [h]
    decide

theorem strcasecmp_swap (a b : List Char) : strcasecmp b a = -strcasecmp a b := by
  induction a generalizing b with
  | nil =>
    cases b with
    | nil => simp [strcasecmp]
    | cons y t => simp [strcasecmp]
  | cons x s ih =>
    cases b with
    | nil => simp [strcasecmp]
    | cons y t =>
      have hx := lowerCode_eq_zero_iff x
      have hy := lowerCode_eq_zero_iff y
      simp only [strcasecmp]
      by_cases hxy : lowerCode x = lowerCode y
      · have hyx : lowerCode y = lowerCode x := hxy.symm
        by_cases hn : x = NUL
        · have hn2 : y = NUL := hy.1 (by rw [hyx]; exact hx.2 hn)
          simp [hxy, hn, hn2]
        · have hn2 : ¬ y = NUL := fun h => hn (hx.1 (by rw [hxy]; exact hy.2 h))
          simp [hxy, hn, hn2, ih t]
      · have hyx : ¬ lowerCode y = lowerCode x := fun h => hxy h.symm
        simp [hxy, hyx]

theorem strcasecmp_trans (a b c : List Char) (h1 : strcasecmp a b ≤ 0)
    (h2 : strcasecmp b c ≤ 0) : strcasecmp a c ≤ 0 := by
  induction a generalizing b c with
  | nil =>
    cases c with
    | nil => simp [strcasecmp]
    | cons z u =>
      have := lowerCode_nonneg z
      simp only [strcasecmp]
      omega
  | cons x s ih =>
    have hx0 := lowerCode_nonneg x
    have hx := lowerCode_eq_zero_iff x
    cases b with
    | nil =>
      simp only [strcasecmp] at h1
      have hxz : lowerCode x = 0 := by omega
      have hn : x = NUL := hx.1 hxz
      cases c with
      | nil => simp only [strcasecmp]; omega
      | cons z u =>
        have hz0 := lowerCode_nonneg z
        simp only [strcasecmp]
        split_ifs <;> omega
    | cons y t =>
      have hy0 := lowerCode_nonneg y
      have hy := lowerCode_eq_zero_iff y
      cases c with
      | nil =>
        simp only [strcasecmp] at h1 h2 ⊢
        split_ifs at h1 <;> omega
      | cons z u =>
        have hz0 := lowerCode_nonneg z
        simp only [strcasecmp] at h1 h2 ⊢
        by_cases hxy : lowerCode x = lowerCode y
        · by_cases hyz : lowerCode y = lowerCode z
          · have hxz : lowerCode x = lowerCode z := hxy.trans hyz
            by_cases hn : x = NUL
            · rw [if_neg (not_not.mpr hxz), if_pos hn]
            · have hn2 : ¬ y = NUL := fun h => hn (hx.1 (by rw [hxy]; exact hy.2 h))
              simp only [hxy, hyz, hxz, hn, hn2, ne_eq, not_true_eq_false, if_false] at h1 h2 ⊢
              exact ih t u h1 h2
          · simp only [hyz, ne_eq, not_false_eq_true, if_true] at h2
            have hxz : ¬ lowerCode x = lowerCode z := by omega
            simp only [hxz, ne_eq, not_false_eq_true, if_true]
            omega
        · simp only [hxy, ne_eq, not_false_eq_true, if_true] at h1
          by_cases hyz : lowerCode y = lowerCode z
          · have hxz : ¬ lowerCode x = lowerCode z := by omega
            simp only [hxz, ne_eq, not_false_eq_true, if_true]
            omega
          · simp only [hyz, ne_eq, not_false_eq_true, if_true] at h2
            have hxz : ¬ lowerCode x = lowerCode z := by omega
            simp only [hxz, ne_eq, not_false_eq_true, if_true]
            omega

theorem strcasecmp_self (a : List Char) : strcasecmp a a = 0 := by
  have h := strcasecmp_swap a a
  omega

theorem strcasecmp_eq_zero_symm (a b : List Char) (h : strcasecmp a b = 0) :
    strcasecmp b a = 0 := by
  rw [strcasecmp_swap a b, h]
  rfl

/-- Names that compare equal compare equal to the same names. -/
theorem strcasecmp_eq_zero_congr (a b c : List Char) (h : strcasecmp a b = 0) :
    strcasecmp a c = 0 ↔ strcasecmp b c = 0 := by
  have hba := strcasecmp_eq_zero_symm a b h
  have s1 := strcasecmp_swap a c
  have s2 := strcasecmp_swap b c
  constructor
  · intro hac
    have t1 := strcasecmp_trans b a c (by omega) (by omega)
    have t2 := strcasecmp_trans c a b (by omega) (by omega)
    omega
  · intro hbc
    have t1 := strcasecmp_trans a b c (by omega) (by omega)
    have t2 := strcasecmp_trans c b a (by omega) (by omega)
    omega

/-- The comparison function of the program is one `qsort` may be called with. -/
theorem compareBoats_consistent (D : Type) : Consistent (compareBoats : Boat D → Boat D → Int) := by
  constructor
  · intro a b
    have h := strcasecmp_swap a.name b.name
    unfold compareBoats
    omega
  · intro a b c h1 h2
    exact strcasecmp_trans a.name b.name c.name h1 h2

/-! ## Payment (C1) -/

theorem paymentLoop_skip {D : Type} [CDouble D] (name : List Char) (payment : D)
    (pre rest : List (Boat D)) (hpre : ∀ x ∈ pre, strcasecmp x.name name ≠ 0) :
    paymentLoop name payment (pre ++ rest) =
      (pre ++ (paymentLoop name payment rest).1, (paymentLoop name payment rest).2) := by
  induction pre with
  | nil => simp
  | cons a pre ih =>
    have ha : strcasecmp a.name name ≠ 0 := hpre a (List.mem_cons_self _ _)
    have ih2 := ih (fun x hx => hpre x (List.mem_cons_of_mem _ hx))
    show paymentLoop name payment (a :: (pre ++ rest)) = _
    simp only [paymentLoop, ha, if_false, ih2, List.cons_append]

theorem acceptPayment_rejected {D : Type} [CDouble D] (name : List Char) (payment : D)
    (pre post : List (Boat D)) (b : Boat D)
    (hpre : ∀ x ∈ pre, strcasecmp x.name name ≠ 0) (hb : strcasecmp b.name name = 0)
    (hgt : CDouble.gt payment b.amountOwed = true) :
    acceptPayment name payment (pre ++ b :: post) =
      (pre ++ b :: post, promptName ++ (promptAmount ++ msgTooMuch b.amountOwed)) := by
  unfold acceptPayment
  rw [paymentLoop_skip name payment pre (b :: post) hpre]
  simp [paymentLoop, hb, hgt]

theorem acceptPayment_accepted {D : Type} [CDouble D] (name : List Char) (payment : D)
    (pre post : List (Boat D)) (b : Boat D)
    (hpre : ∀ x ∈ pre, strcasecmp x.name name ≠ 0) (hb : strcasecmp b.name name = 0)
    (hgt : CDouble.gt payment b.amountOwed = false) :
    acceptPayment name payment (pre ++ b :: post) =
      (pre ++ { b with amountOwed := CDouble.sub b.amountOwed payment } :: post,
        promptName ++ promptAmount) := by
  unfold acceptPayment
  rw [paymentLoop_skip name payment pre (b :: post) hpre]
  simp [paymentLoop, hb, hgt]

theorem acceptPayment_absent {D : Type} [CDouble D] (name : List Char) (payment : D)
    (boats : List (Boat D)) (h : ∀ x ∈ boats, strcasecmp x.name name ≠ 0) :
    acceptPayment name payment boats = (boats, promptName ++ msgNoBoat) := by
  unfold acceptPayment
  have h2 := paymentLoop_skip name payment boats [] h
  rw [List.append_nil] at h2
  rw [h2]
  simp [paymentLoop]

/-- C1: in `acceptPayment`, let `b` be the record found (the first whose name
matches).  If the amount is greater than `b.amountOwed`, the payment is rejected:
the array is unchanged and the report quotes the amount owed.  If the amount is
less than or equal to `b.amountOwed` (more generally, whenever it is not
greater), the array is unchanged except that the new `amountOwed` of `b` is the
old one minus the amount. -/
theorem acceptPayment_found {D : Type} [CDouble D] (name : List Char) (payment : D)
    (pre post : List (Boat D)) (b : Boat D)
    (hpre : ∀ x ∈ pre, strcasecmp x.name name ≠ 0) (hb : strcasecmp b.name name = 0) :
    (CDouble.gt payment b.amountOwed = true →
      acceptPayment name payment (pre ++ b :: post) =
        (pre ++ b :: post, promptName ++ (promptAmount ++ msgTooMuch b.amountOwed))) ∧
    (CDouble.le payment b.amountOwed = true →
      acceptPayment name payment (pre ++ b :: post) =
        (pre ++ { b with amountOwed := CDouble.sub b.amountOwed payment } :: post,
          promptName ++ promptAmount)) ∧
    (CDouble.gt payment b.amountOwed = false →
      acceptPayment name payment (pre ++ b :: post) =
        (pre ++ { b with amountOwed := CDouble.sub b.amountOwed payment } :: post,
          promptName ++ promptAmount)) :=
  ⟨acceptPayment_rejected name payment pre post b hpre hb,
    fun hle => acceptPayment_accepted name payment pre post b hpre hb
      (CDouble.gt_eq_false_of_le _ _ hle),
    acceptPayment_accepted name payment pre post b hpre hb⟩

/-- Witness of C1: a payment of 100.00 for "pier one", found behind `seaBreeze`. -/
theorem acceptPayment_found_witness :
    (∀ x ∈ [seaBreeze], strcasecmp x.name "pier one".toList ≠ 0) ∧
    strcasecmp pierOne.name "pier one".toList = 0 ∧
    CDouble.le (⟨10000, 2⟩ : Dec) pierOne.amountOwed = true ∧
    acceptPayment "pier one".toList (⟨10000, 2⟩ : Dec) ([seaBreeze] ++ pierOne :: [pierOneLand]) =
      ([seaBreeze] ++
          { pierOne with amountOwed := CDouble.sub pierOne.amountOwed (⟨10000, 2⟩ : Dec) } ::
            [pierOneLand],
        promptName ++ promptAmount) :=
  ⟨by decide, by decide, by decide,
    (acceptPayment_found "pier one".toList (⟨10000, 2⟩ : Dec) [seaBreeze] [pierOneLand] pierOne
      (by decide) (by decide)).2.1 (by decide)⟩

/-! ## Monthly fees (C2) -/

/-- C2: after `updateMonthlyFees` the array has the same number of records, and
the record at every index keeps its name, length and location (kind and detail)
while its `amountOwed` is the previous one plus rate times length, the rate
being 12.5 for a slip, 14.0 for land, 25.0 for a trailer and 11.2 for storage. -/
theorem updateMonthlyFees_spec {D : Type} [CDouble D] (boats : List (Boat D)) :
    (updateMonthlyFees boats).length = boats.length ∧
    ∀ (i : Nat) (b : Boat D), boats[i]? = some b →
      ∃ b2 : Boat D, (updateMonthlyFees boats)[i]? = some b2 ∧
        b2.name = b.name ∧ b2.length = b.length ∧ b2.locationInfo = b.locationInfo ∧
        (b.locationType = .SLIP → b2.amountOwed =
          CDouble.add b.amountOwed (CDouble.mul (CDouble.ofDecimal 125 1) (CDouble.ofInt b.length))) ∧
        (b.locationType = .LAND → b2.amountOwed =
          CDouble.add b.amountOwed (CDouble.mul (CDouble.ofDecimal 140 1) (CDouble.ofInt b.length))) ∧
        (b.locationType = .TRAILOR → b2.amountOwed =
          CDouble.add b.amountOwed (CDouble.mul (CDouble.ofDecimal 250 1) (CDouble.ofInt b.length))) ∧
        (b.locationType = .STORAGE → b2.amountOwed =
          CDouble.add b.amountOwed (CDouble.mul (CDouble.ofDecimal 112 1) (CDouble.ofInt b.length))) := by
  refine ⟨by simp [updateMonthlyFees], ?_⟩
  intro i b hb
  refine ⟨monthlyFee b, by simp [updateMonthlyFees, hb], ?_⟩
  unfold monthlyFee
  cases hk : b.locationType <;> simp

/-! ## Removal (C3, C4, C5) -/

theorem removeLoop_skip {D : Type} (name : List Char) (pre rest : List (Boat D))
    (hpre : ∀ x ∈ pre, strcasecmp x.name name ≠ 0) :
    removeLoop name (pre ++ rest) = (removeLoop name rest).map (fun r => pre ++ r) := by
  induction pre with
  | nil => simp
  | cons a pre ih =>
    have ha : strcasecmp a.name name ≠ 0 := hpre a (List.mem_cons_self _ _)
    have ih2 := ih (fun x hx => hpre x (List.mem_cons_of_mem _ hx))
    show removeLoop name (a :: (pre ++ rest)) = _
    simp only [removeLoop, ha, if_false, ih2, Option.map_map]
    rfl

theorem removeBoat_first {D : Type} (name : List Char) (pre post : List (Boat D)) (b : Boat D)
    (hpre : ∀ x ∈ pre, strcasecmp x.name name ≠ 0) (hb : strcasecmp b.name name = 0) :
    removeBoat name (pre ++ b :: post) = (pre ++ post, promptName) := by
  unfold removeBoat
  rw [removeLoop_skip name pre (b :: post) hpre]
  simp [removeLoop, hb]

theorem removeBoat_none {D : Type} (name : List Char) (boats : List (Boat D))
    (h : ∀ x ∈ boats, strcasecmp x.name name ≠ 0) :
    removeBoat name boats = (boats, promptName ++ msgNoBoat) := by
  unfold removeBoat
  have h2 := removeLoop_skip name boats [] h
  rw [List.append_nil] at h2
  rw [h2]
  simp [removeLoop]

/-- An array with a matching record splits at the first one. -/
theorem exists_first_match {D : Type} (name : List Char) (boats : List (Boat D))
    (h : ∃ x ∈ boats, strcasecmp x.name name = 0) :
    ∃ (pre : List (Boat D)) (b : Boat D) (post : List (Boat D)),
      boats = pre ++ b :: post ∧ (∀ x ∈ pre, strcasecmp x.name name ≠ 0) ∧
        strcasecmp b.name name = 0 := by
  induction boats with
  | nil =>
    obtain ⟨x, hx, _⟩ := h
    simp at hx
  | cons a rest ih =>
    by_cases ha : strcasecmp a.name name = 0
    · exact ⟨[], a, rest, rfl, by simp, ha⟩
    · obtain ⟨x, hx, hx0⟩ := h
      have hrest : ∃ x ∈ rest, strcasecmp x.name name = 0 := by
        rcases List.mem_cons.1 hx with h1 | h1
        · rw [h1] at hx0; exact absurd hx0 ha
        · exact ⟨x, h1, hx0⟩
      obtain ⟨pre, b, post, e, hp, hb⟩ := ih hrest
      refine ⟨a :: pre, b, post, by rw [e]; rfl, ?_, hb⟩
      intro y hy
      rcases List.mem_cons.1 hy with h1 | h1
      · rw [h1]; exact ha
      · exact hp y h1

/-- C3: when some record matches the name, `removeBoat` yields the array with the
first matching record deleted: the records before it and after it (later
records of the same name included) stay, in order, and the size decreases by
one. -/
theorem removeBoat_found {D : Type} (name : List Char) (boats : List (Boat D))
    (h : ∃ x ∈ boats, strcasecmp x.name name = 0) :
    ∃ (pre : List (Boat D)) (b : Boat D) (post : List (Boat D)),
      boats = pre ++ b :: post ∧ (∀ x ∈ pre, strcasecmp x.name name ≠ 0) ∧
        strcasecmp b.name name = 0 ∧
        removeBoat name boats = (pre ++ post, promptName) ∧
        (removeBoat name boats).1.length + 1 = boats.length := by
  obtain ⟨pre, b, post, e, hp, hb⟩ := exists_first_match name boats h
  have hr := removeBoat_first name pre post b hp hb
  refine ⟨pre, b, post, e, hp, hb, by rw [e]; exact hr, ?_⟩
  rw [e, hr]
  simp only [List.length_append, List.length_cons]
  omega

/-- Witness of C3: removing "pier one" from three boats, two of that name. -/
theorem removeBoat_found_witness :
    (∃ x ∈ [seaBreeze, pierOne, pierOneLand], strcasecmp x.name "pier one".toList = 0) ∧
    ∃ (pre : List (Boat Dec)) (b : Boat Dec) (post : List (Boat Dec)),
      [seaBreeze, pierOne, pierOneLand] = pre ++ b :: post ∧
        (∀ x ∈ pre, strcasecmp x.name "pier one".toList ≠ 0) ∧
        strcasecmp b.name "pier one".toList = 0 ∧
        removeBoat "pier one".toList [seaBreeze, pierOne, pierOneLand] = (pre ++ post, promptName) ∧
        (removeBoat "pier one".toList [seaBreeze, pierOne, pierOneLand]).1.length + 1 =
          [seaBreeze, pierOne, pierOneLand].length :=
  ⟨by decide,
    removeBoat_found "pier one".toList [seaBreeze, pierOne, pierOneLand] (by decide)⟩

/-- C4: when no record matches the name, `removeBoat` leaves the array as it is
and reports that there is no boat with that name. -/
theorem removeBoat_absent {D : Type} (name : List Char) (boats : List (Boat D))
    (h : ∀ x ∈ boats, strcasecmp x.name name ≠ 0) :
    removeBoat name boats = (boats, promptName ++ msgNoBoat) :=
  removeBoat_none name boats h

/-- Witness of C4: there is no "Pier Two". -/
theorem removeBoat_absent_witness :
    (∀ x ∈ [seaBreeze, pierOne], strcasecmp x.name "Pier Two".toList ≠ 0) ∧
    removeBoat "Pier Two".toList [seaBreeze, pierOne] =
      ([seaBreeze, pierOne], promptName ++ msgNoBoat) :=
  ⟨by decide, removeBoat_absent "Pier Two".toList [seaBreeze, pierOne] (by decide)⟩

/-- C5: when exactly one record matches the name, after `removeBoat` the array is
one record shorter, no record matches the name, and the search of
`acceptPayment` for that name ends without a match (for any amount): it
reports that there is no boat with that name and changes nothing. -/
theorem removeBoat_then_find {D : Type} [CDouble D] (name : List Char) (boats : List (Boat D))
    (h : boats.countP (fun x => decide (strcasecmp x.name name = 0)) = 1) :
    (removeBoat name boats).1.length + 1 = boats.length ∧
    (∀ x ∈ (removeBoat name boats).1, strcasecmp x.name name ≠ 0) ∧
    ∀ payment : D, acceptPayment name payment (removeBoat name boats).1 =
      ((removeBoat name boats).1, promptName ++ msgNoBoat) := by
  have hex : ∃ x ∈ boats, strcasecmp x.name name = 0 := by
    have hpos : 0 < boats.countP (fun x => decide (strcasecmp x.name name = 0)) := by omega
    obtain ⟨x, hx, hx0⟩ := List.countP_pos_iff.1 hpos
    exact ⟨x, hx, by simpa using hx0⟩
  obtain ⟨pre, b, post, e, hp, hb⟩ := exists_first_match name boats hex
  have hr := removeBoat_first name pre post b hp hb
  rw [e] at h ⊢
  rw [hr]
  have hpre0 : pre.countP (fun x => decide (strcasecmp x.name name = 0)) = 0 := by
    rw [List.countP_eq_zero]
    intro x hx
    simpa using hp x hx
  have hpost0 : post.countP (fun x => decide (strcasecmp x.name name = 0)) = 0 := by
    rw [List.countP_append, List.countP_cons_of_pos _ _ (by simpa using hb), hpre0] at h
    omega
  have hnone : ∀ x ∈ pre ++ post, strcasecmp x.name name ≠ 0 := by
    intro x hx
    rcases List.mem_append.1 hx with h1 | h1
    · exact hp x h1
    · have := (List.countP_eq_zero.1 hpost0) x h1
      simpa using this
  exact ⟨by simp only [List.length_append, List.length_cons]; omega, hnone, fun payment => acceptPayment_absent name payment _ hnone⟩

/-- Witness of C5: "sea breeze" occurs once. -/
theorem removeBoat_then_find_witness :
    [pierOne, seaBreeze, pierOneLand].countP
        (fun x => decide (strcasecmp x.name "sea breeze".toList = 0)) = 1 ∧
    ((removeBoat "sea breeze".toList [pierOne, seaBreeze, pierOneLand]).1.length + 1 =
        [pierOne, seaBreeze, pierOneLand].length ∧
      (∀ x ∈ (removeBoat "sea breeze".toList [pierOne, seaBreeze, pierOneLand]).1,
        strcasecmp x.name "sea breeze".toList ≠ 0) ∧
      ∀ payment : Dec,
        acceptPayment "sea breeze".toList payment
            (removeBoat "sea breeze".toList [pierOne, seaBreeze, pierOneLand]).1 =
          ((removeBoat "sea breeze".toList [pierOne, seaBreeze, pierOneLand]).1,
            promptName ++ msgNoBoat)) :=
  ⟨by decide,
    removeBoat_then_find "sea breeze".toList [pierOne, seaBreeze, pierOneLand] (by decide)⟩

/-! ## Add (C6) -/

/-- C6: `addBoat` on an array that holds 120 records (or more) reports that the
marina is full and leaves the array unchanged; on an array with fewer than 120
records it appends the record built from the input as the last element, so the
size grows by one and the existing records keep their places. -/
theorem addBoat_spec {D : Type} [CDouble D] (init : Fields D) (input : List Char)
    (boats : List (Boat D)) :
    (120 ≤ boats.length → addBoat init input boats = (boats, msgFull)) ∧
    (boats.length < 120 →
      addBoat init input boats =
          (boats ++ [mkBoat (scanFields init (skipSpace input))], promptData) ∧
        (addBoat init input boats).1.length = boats.length + 1 ∧
        ∀ (i : Nat) (b : Boat D), boats[i]? = some b → (addBoat init input boats).1[i]? = some b) := by
  constructor
  · intro h
    simp [addBoat, MAX_BOATS, h]
  · intro h
    have hn : ¬ (120 ≤ boats.length) := by omega
    have e : addBoat init input boats =
        (boats ++ [mkBoat (scanFields init (skipSpace input))], promptData) := by
      simp [addBoat, MAX_BOATS, hn]
    refine ⟨e, by rw [e]; simp, ?_⟩
    intro i b hb
    rw [e]
    have hi : i < boats.length := by
      rcases Nat.lt_or_ge i boats.length with h1 | h1
      · exact h1
      · rw [List.getElem?_eq_none h1] at hb
        cases hb
    simp only
    rw [List.getElem?_append_left hi]
    exact hb

/-! ## Loading and the capacity bound (C7) -/

theorem fgetsChars_append (n : Nat) (s : List Char) :
    (fgetsChars n s).1 ++ (fgetsChars n s).2 = s := by
  induction n generalizing s with
  | zero => simp [fgetsChars]
  | succ n ih =>
    cases s with
    | nil => simp [fgetsChars]
    | cons c s =>
      simp only [fgetsChars]
      split
      · simp
      · simp [ih s]

theorem fgetsChars_length_le (n : Nat) (s : List Char) : (fgetsChars n s).1.length ≤ n := by
  induction n generalizing s with
  | zero => simp [fgetsChars]
  | succ n ih =>
    cases s with
    | nil => simp [fgetsChars]
    | cons c s =>
      simp only [fgetsChars]
      split
      · simp
      · have := ih s
        simp only [List.length_cons]
        omega

/-- A call of `fgets` that returns a line takes that line off the file. -/
theorem fgets_cons (file : List Char) (c : Char) (line rest : List Char)
    (h : fgets LINE_SIZE file = (c :: line, rest)) :
    file = (c :: line) ++ rest ∧ (c :: line).length ≤ 255 := by
  unfold fgets LINE_SIZE at h
  have h1 := fgetsChars_append 255 file
  have h2 := fgetsChars_length_le 255 file
  rw [h] at h1 h2
  exact ⟨h1.symm, h2⟩

/-- A call of `fgets` returns no line only at the end of the file. -/
theorem fgets_nil (file : List Char) (rest : List Char)
    (h : fgets LINE_SIZE file = ([], rest)) : file = [] := by
  unfold fgets LINE_SIZE at h
  cases file with
  | nil => rfl
  | cons c s =>
    simp only [fgetsChars, Nat.add_one_sub_one] at h
    split at h <;> simp at h

theorem fgetsAll_nil (fuel : Nat) : fgetsAll fuel [] = [] := by
  cases fuel with
  | zero => rfl
  | succ n => simp [fgetsAll, fgets, fgetsChars, LINE_SIZE]

theorem fgetsAll_fuel_eq (fuel1 fuel2 : Nat) (file : List Char) (h1 : file.length ≤ fuel1)
    (h2 : file.length ≤ fuel2) : fgetsAll fuel1 file = fgetsAll fuel2 file := by
  induction fuel1 generalizing fuel2 file with
  | zero =>
    have : file = [] := List.length_eq_zero.1 (by omega)
    rw [this, fgetsAll_nil, fgetsAll_nil]
  | succ fuel1 ih =>
    cases fuel2 with
    | zero =>
      have : file = [] := List.length_eq_zero.1 (by omega)
      rw [this, fgetsAll_nil, fgetsAll_nil]
    | succ fuel2 =>
      simp only [fgetsAll]
      rcases hg : fgets LINE_SIZE file with ⟨l, rest⟩
      cases l with
      | nil => rfl
      | cons c line =>
        simp only
        have hc := (fgets_cons file c line rest hg).1
        have hlen : rest.length + 1 ≤ file.length := by
          have := congrArg List.length hc
          simp only [List.length_append, List.length_cons] at this
          omega
        rw [ih fuel2 rest (by omega) (by omega)]

/-- More iterations than the file has characters change nothing: `fgetsAll`. -/
theorem fgetsAll_fuel (fuel : Nat) (file : List Char) (h : file.length ≤ fuel) :
    fgetsAll fuel file = fgetsAll file.length file :=
  fgetsAll_fuel_eq fuel file.length file h (le_refl _)

/-- The lines `fgets` delivers make up the file. -/
theorem fileLines_flatten (file : List Char) : (fileLines file).flatten = file := by
  unfold fileLines
  generalize hn : file.length = n
  induction n using Nat.strong_induction_on generalizing file with
  | _ n ih =>
    cases n with
    | zero =>
      have : file = [] := List.length_eq_zero.1 hn
      simp [fgetsAll, this]
    | succ n =>
      simp only [fgetsAll]
      rcases hg : fgets LINE_SIZE file with ⟨l, rest⟩
      cases l with
      | nil =>
        have := fgets_nil file rest hg
        rw [this] at hn
        simp at hn
      | cons c line =>
        simp only
        have hc := (fgets_cons file c line rest hg).1
        have hlen : rest.length ≤ n := by
          have := congrArg List.length hc
          simp only [List.length_append, List.length_cons] at this
          omega
        rw [fgetsAll_fuel n rest hlen, List.flatten_cons, ih rest.length (by omega) rest rfl]
        exact hc.symm

/-- The loop of `loadBoatsFromCSV` fills the free slots with the records of the
first lines. -/
theorem loadLoop_eq {D : Type} [CDouble D] (init : Nat → Fields D) (fuel : Nat)
    (file : List Char) (boats : List (Boat D)) :
    loadLoop init fuel file boats =
      boats ++ recordsFrom init boats.length
        ((fgetsAll fuel file).take (MAX_BOATS - boats.length)) := by
  induction fuel generalizing file boats with
  | zero => simp [loadLoop, fgetsAll, recordsFrom]
  | succ fuel ih =>
    simp only [loadLoop, fgetsAll]
    rcases hg : fgets LINE_SIZE file with ⟨l, rest⟩
    cases l with
    | nil => simp [recordsFrom]
    | cons c line =>
      simp only
      by_cases hlt : boats.length < MAX_BOATS
      · rw [if_pos hlt, ih]
        obtain ⟨m, hm⟩ : ∃ m, MAX_BOATS - boats.length = m + 1 := ⟨MAX_BOATS - boats.length - 1, by omega⟩
        have hm2 : MAX_BOATS - (boats ++ [mkBoat (scanFields (init boats.length) (cstr (c :: line)))]).length = m := by
          simp only [List.length_append, List.length_singleton]
          omega
        rw [hm, hm2, List.take_succ_cons]
        simp [recordsFrom]
      · rw [if_neg hlt]
        have hm : MAX_BOATS - boats.length = 0 := by omega
        rw [hm]
        simp [recordsFrom]

theorem recordsFrom_length {D : Type} [CDouble D] (init : Nat → Fields D) (k : Nat)
    (lines : List (List Char)) : (recordsFrom init k lines).length = lines.length := by
  induction lines generalizing k with
  | nil => rfl
  | cons l rest ih => simp [recordsFrom, ih]

/-- What `loadBoatsFromCSV` loads: the records of the first 120 lines. -/
theorem loadBoatsFromCSV_eq {D : Type} [CDouble D] (init : Nat → Fields D) (file : List Char) :
    loadBoatsFromCSV init file = recordsFrom init 0 ((fileLines file).take 120) := by
  unfold loadBoatsFromCSV fileLines
  rw [loadLoop_eq]
  simp [MAX_BOATS]

/-- More iterations than the file has characters change nothing: `loadLoop`. -/
theorem loadLoop_fuel {D : Type} [CDouble D] (init : Nat → Fields D) (fuel : Nat)
    (file : List Char) (boats : List (Boat D)) (h : file.length ≤ fuel) :
    loadLoop init fuel file boats = loadLoop init file.length file boats := by
  rw [loadLoop_eq, loadLoop_eq, fgetsAll_fuel fuel file h]

theorem paymentLoop_length {D : Type} [CDouble D] (name : List Char) (payment : D)
    (boats : List (Boat D)) : (paymentLoop name payment boats).1.length = boats.length := by
  induction boats with
  | nil => rfl
  | cons b rest ih =>
    simp only [paymentLoop]
    split_ifs <;> simp [ih]

theorem acceptPayment_length {D : Type} [CDouble D] (name : List Char) (payment : D)
    (boats : List (Boat D)) : (acceptPayment name payment boats).1.length = boats.length := by
  have h := paymentLoop_length name payment boats
  unfold acceptPayment
  split <;> rename_i heq <;> rw [heq] at h <;> exact h

theorem removeLoop_length {D : Type} (name : List Char) (boats r : List (Boat D))
    (h : removeLoop name boats = some r) : r.length + 1 = boats.length := by
  induction boats generalizing r with
  | nil => simp [removeLoop] at h
  | cons b rest ih =>
    simp only [removeLoop] at h
    split_ifs at h
    · cases h; rfl
    · cases hr : removeLoop name rest with
      | none => rw [hr] at h; simp at h
      | some r2 =>
        rw [hr] at h
        simp only [Option.map_some', Option.some.injEq] at h
        rw [← h]
        simp [ih r2 hr]

theorem removeBoat_length_le {D : Type} (name : List Char) (boats : List (Boat D)) :
    (removeBoat name boats).1.length ≤ boats.length := by
  unfold removeBoat
  split
  · rename_i r hr
    have := removeLoop_length name boats r hr
    simp only
    omega
  · exact le_refl _

theorem printInventory_perm {D : Type} (Q : Qsort (Boat D)) (boats : List (Boat D)) :
    (printInventory Q boats).Perm boats :=
  Q.perm compareBoats boats (compareBoats_consistent D)

theorem step_length_le {D : Type} [CDouble D] (Q : Qsort (Boat D)) (boats : List (Boat D))
    (cmd : Command D) (h : boats.length ≤ 120) : (step Q boats cmd).length ≤ 120 := by
  cases cmd with
  | inventory =>
    simp only [step]
    rw [(printInventory_perm Q boats).length_eq]
    exact h
  | add init input =>
    simp only [step, addBoat, MAX_BOATS]
    split_ifs with hfull
    · exact h
    · simp only [List.length_append, List.length_singleton]
      omega
  | remove name =>
    simp only [step]
    exact le_trans (removeBoat_length_le name boats) h
  | payment name amount =>
    simp only [step]
    rw [acceptPayment_length]
    exact h
  | month =>
    simp only [step, updateMonthlyFees, List.length_map]
    exact h

theorem runCommands_length_le {D : Type} [CDouble D] (Q : Qsort (Boat D))
    (cmds : List (Command D)) (boats : List (Boat D)) (h : boats.length ≤ 120) :
    (runCommands Q boats cmds).length ≤ 120 := by
  induction cmds generalizing boats with
  | nil => exact h
  | cons cmd rest ih =>
    exact ih (step Q boats cmd) (step_length_le Q boats cmd h)

theorem loadBoatsFromCSV_length {D : Type} [CDouble D] (init : Nat → Fields D)
    (file : List Char) :
    (loadBoatsFromCSV init file).length = min 120 (fileLines file).length := by
  rw [loadBoatsFromCSV_eq, recordsFrom_length, List.length_take]

theorem fgetsChars_count (n : Nat) (s : List Char) :
    ((fgetsChars n s).1).count '\n' ≤ 1 := by
  induction n generalizing s with
  | zero => simp [fgetsChars]
  | succ n ih =>
    cases s with
    | nil => simp [fgetsChars]
    | cons c s =>
      simp only [fgetsChars]
      split_ifs with hc
      · rw [hc]; simp
      · rw [List.count_cons_of_ne (fun h => hc h.symm)]
        exact ih s

theorem fgetsAll_count (fuel : Nat) (file : List Char) :
    ∀ l ∈ fgetsAll fuel file, l.count '\n' ≤ 1 := by
  induction fuel generalizing file with
  | zero => intro l hl; simp [fgetsAll] at hl
  | succ fuel ih =>
    intro l hl
    simp only [fgetsAll] at hl
    rcases hg : fgets LINE_SIZE file with ⟨l1, rest⟩
    rw [hg] at hl
    cases l1 with
    | nil => simp at hl
    | cons c line =>
      simp only [List.mem_cons] at hl
      rcases hl with h | h
      · have hc := fgetsChars_count (LINE_SIZE - 1) file
        unfold fgets at hg
        rw [hg] at hc
        rw [h]; exact hc
      · exact ih rest l h

theorem count_flatten_le (L : List (List Char)) (a : Char) (h : ∀ l ∈ L, l.count a ≤ 1) :
    L.flatten.count a ≤ L.length := by
  induction L with
  | nil => simp
  | cons l L ih =>
    have h1 := h l (List.mem_cons_self _ _)
    have h2 := ih (fun x hx => h x (List.mem_cons_of_mem _ hx))
    simp only [List.flatten_cons, List.count_append, List.length_cons]
    omega

/-- Every newline of the file ends one of the lines `fgets` delivers. -/
theorem count_newline_le_fileLines (file : List Char) :
    file.count '\n' ≤ (fileLines file).length := by
  have h := count_flatten_le (fileLines file) '\n' (fgetsAll_count file.length file)
  rw [fileLines_flatten] at h
  exact h

/-- C7: after `loadBoatsFromCSV` of any file and any sequence of Inventory, Add,
Remove, Payment and Month commands the array holds at most 120 records.  The
load keeps the records of the first 120 lines that `fgets` delivers, so a file
with more than 120 lines (more than 120 lines from `fgets`, in particular more
than 120 newline characters) gives exactly 120 records, and Add on an array of
120 records leaves it unchanged. -/
theorem capacity_invariant {D : Type} [CDouble D] (Q : Qsort (Boat D))
    (init : Nat → Fields D) (file : List Char) (cmds : List (Command D)) :
    (runCommands Q (loadBoatsFromCSV init file) cmds).length ≤ 120 ∧
    loadBoatsFromCSV init file = recordsFrom init 0 ((fileLines file).take 120) ∧
    (120 < (fileLines file).length → (loadBoatsFromCSV init file).length = 120) ∧
    (120 < file.count '\n' → (loadBoatsFromCSV init file).length = 120) ∧
    (∀ (boats : List (Boat D)) (f : Fields D) (input : List Char),
      boats.length = 120 → step Q boats (.add f input) = boats) := by
  have hlen := loadBoatsFromCSV_length init file
  have hcount := count_newline_le_fileLines file
  refine ⟨runCommands_length_le Q cmds _ (by rw [hlen]; exact Nat.min_le_left _ _),
    loadBoatsFromCSV_eq init file, fun h => by rw [hlen]; omega,
    fun h => by rw [hlen]; omega, ?_⟩
  intro boats f input hb
  simp [step, addBoat, MAX_BOATS, hb]

/-! ## Inventory (C8, C9) -/

/-- C8: the sort of `printInventory` leaves a permutation of the records in which
every adjacent pair (indeed every earlier and later pair) satisfies
`compareBoats earlier later <= 0`. -/
theorem printInventory_sorted {D : Type} (Q : Qsort (Boat D)) (boats : List (Boat D)) :
    (printInventory Q boats).Perm boats ∧
    List.Chain' (fun a b => compareBoats a b ≤ 0) (printInventory Q boats) ∧
    List.Pairwise (fun a b => compareBoats a b ≤ 0) (printInventory Q boats) := by
  have hs : List.Pairwise (fun a b => compareBoats a b ≤ 0) (printInventory Q boats) :=
    Q.sorted compareBoats boats (compareBoats_consistent D)
  exact ⟨Q.perm compareBoats boats (compareBoats_consistent D), hs.chain', hs⟩

/-- With any `qsort` that meets the contract of the C standard, the records
whose names compare equal to a given name are after the sort the same records as
before, and they stand next to one another: a record between two records of
equal names has that name too. -/
theorem printInventory_groups {D : Type} (Q : Qsort (Boat D)) (boats : List (Boat D)) :
    (∀ name : List Char,
      ((printInventory Q boats).filter (fun x => decide (strcasecmp x.name name = 0))).Perm
        (boats.filter (fun x => decide (strcasecmp x.name name = 0)))) ∧
    (∀ (i j k : Nat) (a b c : Boat D), i < j → j < k →
      (printInventory Q boats)[i]? = some a → (printInventory Q boats)[j]? = some b →
      (printInventory Q boats)[k]? = some c → compareBoats a c = 0 →
      compareBoats a b = 0 ∧ compareBoats b c = 0) := by
  constructor
  · intro name
    exact (printInventory_perm Q boats).filter _
  · intro i j k a b c hij hjk ha hb hc hac
    have hs : List.Pairwise (fun a b => compareBoats a b ≤ 0) (printInventory Q boats) :=
      Q.sorted compareBoats boats (compareBoats_consistent D)
    rw [List.pairwise_iff_getElem] at hs
    obtain ⟨hi, hai⟩ := List.getElem?_eq_some_iff.1 ha
    obtain ⟨hj, hbj⟩ := List.getElem?_eq_some_iff.1 hb
    obtain ⟨hk, hck⟩ := List.getElem?_eq_some_iff.1 hc
    have hab := hs i j hi hj hij
    have hbc := hs j k hj hk hjk
    rw [hai, hbj] at hab
    rw [hbj, hck] at hbc
    unfold compareBoats at hab hbc hac ⊢
    have hca := strcasecmp_swap a.name c.name
    have hba := strcasecmp_swap a.name b.name
    have hcb := strcasecmp_swap b.name c.name
    have t1 := strcasecmp_trans b.name c.name a.name hbc (by omega)
    have t2 := strcasecmp_trans c.name a.name b.name (by omega) hab
    omega

/-- The merge sort does not depend on the bound of its recursion once the bound
is at least the length of the array. -/
theorem msort_fuel {α : Type} (cmp : α → α → Int) (f : Nat) :
    ∀ (g : Nat) (l : List α), l.length ≤ f → l.length ≤ g → msort cmp f l = msort cmp g l := by
  induction f with
  | zero =>
    intro g l hf hg
    have e1 : l = [] := List.length_eq_zero.mp (by omega)
    subst e1
    cases g <;> simp [msort]
  | succ f ih =>
    intro g l hf hg
    cases g with
    | zero =>
      have e1 : l = [] := List.length_eq_zero.mp (by omega)
      subst e1
      simp [msort]
    | succ g =>
      by_cases h1 : l.length ≤ 1
      · simp only [msort, if_pos h1]
      · simp only [msort, if_neg h1]
        have ht : (l.take (l.length / 2)).length ≤ f := by rw [List.length_take]; omega
        have ht2 : (l.take (l.length / 2)).length ≤ g := by rw [List.length_take]; omega
        have hd : (l.drop (l.length / 2)).length ≤ f := by rw [List.length_drop]; omega
        have hd2 : (l.drop (l.length / 2)).length ≤ g := by rw [List.length_drop]; omega
        rw [ih g _ ht ht2, ih g _ hd hd2]

/-- The merge sort leaves its result in ascending order. -/
theorem msort_sorted {α : Type} (cmp : α → α → Int) (h : Consistent cmp) (f : Nat)
    (l : List α) (hf : l.length ≤ f) : (msort cmp f l).Pairwise (fun a b => cmp a b ≤ 0) := by
  rw [msort_fuel cmp f l.length l hf (le_refl _)]
  exact (qsortMerge α).sorted cmp l h

/-- The merge loop keeps the elements of a class of equal elements in their
order: those of the first run come before those of the second. -/
theorem mergeRuns_filter {α : Type} (cmp : α → α → Int) (h : Consistent cmp) (p : α → Bool)
    (hp : ∀ x y, p x = true → p y = true → cmp x y ≤ 0) (f : Nat) :
    ∀ (l1 l2 : List α), l1.length + l2.length ≤ f →
      l1.Pairwise (fun a b => cmp a b ≤ 0) →
      (mergeRuns cmp f l1 l2).filter p = l1.filter p ++ l2.filter p := by
  induction f with
  | zero =>
    intro l1 l2 hf _
    simp [mergeRuns]
  | succ f ih =>
    intro l1 l2 hf p1
    cases l1 with
    | nil => simp [mergeRuns]
    | cons a l1 =>
      cases l2 with
      | nil => simp [mergeRuns]
      | cons b l2 =>
        simp only [List.length_cons] at hf
        by_cases hab : cmp a b ≤ 0
        · simp only [mergeRuns, if_pos hab]
          rw [List.filter_cons, List.filter_cons,
            ih l1 (b :: l2) (by simp only [List.length_cons]; omega) (List.pairwise_cons.mp p1).2]
          by_cases hpa : p a = true
          · simp [hpa]
          · simp [hpa]
        · simp only [mergeRuns, if_neg hab]
          rw [List.filter_cons,
            ih (a :: l1) l2 (by simp only [List.length_cons]; omega) p1]
          by_cases hpb : p b = true
          · have hnone : (a :: l1).filter p = [] := by
              rw [List.filter_eq_nil_iff]
              intro x hx hpx
              have hxb : cmp x b ≤ 0 := hp x b hpx hpb
              rcases List.mem_cons.mp hx with hx | hx
              · rw [hx] at hxb; exact hab hxb
              · exact hab (h.2 a x b ((List.pairwise_cons.mp p1).1 x hx) hxb)
            rw [hnone]
            simp [hpb]
          · simp [hpb]

/-- The merge sort keeps the elements of a class of equal elements in their
order. -/
theorem msort_filter {α : Type} (cmp : α → α → Int) (h : Consistent cmp) (p : α → Bool)
    (hp : ∀ x y, p x = true → p y = true → cmp x y ≤ 0) (f : Nat) :
    ∀ (l : List α), l.length ≤ f → (msort cmp f l).filter p = l.filter p := by
  induction f with
  | zero => intro l _; simp [msort]
  | succ f ih =>
    intro l hf
    by_cases h1 : l.length ≤ 1
    · simp only [msort, if_pos h1]
    · simp only [msort, if_neg h1]
      have ht : (l.take (l.length / 2)).length ≤ f := by rw [List.length_take]; omega
      have hd : (l.drop (l.length / 2)).length ≤ f := by rw [List.length_drop]; omega
      have hlen : (msort cmp f (l.take (l.length / 2))).length +
          (msort cmp f (l.drop (l.length / 2))).length ≤ l.length := by
        have e1 := ((qsortMerge α).perm cmp (l.take (l.length / 2)) h).length_eq
        have e2 := ((qsortMerge α).perm cmp (l.drop (l.length / 2)) h).length_eq
        rw [msort_fuel cmp f _ _ ht (le_refl _), msort_fuel cmp f _ _ hd (le_refl _)]
        have e3 : (l.take (l.length / 2)).length + (l.drop (l.length / 2)).length = l.length := by
          rw [← List.length_append, List.take_append_drop]
        exact le_of_eq (by
          show ((qsortMerge α).sort cmp (l.take (l.length / 2))).length +
            ((qsortMerge α).sort cmp (l.drop (l.length / 2))).length = l.length
          rw [e1, e2, e3])
      rw [mergeRuns_filter cmp h p hp l.length _ _ hlen (msort_sorted cmp h f _ ht),
        ih _ ht, ih _ hd, ← List.filter_append, List.take_append_drop]

/-- Records whose names compare equal to the same name compare equal. -/
theorem compareBoats_same_name {D : Type} (name : List Char) (x y : Boat D)
    (hx : decide (strcasecmp x.name name = 0) = true)
    (hy : decide (strcasecmp y.name name = 0) = true) : compareBoats x y ≤ 0 := by
  have hx2 : strcasecmp x.name name = 0 := of_decide_eq_true hx
  have hy2 : strcasecmp y.name name = 0 := of_decide_eq_true hy
  have h3 := (strcasecmp_eq_zero_congr x.name name y.name hx2).mpr
    (strcasecmp_eq_zero_symm y.name name hy2)
  unfold compareBoats
  omega

/-- C9: the sort of `printInventory`, run with the `qsort` of the GNU C library
(the merge sort `qsortMerge`), keeps records with equal names in their order.
For every name, the records whose names compare equal to it are after the call
the same sequence as before; and two records with equal names of which the
first stood before the second still stand so.  On `pierOne` followed by
`pierOneLand`, whose names differ in case only, the array is left as it was. -/
theorem printInventory_stable {D : Type} (boats : List (Boat D)) :
    (∀ name : List Char,
      (printInventory (qsortMerge (Boat D)) boats).filter
          (fun x => decide (strcasecmp x.name name = 0)) =
        boats.filter (fun x => decide (strcasecmp x.name name = 0))) ∧
    (∀ a b : Boat D, compareBoats a b = 0 → List.Sublist [a, b] boats →
      List.Sublist [a, b] (printInventory (qsortMerge (Boat D)) boats)) ∧
    compareBoats pierOne pierOneLand = 0 ∧
    printInventory (qsortMerge (Boat Dec)) [pierOne, pierOneLand] = [pierOne, pierOneLand] := by
  have hfilter : ∀ name : List Char,
      (printInventory (qsortMerge (Boat D)) boats).filter
          (fun x => decide (strcasecmp x.name name = 0)) =
        boats.filter (fun x => decide (strcasecmp x.name name = 0)) := fun name =>
    msort_filter compareBoats (compareBoats_consistent D) _
      (compareBoats_same_name name) boats.length boats (le_refl _)
  refine ⟨hfilter, ?_, by decide, by decide⟩
  intro a b hab hsub
  have hpa : decide (strcasecmp a.name a.name = 0) = true :=
    decide_eq_true (strcasecmp_self a.name)
  have hpb : decide (strcasecmp b.name a.name = 0) = true :=
    decide_eq_true (strcasecmp_eq_zero_symm a.name b.name hab)
  have h1 : List.Sublist ([a, b].filter (fun x => decide (strcasecmp x.name a.name = 0)))
      (boats.filter (fun x => decide (strcasecmp x.name a.name = 0))) := hsub.filter _
  rw [← hfilter a.name] at h1
  have h2 : [a, b].filter (fun x => decide (strcasecmp x.name a.name = 0)) = [a, b] := by
    rw [List.filter_cons, if_pos hpa, List.filter_cons, if_pos hpb, List.filter_nil]
  rw [h2] at h1
  exact h1.trans (List.filter_sublist _)

/-! ## Text lemmas for the round trip -/

theorem digitChar_toNat (d : Nat) : (digitChar d).toNat = 48 + d % 10 := by
  have h10 : d % 10 < 10 := Nat.mod_lt _ (by decide)
  unfold digitChar
  generalize d % 10 = r at h10 ⊢
  interval_cases r <;> rfl

theorem isdigit_iff (c : Char) : isdigit c = true ↔ 48 ≤ c.toNat ∧ c.toNat ≤ 57 := by
  simp [isdigit]

theorem isdigit_digitChar (d : Nat) : isdigit (digitChar d) = true := by
  rw [isdigit_iff, digitChar_toNat]
  omega

theorem printNatFuel_eq (f1 f2 n : Nat) (h1 : n < f1) (h2 : n < f2) :
    printNatFuel f1 n = printNatFuel f2 n := by
  induction f1 generalizing f2 n with
  | zero => omega
  | succ f1 ih =>
    cases f2 with
    | zero => omega
    | succ f2 =>
      simp only [printNatFuel]
      split_ifs with h
      · rfl
      · rw [ih f2 (n / 10) (by omega) (by omega)]

theorem printNat_unfold (n : Nat) :
    printNat n = if n < 10 then [digitChar n] else printNat (n / 10) ++ [digitChar n] := by
  show printNatFuel (n + 1) n =
    if n < 10 then [digitChar n] else printNatFuel (n / 10 + 1) (n / 10) ++ [digitChar n]
  rw [printNatFuel]
  split_ifs with h
  · rfl
  · rw [printNatFuel_eq n (n / 10 + 1) (n / 10) (by omega) (by omega)]

theorem printNat_isdigit (n : Nat) : ∀ c ∈ printNat n, isdigit c = true := by
  induction n using Nat.strong_induction_on with
  | _ n ih =>
    intro c hc
    rw [printNat_unfold] at hc
    split_ifs at hc with h
    · rw [List.mem_singleton] at hc
      rw [hc]; exact isdigit_digitChar n
    · rcases List.mem_append.1 hc with h1 | h1
      · exact ih (n / 10) (by omega) c h1
      · rw [List.mem_singleton] at h1
        rw [h1]; exact isdigit_digitChar n

theorem printNat_ne_nil (n : Nat) : printNat n ≠ [] := by
  rw [printNat_unfold]
  split_ifs <;> simp

theorem digitsVal_append_singleton (l : List Char) (c : Char) :
    digitsVal (l ++ [c]) = 10 * digitsVal l + (c.toNat - 48) := by
  simp [digitsVal, List.foldl_append]

theorem digitsVal_printNat (n : Nat) : digitsVal (printNat n) = n := by
  induction n using Nat.strong_induction_on with
  | _ n ih =>
    rw [printNat_unfold]
    split_ifs with h
    · simp only [digitsVal, List.foldl_cons, List.foldl_nil, digitChar_toNat]
      omega
    · rw [digitsVal_append_singleton, ih (n / 10) (by omega), digitChar_toNat]
      omega

theorem printNat_length_le (k n : Nat) (h : n < 10 ^ (k + 1)) : (printNat n).length ≤ k + 1 := by
  induction k generalizing n with
  | zero =>
    rw [printNat_unfold, if_pos (by simpa using h)]
    simp
  | succ k ih =>
    rw [printNat_unfold]
    split_ifs with h10
    · simp
    · have hdiv : n / 10 < 10 ^ (k + 1) := by
        rw [Nat.div_lt_iff_lt_mul (by decide)]
        rw [pow_succ] at h
        exact h
      have := ih (n / 10) hdiv
      simp only [List.length_append, List.length_singleton]
      omega

theorem takeWhile_append_stop {α : Type} (p : α → Bool) (l r : List α)
    (hl : ∀ c ∈ l, p c = true) (hr : ∀ c ∈ r.head?, p c = false) :
    (l ++ r).takeWhile p = l ∧ (l ++ r).dropWhile p = r := by
  induction l with
  | nil =>
    cases r with
    | nil => simp
    | cons c r =>
      have := hr c (by simp)
      simp [List.takeWhile, List.dropWhile, this]
  | cons a l ih =>
    have ha := hl a (List.mem_cons_self _ _)
    have ih2 := ih (fun c hc => hl c (List.mem_cons_of_mem _ hc))
    simp [List.takeWhile, List.dropWhile, ha, ih2.1, ih2.2]

theorem toInt32_clampLong (v : Int) (h1 : -(2 ^ 31) ≤ v) (h2 : v < 2 ^ 31) :
    toInt32 (clampLong v) = v := by
  have e : clampLong v = v := by
    unfold clampLong
    rw [if_neg (by omega), if_neg (by omega)]
  rw [e]
  unfold toInt32
  omega

theorem scanUnsigned_printNat (negative : Bool) (m : Nat) (r : List Char)
    (hr : ∀ c ∈ r.head?, isdigit c = false) :
    scanUnsigned negative (printNat m ++ r) =
      some (toInt32 (clampLong (if negative then -(m : Int) else (m : Int))), r) := by
  have ht := takeWhile_append_stop isdigit (printNat m) r (printNat_isdigit m) hr
  unfold scanUnsigned
  rw [ht.1, ht.2, if_neg (printNat_ne_nil m), digitsVal_printNat]


theorem cstr_eq_self (s : List Char) (h : ∀ c ∈ s, c ≠ NUL) : cstr s = s := by
  unfold cstr
  rw [List.takeWhile_eq_self_iff]
  intro c hc
  simpa using h c hc

theorem isdigit_ne (c : Char) (h : isdigit c = true) :
    c ≠ ',' ∧ c ≠ '\n' ∧ c ≠ NUL ∧ c ≠ '-' ∧ c ≠ '+' ∧ isspace c = false := by
  refine ⟨?_, ?_, ?_, ?_, ?_, ?_⟩
  · intro e; rw [e] at h; revert h; decide
  · intro e; rw [e] at h; revert h; decide
  · intro e; rw [e] at h; revert h; decide
  · intro e; rw [e] at h; revert h; decide
  · intro e; rw [e] at h; revert h; decide
  · rw [isdigit_iff] at h
    have hsp : c ≠ ' ' := by
      intro e; rw [e] at h; revert h; decide
    simp only [isspace, Bool.or_eq_false_iff, decide_eq_false_iff_not, Bool.and_eq_false_iff,
      not_le]
    exact ⟨hsp, by omega⟩

theorem printInt_chars (n : Int) : ∀ c ∈ printInt n, c = '-' ∨ isdigit c = true := by
  intro c hc
  unfold printInt at hc
  split_ifs at hc
  · rcases List.mem_cons.1 hc with h1 | h1
    · exact Or.inl h1
    · exact Or.inr (printNat_isdigit _ c h1)
  · exact Or.inr (printNat_isdigit _ c hc)

theorem printInt_plain (n : Int) : ∀ c ∈ printInt n, c ≠ ',' ∧ c ≠ '\n' ∧ c ≠ NUL := by
  intro c hc
  rcases printInt_chars n c hc with h | h
  · rw [h]; decide
  · have := isdigit_ne c h
    exact ⟨this.1, this.2.1, this.2.2.1⟩

theorem printInt_ne_nil (n : Int) : printInt n ≠ [] := by
  unfold printInt
  split_ifs
  · simp
  · exact printNat_ne_nil _

theorem printInt_length_le (n : Int) (h : IntRange n) : (printInt n).length ≤ 11 := by
  have hm : n.natAbs < 10 ^ (9 + 1) := by
    unfold IntRange at h
    omega
  have := printNat_length_le 9 n.natAbs hm
  unfold printInt
  split_ifs
  · simp only [List.length_cons]; omega
  · omega

/-- The text `%d` writes for a value of `int` is a field text. -/
theorem printInt_fieldText (n : Int) (h : IntRange n) : FieldText (printInt n) :=
  ⟨printInt_ne_nil n, by have := printInt_length_le n h; omega, printInt_plain n⟩

theorem scanSigned_printInt (n : Int) (r : List Char) (hn : IntRange n)
    (hr : ∀ c ∈ r.head?, isdigit c = false) :
    scanSigned (printInt n ++ r) = some (n, r) := by
  unfold IntRange at hn
  unfold printInt
  split_ifs with hneg
  · show scanSigned ('-' :: (printNat n.natAbs ++ r)) = _
    simp only [scanSigned, if_true]
    rw [scanUnsigned_printNat true _ r hr, if_pos rfl, toInt32_clampLong _ (by omega) (by omega)]
    congr 2
    omega
  · cases hp : printNat n.natAbs with
    | nil => exact absurd hp (printNat_ne_nil _)
    | cons c s =>
      have hc : isdigit c = true := printNat_isdigit n.natAbs c (by rw [hp]; simp)
      have hne := isdigit_ne c hc
      show scanSigned (c :: (s ++ r)) = _
      simp only [scanSigned, if_neg hne.2.2.2.1, if_neg hne.2.2.2.2.1]
      have e : c :: (s ++ r) = printNat n.natAbs ++ r := by rw [hp]; rfl
      rw [e, scanUnsigned_printNat false _ r hr]
      simp only [Bool.false_eq_true, if_false]
      rw [toInt32_clampLong _ (by omega) (by omega)]
      congr 2
      omega

theorem skipSpace_printInt (n : Int) (r : List Char) :
    skipSpace (printInt n ++ r) = printInt n ++ r := by
  cases hp : printInt n with
  | nil => exact absurd hp (printInt_ne_nil n)
  | cons c s =>
    have hc : isspace c = false := by
      rcases printInt_chars n c (by rw [hp]; simp) with h | h
      · rw [h]; decide
      · exact (isdigit_ne c h).2.2.2.2.2
    simp [skipSpace, List.dropWhile, hc]

theorem scanInt_printInt (n : Int) (r : List Char) (hn : IntRange n)
    (hr : ∀ c ∈ r.head?, isdigit c = false) : scanInt (printInt n ++ r) = some (n, r) := by
  unfold scanInt
  rw [skipSpace_printInt, scanSigned_printInt n r hn hr]

theorem atoi_printInt (n : Int) (hn : IntRange n) : atoi (printInt n) = n := by
  have h := scanSigned_printInt n [] hn (by simp)
  have h2 := skipSpace_printInt n []
  rw [List.append_nil] at h h2
  unfold atoi
  rw [h2, h]

theorem takeWhile_take_field (w : Nat) (f r : List Char) (hlen : f.length ≤ w)
    (hc : ∀ c ∈ f, c ≠ ',') :
    ((f ++ ',' :: r).take w).takeWhile (fun c => c ≠ ',') = f := by
  induction f generalizing w with
  | nil =>
    cases w with
    | zero => simp
    | succ w => simp [List.takeWhile]
  | cons a f ih =>
    cases w with
    | zero => simp at hlen
    | succ w =>
      have ha : a ≠ ',' := hc a (List.mem_cons_self _ _)
      have ih2 := ih w (by simpa using hlen) (fun c h => hc c (List.mem_cons_of_mem _ h))
      show List.takeWhile (fun c => decide (c ≠ ',')) (a :: List.take w (f ++ ',' :: r)) = a :: f
      rw [List.takeWhile_cons_of_pos (by simpa using ha), ih2]

/-- A directive `%N[^,]` reads a text without comma and NUL back when the text
is followed by a comma. -/
theorem scanSet_field (w : Nat) (f r : List Char) (hne : f ≠ []) (hlen : f.length ≤ w)
    (hc : ∀ c ∈ f, c ≠ ',') (hnul : ∀ c ∈ f, c ≠ NUL) :
    scanSet w (f ++ ',' :: r) = some (f, ',' :: r) := by
  unfold scanSet
  rw [takeWhile_take_field w f r hlen hc, if_neg hne, cstr_eq_self f hnul]
  simp

theorem not_isdigit_comma_head (r : List Char) : ∀ c ∈ (',' :: r).head?, isdigit c = false := by
  intro c hc
  simp only [List.head?_cons, Option.mem_def, Option.some.injEq] at hc
  rw [← hc]
  decide

/-- The five directives read a line `name,length,tag,detail,amount` back. -/
theorem scanFields_csv {D : Type} [CDouble D] (init : Fields D) (name : List Char) (len : Int)
    (tag detail amt : List Char) (y : D)
    (hname : name ≠ [] ∧ name.length ≤ 127 ∧ ∀ c ∈ name, c ≠ ',' ∧ c ≠ NUL)
    (hlen : IntRange len)
    (htag : tag ≠ [] ∧ tag.length ≤ 9 ∧ ∀ c ∈ tag, c ≠ ',' ∧ c ≠ NUL)
    (hdetail : detail ≠ [] ∧ detail.length ≤ 127 ∧ ∀ c ∈ detail, c ≠ ',' ∧ c ≠ NUL)
    (hy : CDouble.scanDouble amt = some y) :
    scanFields init
        (name ++ ',' :: (printInt len ++ ',' :: (tag ++ ',' :: (detail ++ ',' :: amt)))) =
      { name := name, length := len, locationStr := tag, extraInfo := detail,
        amountOwed := y } := by
  unfold scanFields
  rw [scanSet_field 127 name _ hname.1 hname.2.1 (fun c h => (hname.2.2 c h).1)
    (fun c h => (hname.2.2 c h).2)]
  simp only [matchChar, if_true]
  rw [scanInt_printInt len _ hlen (not_isdigit_comma_head _)]
  simp only [matchChar, if_true]
  rw [scanSet_field 9 tag _ htag.1 htag.2.1 (fun c h => (htag.2.2 c h).1)
    (fun c h => (htag.2.2 c h).2)]
  simp only [matchChar, if_true]
  rw [scanSet_field 127 detail _ hdetail.1 hdetail.2.1 (fun c h => (hdetail.2.2 c h).1)
    (fun c h => (hdetail.2.2 c h).2)]
  simp only [matchChar, if_true]
  rw [hy]

theorem kindTag_ok (l : LocationInfo) :
    kindTag l ≠ [] ∧ (kindTag l).length ≤ 9 ∧ ∀ c ∈ kindTag l, c ≠ ',' ∧ c ≠ '\n' ∧ c ≠ NUL := by
  cases l <;> refine ⟨by simp [kindTag], by simp [kindTag], ?_⟩ <;> simp only [kindTag] <;> decide

theorem detailText_ok (l : LocationInfo) (h : DetailOk l) :
    detailText l ≠ [] ∧ (detailText l).length ≤ 127 ∧
      ∀ c ∈ detailText l, c ≠ ',' ∧ c ≠ '\n' ∧ c ≠ NUL := by
  cases l with
  | slipNumber n => exact printInt_fieldText n h
  | bayLetter c =>
    refine ⟨by simp [detailText], by simp [detailText], ?_⟩
    intro d hd
    simp only [detailText, List.mem_singleton] at hd
    rw [hd]; exact h
  | licenseTag s =>
    have e : cstr s = s := cstr_eq_self s (fun c hc => (h.2.2 c hc).2.2)
    simp only [detailText, e]
    exact h
  | storageNumber n => exact printInt_fieldText n h

/-- The statements after the `scanf` call rebuild the member of the union from
the tag and the detail text. -/
theorem mkBoat_fields {D : Type} (name : List Char) (len : Int) (l : LocationInfo) (y : D)
    (h : DetailOk l) :
    mkBoat { name := name, length := len, locationStr := kindTag l, extraInfo := detailText l,
             amountOwed := y } =
      { name := name, length := len, locationInfo := l, amountOwed := y } := by
  cases l with
  | slipNumber n =>
    have e : getLocationType ['s', 'l', 'i', 'p'] = .SLIP := by decide
    simp only [mkBoat, kindTag, detailText, e, atoi_printInt n h]
  | bayLetter c =>
    have e : getLocationType ['l', 'a', 'n', 'd'] = .LAND := by decide
    simp only [mkBoat, kindTag, detailText, e, List.headD_cons]
  | licenseTag s =>
    have e : getLocationType ['t', 'r', 'a', 'i', 'l', 'o', 'r'] = .TRAILOR := by decide
    have e2 : cstr s = s := cstr_eq_self s (fun c hc => (h.2.2 c hc).2.2)
    have e3 : s.take MAX_NAME_LENGTH = s := by
      apply List.take_of_length_le
      have := h.2.1
      unfold MAX_NAME_LENGTH
      omega
    simp only [mkBoat, kindTag, detailText, e, e2, e3]
  | storageNumber n =>
    have e : getLocationType ['s', 't', 'o', 'r', 'a', 'g', 'e'] = .STORAGE := by decide
    simp only [mkBoat, kindTag, detailText, e, atoi_printInt n h]

/-- The line of a boat, field by field. -/
theorem boatLine_eq {D : Type} [CDouble D] (b : Boat D) :
    boatLine b =
      cstr b.name ++ ',' :: (printInt b.length ++ ',' :: (kindTag b.locationInfo ++
        ',' :: (detailText b.locationInfo ++ ',' :: (CDouble.printf2 b.amountOwed ++ ['\n'])))) := by
  unfold boatLine
  cases b.locationInfo <;> simp [kindTag, detailText]

/-- The text of a line before its newline. -/
theorem boatLine_body {D : Type} [CDouble D] (b : Boat D) (hs : Storable b) :
    ∃ body : List Char, boatLine b = body ++ ['\n'] ∧ ∀ c ∈ body, c ≠ '\n' ∧ c ≠ NUL := by
  obtain ⟨hname, _, hdet, _⟩ := hs
  have e : cstr b.name = b.name := cstr_eq_self _ (fun c hc => (hname.2.2 c hc).2.2)
  refine ⟨b.name ++ ',' :: (printInt b.length ++ ',' :: (kindTag b.locationInfo ++
        ',' :: (detailText b.locationInfo ++ ',' :: CDouble.printf2 b.amountOwed))), ?_, ?_⟩
  · rw [boatLine_eq, e]
    simp
  · intro c hc
    have hcomma : (',' : Char) ≠ '\n' ∧ (',' : Char) ≠ NUL := by decide
    simp only [List.mem_append, List.mem_cons] at hc
    rcases hc with h | h | h | h | h | h | h | h | h
    · exact (hname.2.2 c h).2
    · rw [h]; exact hcomma
    · exact (printInt_plain _ c h).2
    · rw [h]; exact hcomma
    · exact ((kindTag_ok _).2.2 c h).2
    · rw [h]; exact hcomma
    · exact ((detailText_ok _ hdet).2.2 c h).2
    · rw [h]; exact hcomma
    · exact CDouble.printf2_chars _ c h

/-- Loading the line of a storable boat gives the boat back, with the amount
that `%lf` reads from the text of its amount. -/
theorem reload_line {D : Type} [CDouble D] (init : Fields D) (b : Boat D) (hs : Storable b)
    (y : D) (hy : CDouble.scanDouble (CDouble.printf2 b.amountOwed ++ ['\n']) = some y) :
    mkBoat (scanFields init (cstr (boatLine b))) = { b with amountOwed := y } := by
  obtain ⟨body, hbody, hchars⟩ := boatLine_body b hs
  have hnul : ∀ c ∈ boatLine b, c ≠ NUL := by
    intro c hc
    rw [hbody] at hc
    rcases List.mem_append.1 hc with h | h
    · exact (hchars c h).2
    · rw [List.mem_singleton] at h
      rw [h]; decide
  obtain ⟨hname, hlen, hdet, _⟩ := hs
  have e : cstr b.name = b.name := cstr_eq_self _ (fun c hc => (hname.2.2 c hc).2.2)
  rw [cstr_eq_self _ hnul, boatLine_eq, e,
    scanFields_csv init b.name b.length (kindTag b.locationInfo) (detailText b.locationInfo)
      (CDouble.printf2 b.amountOwed ++ ['\n']) y
      ⟨hname.1, hname.2.1, fun c hc => ⟨(hname.2.2 c hc).1, (hname.2.2 c hc).2.2⟩⟩ hlen
      ⟨(kindTag_ok _).1, (kindTag_ok _).2.1,
        fun c hc => ⟨((kindTag_ok _).2.2 c hc).1, ((kindTag_ok _).2.2 c hc).2.2⟩⟩
      ⟨(detailText_ok _ hdet).1, (detailText_ok _ hdet).2.1,
        fun c hc => ⟨((detailText_ok _ hdet).2.2 c hc).1, ((detailText_ok _ hdet).2.2 c hc).2.2⟩⟩
      hy,
    mkBoat_fields b.name b.length b.locationInfo y hdet]

theorem fgetsChars_line (body rest : List Char) (n : Nat) (hb : ∀ c ∈ body, c ≠ '\n')
    (hlen : body.length + 1 ≤ n) :
    fgetsChars n (body ++ '\n' :: rest) = (body ++ ['\n'], rest) := by
  induction body generalizing n with
  | nil =>
    obtain ⟨m, rfl⟩ : ∃ m, n = m + 1 := ⟨n - 1, by simp at hlen; omega⟩
    simp [fgetsChars]
  | cons a body ih =>
    obtain ⟨m, rfl⟩ : ∃ m, n = m + 1 := ⟨n - 1, by simp at hlen; omega⟩
    have ha : a ≠ '\n' := hb a (List.mem_cons_self _ _)
    have ih2 := ih m (fun c hc => hb c (List.mem_cons_of_mem _ hc))
      (by simp only [List.length_cons] at hlen; omega)
    show fgetsChars (m + 1) (a :: (body ++ '\n' :: rest)) = _
    simp only [fgetsChars, if_neg ha, ih2, List.cons_append]

/-- One call of `fgets` reads the line of a storable boat. -/
theorem fgets_boatLine {D : Type} [CDouble D] (b : Boat D) (hs : Storable b) (rest : List Char) :
    fgets LINE_SIZE (boatLine b ++ rest) = (boatLine b, rest) := by
  obtain ⟨body, hbody, hchars⟩ := boatLine_body b hs
  have hlen : (boatLine b).length ≤ 255 := hs.2.2.2
  rw [hbody] at hlen ⊢
  simp only [List.length_append, List.length_singleton] at hlen
  unfold fgets LINE_SIZE
  rw [List.append_assoc]
  exact fgetsChars_line body rest 255 (fun c hc => (hchars c hc).1) hlen

/-- The lines `fgets` delivers from a file of storable boats are their lines. -/
theorem fileLines_save {D : Type} [CDouble D] (boats : List (Boat D))
    (hs : ∀ b ∈ boats, Storable b) : fileLines (saveBoatsToCSV boats) = boats.map boatLine := by
  induction boats with
  | nil => rfl
  | cons b rest ih =>
    have hb : Storable b := hs b (List.mem_cons_self _ _)
    have ih2 := ih (fun x hx => hs x (List.mem_cons_of_mem _ hx))
    obtain ⟨body, hbody, _⟩ := boatLine_body b hb
    obtain ⟨c, line, hcl⟩ : ∃ c line, boatLine b = c :: line := by
      cases hl : boatLine b with
      | nil => rw [hl] at hbody; simp at hbody
      | cons c line => exact ⟨c, line, rfl⟩
    have hg := fgets_boatLine b hb (saveBoatsToCSV rest)
    unfold fileLines at ih2 ⊢
    simp only [saveBoatsToCSV, List.map_cons]
    obtain ⟨n, hn⟩ : ∃ n, (boatLine b ++ saveBoatsToCSV rest).length = n + 1 :=
      ⟨line.length + (saveBoatsToCSV rest).length, by
        rw [hcl]; simp only [List.length_append, List.length_cons]; omega⟩
    rw [hn]
    simp only [fgetsAll, hg]
    rw [hcl] at hn ⊢
    simp only
    rw [fgetsAll_fuel n (saveBoatsToCSV rest) (by
      simp only [List.length_append, List.length_cons] at hn; omega), ih2]

theorem skipSpace_eq_self (s : List Char) (h : ∀ c ∈ s.head?, isspace c = false) :
    skipSpace s = s := by
  cases s with
  | nil => rfl
  | cons c r =>
    have hc := h c (by simp)
    simp [skipSpace, List.dropWhile, hc]

theorem lowerCode_digit (c : Char) (h : isdigit c = true) :
    48 ≤ lowerCode c ∧ lowerCode c ≤ 57 := by
  rw [isdigit_iff] at h
  unfold lowerCode
  split <;> omega

/-- A word is not found where the input has another character. -/
theorem startsWithWord_stop (t r : List Char) (x w : Char) (word : List Char)
    (ht : ∀ c ∈ t, lowerCode c ≠ lowerCode w) (hx : lowerCode x ≠ lowerCode w) :
    startsWithWord (t ++ x :: r) (w :: word) = false := by
  cases t with
  | nil => simp [startsWithWord, hx]
  | cons c t => simp [startsWithWord, ht c (List.mem_cons_self _ _)]

/-- The digits of the hundredths `h`, as `"%.2f"` prints them, denote `h`. -/
theorem digitsVal_cents (h : Nat) :
    digitsVal (printNat (h / 100) ++ [digitChar (h / 10), digitChar h]) = h := by
  have e : printNat (h / 100) ++ [digitChar (h / 10), digitChar h] =
      (printNat (h / 100) ++ [digitChar (h / 10)]) ++ [digitChar h] := by simp
  rw [e, digitsVal_append_singleton, digitsVal_append_singleton, digitsVal_printNat,
    digitChar_toNat, digitChar_toNat]
  omega

/-- The numeral with digits, a point and two more digits, read by `%lf` when a
newline follows. -/
theorem F64.scanMagnitude_cents (neg : Bool) (q : Nat) (d1 d2 : Char) (rest : List Char)
    (h1 : isdigit d1 = true) (h2 : isdigit d2 = true) :
    F64.scanMagnitude neg (printNat q ++ '.' :: d1 :: d2 :: '\n' :: rest) =
      some (F64.ofRat neg (digitsVal (printNat q ++ [d1, d2])) 100) := by
  have hdig : ∀ (w : Char), 58 ≤ lowerCode w → ∀ c ∈ printNat q, lowerCode c ≠ lowerCode w := by
    intro w hw c hc
    have := lowerCode_digit c (printNat_isdigit q c hc)
    omega
  have hnan : startsWithWord (printNat q ++ '.' :: d1 :: d2 :: '\n' :: rest) ['n', 'a', 'n'] =
      false := startsWithWord_stop _ _ _ _ _ (hdig 'n' (by decide)) (by decide)
  have hinf : startsWithWord (printNat q ++ '.' :: d1 :: d2 :: '\n' :: rest) ['i', 'n', 'f'] =
      false := startsWithWord_stop _ _ _ _ _ (hdig 'i' (by decide)) (by decide)
  have hhex : startsWithWord (printNat q ++ '.' :: d1 :: d2 :: '\n' :: rest) ['0', 'x'] =
      false := by
    cases hp : printNat q with
    | nil => exact absurd hp (printNat_ne_nil q)
    | cons c t =>
      have ht : ∀ c ∈ t, lowerCode c ≠ lowerCode 'x' := fun c hc =>
        hdig 'x' (by decide) c (by rw [hp]; exact List.mem_cons_of_mem _ hc)
      show startsWithWord (c :: (t ++ '.' :: d1 :: d2 :: '\n' :: rest)) ['0', 'x'] = false
      simp only [startsWithWord]
      rw [startsWithWord_stop t _ '.' 'x' [] ht (by decide), Bool.and_false]
  have hstop : ∀ c ∈ ('.' :: d1 :: d2 :: '\n' :: rest).head?, isdigit c = false := by
    intro c hc
    simp only [List.head?_cons, Option.mem_def, Option.some.injEq] at hc
    rw [← hc]
    decide
  obtain ⟨htake, hdrop⟩ := takeWhile_append_stop isdigit (printNat q)
    ('.' :: d1 :: d2 :: '\n' :: rest) (printNat_isdigit q) hstop
  have hnl : isdigit '\n' = false := by decide
  have hfrac : fractionDigits isdigit ('.' :: d1 :: d2 :: '\n' :: rest) = [d1, d2] := by
    simp [fractionDigits, List.takeWhile, h1, h2, hnl]
  have hafter : afterMantissa isdigit (printNat q ++ '.' :: d1 :: d2 :: '\n' :: rest) =
      '\n' :: rest := by
    unfold afterMantissa
    rw [hdrop]
    simp [List.dropWhile, h1, h2, hnl]
  have hexp : exponentPart 'e' ('\n' :: rest) = 0 := by
    have hne : ¬ lowerCode '\n' = lowerCode 'e' := by decide
    simp only [exponentPart, if_neg hne]
  unfold F64.scanMagnitude
  rw [hnan, hinf, hhex]
  simp only [Bool.false_eq_true, if_false]
  unfold F64.scanDecimal
  rw [htake, hdrop, hfrac, hafter, hexp]
  have hnot : ¬ (printNat q = [] ∧ [d1, d2] = []) := fun h => printNat_ne_nil q h.1
  rw [if_neg hnot]
  have hneg : ¬ ((0 : Int) ≤ 0 - (([d1, d2] : List Char).length : Int)) := by
    simp
  unfold F64.ofDigits10
  rw [if_neg hneg]
  have hpow : (10 : Nat) ^ (-((0 : Int) - (([d1, d2] : List Char).length : Int))).toNat = 100 := by
    simp
  rw [hpow]

/-- The conversion `%lf` reads from the text `"%.2f"` wrote for a finite amount
the amount rounded to two decimal places, whatever follows the newline. -/
theorem F64.scanDouble_printf2 (x : F64) (hx : F64.InFormat x) (rest : List Char) :
    F64.scanDouble (F64.printf2 x ++ '\n' :: rest) = some (F64.roundCents x) := by
  cases x with
  | nan => exact absurd hx id
  | inf n => exact absurd hx id
  | fin n m e =>
    have hd1 := isdigit_digitChar (F64.hundredths m e / 10)
    have hd2 := isdigit_digitChar (F64.hundredths m e)
    have hmag := F64.scanMagnitude_cents n (F64.hundredths m e / 100) _ _ rest hd1 hd2
    rw [digitsVal_cents] at hmag
    cases n with
    | true =>
      have e1 : F64.printf2 (.fin true m e) ++ '\n' :: rest =
          '-' :: (printNat (F64.hundredths m e / 100) ++ '.' ::
            digitChar (F64.hundredths m e / 10) :: digitChar (F64.hundredths m e) ::
              '\n' :: rest) := by
        simp [F64.printf2]
      have hsp : isspace '-' = false := by decide
      rw [e1]
      unfold F64.scanDouble
      rw [skipSpace_eq_self _ (by
        intro c hc
        simp only [List.head?_cons, Option.mem_def, Option.some.injEq] at hc
        rw [← hc]; exact hsp)]
      simp only [F64.scanSigned, if_true]
      rw [hmag]
      rfl
    | false =>
      have e1 : F64.printf2 (.fin false m e) ++ '\n' :: rest =
          printNat (F64.hundredths m e / 100) ++ '.' ::
            digitChar (F64.hundredths m e / 10) :: digitChar (F64.hundredths m e) ::
              '\n' :: rest := by
        simp [F64.printf2]
      rw [e1]
      cases hp : printNat (F64.hundredths m e / 100) with
      | nil => exact absurd hp (printNat_ne_nil _)
      | cons c t =>
        have hc : isdigit c = true :=
          printNat_isdigit _ c (by rw [hp]; exact List.mem_cons_self _ _)
        have hcn := isdigit_ne c hc
        rw [hp] at hmag
        unfold F64.scanDouble
        rw [skipSpace_eq_self _ (by
          intro d hd
          simp only [List.cons_append, List.head?_cons, Option.mem_def,
            Option.some.injEq] at hd
          rw [← hd]; exact hcn.2.2.2.2.2)]
        show F64.scanSigned (c :: (t ++ _)) = _
        simp only [F64.scanSigned, if_neg hcn.2.2.2.1, if_neg hcn.2.2.2.2.1]
        exact hmag

/-! ## Rounding to two decimal places

The value that `%lf` reads from a two-decimal numeral is the binary64 value
nearest to it.  The amount that was printed is a binary64 value within half a
hundredth of the numeral, so the value read is at least as near, and prints
with the same hundredths. -/

theorem bitLenFuel_lt (fuel : Nat) : ∀ n : Nat, n ≤ fuel → n < 2 ^ bitLenFuel fuel n := by
  induction fuel with
  | zero =>
    intro n h
    have : n = 0 := by omega
    subst this
    simp [bitLenFuel]
  | succ f ih =>
    intro n h
    by_cases hn : n = 0
    · subst hn
      simp [bitLenFuel]
    · simp only [bitLenFuel, if_neg hn]
      have h2 := ih (n / 2) (by omega)
      rw [pow_succ]
      omega

theorem bitLenFuel_ge (fuel : Nat) :
    ∀ n : Nat, n ≤ fuel → 0 < n → 0 < bitLenFuel fuel n ∧ 2 ^ (bitLenFuel fuel n - 1) ≤ n := by
  induction fuel with
  | zero => intro n h hn; omega
  | succ f ih =>
    intro n h hn
    have hn0 : n ≠ 0 := by omega
    simp only [bitLenFuel, if_neg hn0]
    refine ⟨by omega, ?_⟩
    simp only [Nat.add_sub_cancel]
    by_cases h2 : n / 2 = 0
    · rw [h2]
      have : bitLenFuel f 0 = 0 := by cases f <;> simp [bitLenFuel]
      rw [this]
      simp
      omega
    · obtain ⟨hp, hg⟩ := ih (n / 2) (by omega) (by omega)
      obtain ⟨k, hk⟩ : ∃ k, bitLenFuel f (n / 2) = k + 1 := ⟨bitLenFuel f (n / 2) - 1, by omega⟩
      rw [hk] at hg ⊢
      simp only [Nat.add_sub_cancel] at hg
      rw [pow_succ]
      omega

theorem bitLen_spec (n : Nat) (hn : 0 < n) :
    0 < bitLen n ∧ 2 ^ (bitLen n - 1) ≤ n ∧ n < 2 ^ bitLen n :=
  ⟨(bitLenFuel_ge n n (le_refl _) hn).1, (bitLenFuel_ge n n (le_refl _) hn).2,
    bitLenFuel_lt n n (le_refl _)⟩

/-- Rounding to nearest, ties to even, in whole numbers: the result is within
half a unit, and in a tie it is even. -/
theorem F64.shiftRound_spec (M s : Nat) :
    2 * (F64.shiftRound M s * 2 ^ s) ≤ 2 * M + 2 ^ s ∧
    2 * M ≤ 2 * (F64.shiftRound M s * 2 ^ s) + 2 ^ s ∧
    ((2 * (F64.shiftRound M s * 2 ^ s) = 2 * M + 2 ^ s ∨
        2 * M = 2 * (F64.shiftRound M s * 2 ^ s) + 2 ^ s) → F64.shiftRound M s % 2 = 0) := by
  have hT : 0 < 2 ^ s := Nat.pow_pos (by decide)
  have hdm := Nat.div_add_mod M (2 ^ s)
  have hR := Nat.mod_lt M hT
  have hsucc : (M / 2 ^ s + 1) * 2 ^ s = 2 ^ s * (M / 2 ^ s) + 2 ^ s := by ring
  have hmul : M / 2 ^ s * 2 ^ s = 2 ^ s * (M / 2 ^ s) := by ring
  unfold F64.shiftRound
  split_ifs with hc
  · rw [hsucc]
    generalize 2 ^ s * (M / 2 ^ s) = X at *
    generalize M % 2 ^ s = R at *
    generalize 2 ^ s = T at *
    generalize M / T = A at *
    omega
  · rw [hmul]
    generalize 2 ^ s * (M / 2 ^ s) = X at *
    generalize M % 2 ^ s = R at *
    generalize 2 ^ s = T at *
    generalize M / T = A at *
    omega

/-- Rounding the quotient `h * 2 ^ 72 / 100`, given by its whole part and a last
digit that records a remainder, at `s ≥ 2` digits from its end: the result is
within half a unit of the exact quotient. -/
theorem F64.sticky_spec (h s : Nat) (hs : 2 ≤ s) :
    100 * (((2 * (h * 2 ^ 71 / 100) + (if h * 2 ^ 71 % 100 = 0 then 0 else 1)) / 2 ^ s) * 2 ^ s) ≤
      h * 2 ^ 72 ∧
    (2 * (h * 2 ^ 71 / 100) + (if h * 2 ^ 71 % 100 = 0 then 0 else 1)) / 2 ^ s ≤
      F64.shiftRound (2 * (h * 2 ^ 71 / 100) + (if h * 2 ^ 71 % 100 = 0 then 0 else 1)) s ∧
    2 * (100 * (F64.shiftRound
        (2 * (h * 2 ^ 71 / 100) + (if h * 2 ^ 71 % 100 = 0 then 0 else 1)) s * 2 ^ s)) ≤
      2 * (h * 2 ^ 72) + 100 * 2 ^ s ∧
    2 * (h * 2 ^ 72) ≤
      2 * (100 * (F64.shiftRound
        (2 * (h * 2 ^ 71 / 100) + (if h * 2 ^ 71 % 100 = 0 then 0 else 1)) s * 2 ^ s)) +
        100 * 2 ^ s := by
  obtain ⟨k, hk⟩ : ∃ k, s = k + 2 := ⟨s - 2, by omega⟩
  have hT4 : 0 < 2 ^ k := Nat.pow_pos (by decide)
  have hT : 2 ^ s = 4 * 2 ^ k := by rw [hk, pow_add]; ring
  have hP : h * 2 ^ 72 = 2 * (h * 2 ^ 71) := by ring
  have hq := Nat.div_add_mod (h * 2 ^ 71) 100
  have hr := Nat.mod_lt (h * 2 ^ 71) (by decide : 0 < 100)
  generalize h * 2 ^ 72 = P at *
  generalize h * 2 ^ 71 % 100 = rem at *
  generalize h * 2 ^ 71 / 100 = Q at *
  generalize h * 2 ^ 71 = P2 at *
  have hM : ∃ M, M = 2 * Q + (if rem = 0 then 0 else 1) := ⟨_, rfl⟩
  obtain ⟨M, hM⟩ := hM
  rw [← hM]
  have hst : (rem = 0 ∧ M = 2 * Q) ∨ (0 < rem ∧ M = 2 * Q + 1) := by
    by_cases h0 : rem = 0
    · left; simp [h0] at hM; exact ⟨h0, hM⟩
    · right; simp [h0] at hM; exact ⟨by omega, hM⟩
  clear hM
  have hdm := Nat.div_add_mod M (2 ^ s)
  have hR := Nat.mod_lt M (by rw [hT]; omega : 0 < 2 ^ s)
  have hsucc : (M / 2 ^ s + 1) * 2 ^ s = 2 ^ s * (M / 2 ^ s) + 2 ^ s := by ring
  have hmul : M / 2 ^ s * 2 ^ s = 2 ^ s * (M / 2 ^ s) := by ring
  have hX : 2 ^ s * (M / 2 ^ s) = 4 * (2 ^ k * (M / 2 ^ s)) := by rw [hT]; ring
  unfold F64.shiftRound
  split_ifs with hc
  · rw [hsucc, hmul]
    rw [hX] at hdm ⊢
    generalize 2 ^ k * (M / 2 ^ s) = Y at *
    generalize M % 2 ^ s = R at *
    generalize M / 2 ^ s = A at *
    rw [hT] at hc hR ⊢
    generalize 2 ^ k = T4 at *
    omega
  · rw [hmul]
    rw [hX] at hdm ⊢
    generalize 2 ^ k * (M / 2 ^ s) = Y at *
    generalize M % 2 ^ s = R at *
    generalize M / 2 ^ s = A at *
    rw [hT] at hc hR ⊢
    generalize 2 ^ k = T4 at *
    omega

/-- The bounds of a rounded quotient of whole numbers, as a distance. -/
theorem abs_div_sub_le (M r T : Nat) (hT : 0 < T) (h1 : 2 * (r * T) ≤ 2 * M + T)
    (h2 : 2 * M ≤ 2 * (r * T) + T) :
    |(M : ℚ) / T - r| ≤ 1 / 2 ∧
      (|(M : ℚ) / T - r| = 1 / 2 → 2 * (r * T) = 2 * M + T ∨ 2 * M = 2 * (r * T) + T) := by
  have hTq : (0 : ℚ) < T := by exact_mod_cast hT
  have hw : (M : ℚ) / T * T = M := div_mul_cancel₀ _ (ne_of_gt hTq)
  have q1 : (2 : ℚ) * (r * T) ≤ 2 * M + T := by exact_mod_cast h1
  have q2 : (2 : ℚ) * M ≤ 2 * (r * T) + T := by exact_mod_cast h2
  generalize (M : ℚ) / T = w at hw ⊢
  rw [← hw] at q1 q2
  have b1 : (r : ℚ) - w ≤ 1 / 2 := by
    apply le_of_mul_le_mul_right _ hTq
    linarith
  have b2 : w - (r : ℚ) ≤ 1 / 2 := by
    apply le_of_mul_le_mul_right _ hTq
    linarith
  refine ⟨abs_le.mpr ⟨by linarith, b2⟩, ?_⟩
  intro ht
  rcases abs_eq (by norm_num : (0 : ℚ) ≤ 1 / 2) |>.mp ht with h | h
  · right
    have e : (2 : ℚ) * M = 2 * (r * T) + T := by
      rw [← hw]
      have : w = r + 1 / 2 := by linarith
      rw [this]; ring
    exact_mod_cast e
  · left
    have e : (2 : ℚ) * (r * T) = 2 * M + T := by
      rw [← hw]
      have : w = r - 1 / 2 := by linarith
      rw [this]; ring
    exact_mod_cast e

theorem F64.val_nonneg_exp (m : Nat) (e : Int) (he : 0 ≤ e) :
    F64.val m e = ((m * 2 ^ e.toNat : Nat) : ℚ) := by
  unfold F64.val
  obtain ⟨k, rfl⟩ := Int.eq_ofNat_of_zero_le he
  simp [zpow_natCast]

theorem F64.val_neg_exp (m : Nat) (e : Int) (he : e < 0) :
    F64.val m e = (m : ℚ) / ((2 ^ (-e).toNat : Nat) : ℚ) := by
  unfold F64.val
  obtain ⟨k, hk⟩ : ∃ k : Nat, e = -(k : Int) := ⟨(-e).toNat, by omega⟩
  subst hk
  simp [zpow_neg, zpow_natCast, div_eq_mul_inv]

/-- The hundredths that `"%.2f"` prints are the whole number nearest to
`100 * m * 2 ^ e`, the even one of two that are equally near. -/
theorem F64.hundredths_spec (m : Nat) (e : Int) :
    |100 * F64.val m e - (F64.hundredths m e : ℚ)| ≤ 1 / 2 ∧
      (|100 * F64.val m e - (F64.hundredths m e : ℚ)| = 1 / 2 → F64.hundredths m e % 2 = 0) := by
  by_cases he : 0 ≤ e
  · have hv := F64.val_nonneg_exp m e he
    have hh : (F64.hundredths m e : ℚ) = 100 * F64.val m e := by
      rw [hv]
      simp only [F64.hundredths, if_pos he]
      push_cast
      ring
    rw [hh]
    simp
  · have he2 : e < 0 := not_le.mp he
    have hv := F64.val_neg_exp m e he2
    have hT : 0 < 2 ^ (-e).toNat := Nat.pow_pos (by decide)
    obtain ⟨h1, h2, h3⟩ := F64.shiftRound_spec (m * 100) (-e).toNat
    have hh : F64.hundredths m e = F64.shiftRound (m * 100) (-e).toNat := by
      simp only [F64.hundredths, if_neg he]
    obtain ⟨a1, a2⟩ := abs_div_sub_le (m * 100) (F64.shiftRound (m * 100) (-e).toNat)
      (2 ^ (-e).toNat) hT h1 h2
    have hx : 100 * F64.val m e = ((m * 100 : Nat) : ℚ) / ((2 ^ (-e).toNat : Nat) : ℚ) := by
      rw [hv]
      push_cast
      ring
    rw [hh, hx]
    exact ⟨a1, fun ht => h3 (a2 ht)⟩

/-- Two whole numbers nearest to the same number, each even if in a tie, are
the same. -/
theorem nearest_even_unique (w : ℚ) (a b : Nat) (ha : |w - a| ≤ 1 / 2)
    (ha2 : |w - a| = 1 / 2 → a % 2 = 0) (hb : |w - b| ≤ 1 / 2)
    (hb2 : |w - b| = 1 / 2 → b % 2 = 0) : a = b := by
  have key : ∀ (a b : Nat), a < b → |w - a| ≤ 1 / 2 → (|w - a| = 1 / 2 → a % 2 = 0) →
      |w - b| ≤ 1 / 2 → (|w - b| = 1 / 2 → b % 2 = 0) → False := by
    intro a b hab ha ha2 hb hb2
    have h1 : (a : ℚ) + 1 ≤ b := by exact_mod_cast hab
    obtain ⟨a1, a3⟩ := abs_le.mp ha
    obtain ⟨b1, b3⟩ := abs_le.mp hb
    have e1 : w - a = 1 / 2 := by linarith
    have e2 : w - b = -(1 / 2) := by linarith
    have e3 : (b : ℚ) = a + 1 := by linarith
    have e4 : b = a + 1 := by exact_mod_cast e3
    have p1 := ha2 (by rw [e1]; norm_num)
    have p2 := hb2 (by rw [e2]; norm_num)
    omega
  rcases Nat.lt_trichotomy a b with h | h | h
  · exact absurd (key a b h ha ha2 hb hb2) id
  · exact h
  · exact absurd (key b a h hb hb2 ha ha2) id

/-- The hundredths are determined by the property of `hundredths_spec`. -/
theorem F64.hundredths_unique (m : Nat) (e : Int) (h : Nat)
    (h1 : |100 * F64.val m e - (h : ℚ)| ≤ 1 / 2)
    (h2 : |100 * F64.val m e - (h : ℚ)| = 1 / 2 → h % 2 = 0) : F64.hundredths m e = h :=
  nearest_even_unique (100 * F64.val m e) _ _ (F64.hundredths_spec m e).1
    (F64.hundredths_spec m e).2 h1 h2

/-- The binary64 value nearest to `h / 100`, for `0 < h`: its digits `m0` and
the exponent `L` of its last place, with the distance of `m0 * 2 ^ L` from
`h / 100` at most half a unit of the last place. -/
theorem F64.ofRat_cents (n : Bool) (h : Nat) (hh : 0 < h) :
    ∃ (m0 : Nat) (L : Int),
      F64.ofRat n h 100 =
        (if m0 = 2 ^ 53 then (if 971 < L + 1 then .inf n else .fin n (2 ^ 52) (L + 1))
         else if 971 < L then .inf n else .fin n m0 L) ∧
      2 ^ 52 ≤ m0 ∧
      100 * (2 : ℚ) ^ (52 : Nat) * (2 : ℚ) ^ L ≤ h ∧
      |100 * (m0 : ℚ) * (2 : ℚ) ^ L - h| ≤ 50 * (2 : ℚ) ^ L := by
  have hb100 : bitLen 100 = 7 := by decide
  obtain ⟨M, hM⟩ : ∃ M, M = 2 * (h * 2 ^ 71 / 100) + (if h * 2 ^ 71 % 100 = 0 then 0 else 1) :=
    ⟨_, rfl⟩
  have hof : F64.ofRat n h 100 = F64.round n M (-72) := by
    unfold F64.ofRat
    rw [hb100, hM]
    rfl
  have hQ : 2 ^ 64 ≤ h * 2 ^ 71 / 100 := by
    rw [Nat.le_div_iff_mul_le (by decide)]
    have : 1 * 2 ^ 71 ≤ h * 2 ^ 71 := Nat.mul_le_mul_right _ hh
    omega
  have hM65 : 2 ^ 65 ≤ M := by
    rw [hM]
    have : (2 : Nat) ^ 65 = 2 * 2 ^ 64 := by norm_num
    omega
  have hM0 : M ≠ 0 := by
    have : 0 < 2 ^ 65 := Nat.pow_pos (by decide)
    omega
  obtain ⟨_, hb1, hb2⟩ := bitLen_spec M (by omega)
  have hb : 66 ≤ bitLen M := by
    by_contra hlt
    have : 2 ^ bitLen M ≤ 2 ^ 65 := Nat.pow_le_pow_right (by decide) (by omega)
    omega
  obtain ⟨s, hs⟩ : ∃ s, bitLen M = s + 53 := ⟨bitLen M - 53, by omega⟩
  have hlp : F64.lastPlace M (-72) = (s : Int) - 72 := by
    unfold F64.lastPlace
    rw [hs]
    push_cast
    omega
  have hsn : (F64.lastPlace M (-72) - (-72)).toNat = s := by
    rw [hlp]
    omega
  have hnot : ¬ (F64.lastPlace M (-72) ≤ -72) := by
    rw [hlp]
    omega
  obtain ⟨s1, s2, s3, s4⟩ := F64.sticky_spec h s (by omega)
  rw [← hM] at s1 s2 s3 s4
  have hA : 2 ^ 52 ≤ M / 2 ^ s := by
    rw [Nat.le_div_iff_mul_le (Nat.pow_pos (by decide))]
    have : bitLen M - 1 = 52 + s := by omega
    rw [this, pow_add] at hb1
    exact hb1
  have hm0 : 2 ^ 52 ≤ F64.shiftRound M s := le_trans hA s2
  have hm0ne : F64.shiftRound M s ≠ 0 := by
    have : 0 < 2 ^ 52 := Nat.pow_pos (by decide)
    omega
  refine ⟨F64.shiftRound M s, (s : Int) - 72, ?_, hm0, ?_, ?_⟩
  · rw [hof]
    unfold F64.round
    rw [if_neg hM0, if_neg hnot, hsn, hlp]
    simp only [F64.finite, if_neg hm0ne]
  · have hu : (2 : ℚ) ^ ((s : Int) - 72) * (2 : ℚ) ^ (72 : Nat) = (2 : ℚ) ^ s := by
      rw [← zpow_natCast, ← zpow_natCast, ← zpow_add₀ (by norm_num : (2 : ℚ) ≠ 0)]
      congr 1
      omega
    have q1 : (100 : ℚ) * ((M / 2 ^ s : Nat) * (2 : ℚ) ^ s) ≤ h * (2 : ℚ) ^ (72 : Nat) := by
      exact_mod_cast s1
    have qA : ((2 : ℚ) ^ (52 : Nat)) ≤ ((M / 2 ^ s : Nat) : ℚ) := by exact_mod_cast hA
    have hpos : (0 : ℚ) < (2 : ℚ) ^ (72 : Nat) := by positivity
    have hupos : (0 : ℚ) < (2 : ℚ) ^ ((s : Int) - 72) := by positivity
    rw [← hu] at q1
    apply le_of_mul_le_mul_right _ hpos
    calc 100 * (2 : ℚ) ^ (52 : Nat) * (2 : ℚ) ^ ((s : Int) - 72) * (2 : ℚ) ^ (72 : Nat)
        ≤ 100 * ((M / 2 ^ s : Nat) : ℚ) * (2 : ℚ) ^ ((s : Int) - 72) * (2 : ℚ) ^ (72 : Nat) := by
          gcongr
      _ = 100 * (((M / 2 ^ s : Nat) : ℚ) *
            ((2 : ℚ) ^ ((s : Int) - 72) * (2 : ℚ) ^ (72 : Nat))) := by ring
      _ ≤ h * (2 : ℚ) ^ (72 : Nat) := q1
  · have hu : (2 : ℚ) ^ ((s : Int) - 72) * (2 : ℚ) ^ (72 : Nat) = (2 : ℚ) ^ s := by
      rw [← zpow_natCast, ← zpow_natCast, ← zpow_add₀ (by norm_num : (2 : ℚ) ≠ 0)]
      congr 1
      omega
    have q3 : (2 : ℚ) * (100 * ((F64.shiftRound M s : ℚ) * (2 : ℚ) ^ s)) ≤
        2 * (h * (2 : ℚ) ^ (72 : Nat)) + 100 * (2 : ℚ) ^ s := by exact_mod_cast s3
    have q4 : (2 : ℚ) * (h * (2 : ℚ) ^ (72 : Nat)) ≤
        2 * (100 * ((F64.shiftRound M s : ℚ) * (2 : ℚ) ^ s)) + 100 * (2 : ℚ) ^ s := by
      exact_mod_cast s4
    have hpos : (0 : ℚ) < (2 : ℚ) ^ (72 : Nat) := by positivity
    rw [← hu] at q3 q4
    generalize (2 : ℚ) ^ ((s : Int) - 72) = u at q3 q4 ⊢
    generalize (2 : ℚ) ^ (72 : Nat) = c at q3 q4 hpos
    generalize (F64.shiftRound M s : ℚ) = r at q3 q4 ⊢
    rw [abs_le]
    constructor
    · apply le_of_mul_le_mul_right _ hpos
      linarith
    · apply le_of_mul_le_mul_right _ hpos
      linarith

/-- A binary64 value either is the value nearest to `h / 100` or lies at least
half a unit of that value's last place from `h / 100`. -/
theorem F64.cents_nearest (m0 : Nat) (L : Int) (h m : Nat) (e : Int) (hm : m < 2 ^ 53)
    (h52 : 100 * (2 : ℚ) ^ (52 : Nat) * (2 : ℚ) ^ L ≤ h)
    (hd : |100 * (m0 : ℚ) * (2 : ℚ) ^ L - h| ≤ 50 * (2 : ℚ) ^ L) :
    F64.val m e = (m0 : ℚ) * (2 : ℚ) ^ L ∨ 50 * (2 : ℚ) ^ L ≤ |100 * F64.val m e - h| := by
  have hu : (0 : ℚ) < (2 : ℚ) ^ L := by positivity
  obtain ⟨d1, d2⟩ := abs_le.mp hd
  by_cases hle : L ≤ e
  · obtain ⟨j, hj⟩ : ∃ j : Nat, e = (j : Int) + L := ⟨(e - L).toNat, by omega⟩
    have hv : F64.val m e = ((m * 2 ^ j : Nat) : ℚ) * (2 : ℚ) ^ L := by
      unfold F64.val
      rw [hj, zpow_add₀ (by norm_num : (2 : ℚ) ≠ 0), zpow_natCast]
      push_cast
      ring
    rw [hv]
    generalize m * 2 ^ j = k
    rcases Nat.lt_trichotomy k m0 with hk | hk | hk
    · right
      have hk2 : (k : ℚ) + 1 ≤ m0 := by exact_mod_cast hk
      have hku : ((k : ℚ) + 1) * (2 : ℚ) ^ L ≤ (m0 : ℚ) * (2 : ℚ) ^ L :=
        mul_le_mul_of_nonneg_right hk2 (le_of_lt hu)
      rw [abs_sub_comm]
      refine le_trans ?_ (le_abs_self _)
      linarith
    · left
      rw [hk]
    · right
      have hk2 : (m0 : ℚ) + 1 ≤ k := by exact_mod_cast hk
      have hku : ((m0 : ℚ) + 1) * (2 : ℚ) ^ L ≤ (k : ℚ) * (2 : ℚ) ^ L :=
        mul_le_mul_of_nonneg_right hk2 (le_of_lt hu)
      refine le_trans ?_ (le_abs_self _)
      linarith
  · right
    have he1 : e ≤ L - 1 := by omega
    have hp : (2 : ℚ) ^ e ≤ (2 : ℚ) ^ (L - 1) :=
      zpow_le_zpow_right₀ (by norm_num) he1
    have hhalf : (2 : ℚ) ^ (L - 1) * 2 = (2 : ℚ) ^ L := by
      have := zpow_add₀ (by norm_num : (2 : ℚ) ≠ 0) (L - 1) 1
      rw [zpow_one] at this
      rw [← this]
      congr 1
      omega
    have hmq : (m : ℚ) + 1 ≤ (2 : ℚ) ^ (53 : Nat) := by exact_mod_cast hm
    have hm0 : (0 : ℚ) ≤ m := by positivity
    have hp0 : (0 : ℚ) < (2 : ℚ) ^ e := by positivity
    have hv : F64.val m e ≤ ((2 : ℚ) ^ (53 : Nat) - 1) * (2 : ℚ) ^ (L - 1) := by
      unfold F64.val
      calc (m : ℚ) * (2 : ℚ) ^ e ≤ (m : ℚ) * (2 : ℚ) ^ (L - 1) :=
            mul_le_mul_of_nonneg_left hp hm0
        _ ≤ ((2 : ℚ) ^ (53 : Nat) - 1) * (2 : ℚ) ^ (L - 1) :=
            mul_le_mul_of_nonneg_right (by linarith) (by positivity)
    have h53 : (2 : ℚ) ^ (53 : Nat) = 2 * (2 : ℚ) ^ (52 : Nat) := by norm_num
    rw [abs_sub_comm]
    refine le_trans ?_ (le_abs_self _)
    rw [← hhalf] at h52 ⊢
    rw [h53] at hv
    generalize (2 : ℚ) ^ (L - 1) = w at *
    generalize (2 : ℚ) ^ (52 : Nat) = c at *
    linarith

theorem F64.val_lt (m : Nat) (e : Int) (hm : m < 2 ^ 53) (he : e ≤ 971) :
    F64.val m e < (2 : ℚ) ^ (53 : Nat) * (2 : ℚ) ^ (971 : Int) := by
  have hp : (2 : ℚ) ^ e ≤ (2 : ℚ) ^ (971 : Int) :=
    zpow_le_zpow_right₀ (by norm_num) he
  have hmq : (m : ℚ) < (2 : ℚ) ^ (53 : Nat) := by exact_mod_cast hm
  have hp0 : (0 : ℚ) < (2 : ℚ) ^ e := by positivity
  unfold F64.val
  calc (m : ℚ) * (2 : ℚ) ^ e < (2 : ℚ) ^ (53 : Nat) * (2 : ℚ) ^ e :=
        mul_lt_mul_of_pos_right hmq hp0
    _ ≤ (2 : ℚ) ^ (53 : Nat) * (2 : ℚ) ^ (971 : Int) :=
        mul_le_mul_of_nonneg_left hp (by positivity)

/-- Rounding a value of the format to two decimal places gives a finite value
with the same sign and the same hundredths. -/
theorem F64.hundredths_roundCents (n : Bool) (m : Nat) (e : Int) (hm : m < 2 ^ 53)
    (he : e ≤ 971) :
    ∃ (m1 : Nat) (e1 : Int), F64.roundCents (.fin n m e) = .fin n m1 e1 ∧
      F64.hundredths m1 e1 = F64.hundredths m e := by
  obtain ⟨x1, x2⟩ := F64.hundredths_spec m e
  by_cases h0 : F64.hundredths m e = 0
  · refine ⟨0, 0, ?_, ?_⟩
    · simp [F64.roundCents, h0, F64.ofRat, F64.round]
    · rw [h0]
      decide
  · obtain ⟨m0, L, hof, hm0, h52, hd⟩ := F64.ofRat_cents n (F64.hundredths m e) (by omega)
    have hcmp := F64.cents_nearest m0 L (F64.hundredths m e) m e hm h52 hd
    have hu : (0 : ℚ) < (2 : ℚ) ^ L := by positivity
    have hm0q : (2 : ℚ) ^ (52 : Nat) ≤ m0 := by exact_mod_cast hm0
    have hlt := F64.val_lt m e hm he
    have hbig : ∀ c : ℚ, (2 : ℚ) ^ (971 : Int) ≤ (2 : ℚ) ^ L →
        (2 : ℚ) ^ (53 : Nat) * (2 : ℚ) ^ (971 : Int) ≤ c * (2 : ℚ) ^ L →
        (m0 : ℚ) * (2 : ℚ) ^ L = c * (2 : ℚ) ^ L ∨ c * (2 : ℚ) ^ L ≤ (m0 : ℚ) * (2 : ℚ) ^ L →
        False := by
      intro c hL hc hcm
      have h1 : (1 : ℚ) ≤ (2 : ℚ) ^ (971 : Int) := one_le_zpow₀ (by norm_num) (by norm_num)
      have hge : (2 : ℚ) ^ (53 : Nat) * (2 : ℚ) ^ (971 : Int) ≤ (m0 : ℚ) * (2 : ℚ) ^ L := by
        rcases hcm with h | h
        · rw [h]; exact hc
        · exact le_trans hc h
      rcases hcmp with h | h
      · rw [h] at hlt
        linarith
      · have : 50 * (2 : ℚ) ^ L ≤ 1 / 2 := le_trans h x1
        linarith
    have hL1 : ¬ (971 < L) := by
      intro hL
      have hp : (2 : ℚ) ^ ((971 : Int) + 1) ≤ (2 : ℚ) ^ L :=
        zpow_le_zpow_right₀ (by norm_num) (by omega)
      rw [zpow_add₀ (by norm_num : (2 : ℚ) ≠ 0), zpow_one] at hp
      have h53 : (2 : ℚ) ^ (53 : Nat) = 2 * (2 : ℚ) ^ (52 : Nat) := by norm_num
      have hp1 : (0 : ℚ) < (2 : ℚ) ^ (971 : Int) := by positivity
      refine hbig (m0 : ℚ) (by linarith) ?_ (Or.inl rfl)
      calc (2 : ℚ) ^ (53 : Nat) * (2 : ℚ) ^ (971 : Int)
          = (2 : ℚ) ^ (52 : Nat) * ((2 : ℚ) ^ (971 : Int) * 2) := by rw [h53]; ring
        _ ≤ (2 : ℚ) ^ (52 : Nat) * (2 : ℚ) ^ L :=
            mul_le_mul_of_nonneg_left hp (by positivity)
        _ ≤ (m0 : ℚ) * (2 : ℚ) ^ L := mul_le_mul_of_nonneg_right hm0q (le_of_lt hu)
    have hL2 : m0 = 2 ^ 53 → ¬ (971 < L + 1) := by
      intro hm53 hL
      have hp : (2 : ℚ) ^ (971 : Int) ≤ (2 : ℚ) ^ L :=
        zpow_le_zpow_right₀ (by norm_num) (by omega)
      have hmq : (m0 : ℚ) = (2 : ℚ) ^ (53 : Nat) := by exact_mod_cast hm53
      refine hbig (m0 : ℚ) hp ?_ (Or.inl rfl)
      rw [hmq]
      exact mul_le_mul_of_nonneg_left hp (by positivity)
    have hres : ∃ (m1 : Nat) (e1 : Int), F64.ofRat n (F64.hundredths m e) 100 = .fin n m1 e1 ∧
        F64.val m1 e1 = (m0 : ℚ) * (2 : ℚ) ^ L := by
      by_cases hc : m0 = 2 ^ 53
      · refine ⟨2 ^ 52, L + 1, ?_, ?_⟩
        · rw [hof, if_pos hc, if_neg (hL2 hc)]
        · unfold F64.val
          rw [hc, zpow_add₀ (by norm_num : (2 : ℚ) ≠ 0), zpow_one]
          push_cast
          ring
      · refine ⟨m0, L, ?_, rfl⟩
        rw [hof, if_neg hc, if_neg hL1]
    obtain ⟨m1, e1, hr, hv⟩ := hres
    refine ⟨m1, e1, hr, ?_⟩
    apply F64.hundredths_unique
    · rw [hv]
      rcases hcmp with h | h
      · rw [← h]; exact x1
      · have : |100 * ((m0 : ℚ) * (2 : ℚ) ^ L) - (F64.hundredths m e : ℚ)| ≤ 50 * (2 : ℚ) ^ L := by
          rw [← mul_assoc]; exact hd
        exact le_trans this (le_trans h x1)
    · rw [hv]
      intro ht
      apply x2
      rcases hcmp with h | h
      · rw [h]; exact ht
      · have h3 : |100 * ((m0 : ℚ) * (2 : ℚ) ^ L) - (F64.hundredths m e : ℚ)| ≤
            50 * (2 : ℚ) ^ L := by
          rw [← mul_assoc]; exact hd
        rw [ht] at h3
        exact le_antisymm x1 (le_trans h3 h)

/-- The amount rounded to two decimal places has the two-decimal text of the
amount. -/
theorem F64.printf2_roundCents (x : F64) (hx : F64.InFormat x) :
    F64.printf2 (F64.roundCents x) = F64.printf2 x := by
  cases x with
  | nan => exact absurd hx id
  | inf n => exact absurd hx id
  | fin n m e =>
    obtain ⟨m1, e1, hr, hh⟩ := F64.hundredths_roundCents n m e hx.1 hx.2.2
    rw [hr]
    simp only [F64.printf2, hh]

/-- The line of a boat depends on the amount through its two-decimal text. -/
theorem boatLine_amount {D : Type} [CDouble D] (b : Boat D) (y : D)
    (hy : CDouble.printf2 y = CDouble.printf2 b.amountOwed) :
    boatLine { b with amountOwed := y } = boatLine b := by
  simp only [boatLine, hy]

/-- The records `loadBoatsFromCSV` builds from the lines of storable boats with
amounts of the format: the boats, each with its amount rounded to two decimal
places. -/
theorem recordsFrom_save (init : Nat → Fields F64) (k : Nat) (boats : List (Boat F64))
    (hs : ∀ b ∈ boats, Storable b ∧ F64.InFormat b.amountOwed) :
    recordsFrom init k (boats.map boatLine) =
      boats.map (fun b => { b with amountOwed := F64.roundCents b.amountOwed }) := by
  induction boats generalizing k with
  | nil => rfl
  | cons b rest ih =>
    have hb := hs b (List.mem_cons_self _ _)
    have hm := reload_line (init k) b hb.1 (F64.roundCents b.amountOwed)
      (F64.scanDouble_printf2 b.amountOwed hb.2 [])
    simp only [List.map_cons, recordsFrom, hm]
    rw [ih (k + 1) (fun x hx => hs x (List.mem_cons_of_mem _ hx))]

/-- Saving the boats with their amounts rounded to two decimal places writes the
file of the boats. -/
theorem saveBoatsToCSV_roundCents (boats : List (Boat F64))
    (hs : ∀ b ∈ boats, F64.InFormat b.amountOwed) :
    saveBoatsToCSV (boats.map (fun b => { b with amountOwed := F64.roundCents b.amountOwed })) =
      saveBoatsToCSV boats := by
  induction boats with
  | nil => rfl
  | cons b rest ih =>
    simp only [List.map_cons, saveBoatsToCSV]
    rw [ih (fun x hx => hs x (List.mem_cons_of_mem _ hx)),
      boatLine_amount b _ (F64.printf2_roundCents b.amountOwed (hs b (List.mem_cons_self _ _)))]

theorem forall₂_roundCents (boats : List (Boat F64))
    (hs : ∀ b ∈ boats, F64.InFormat b.amountOwed) :
    List.Forall₂
      (fun b b2 => b2.name = b.name ∧ b2.length = b.length ∧
        b2.locationInfo = b.locationInfo ∧ b2.amountOwed = F64.roundCents b.amountOwed ∧
        F64.printf2 b2.amountOwed = F64.printf2 b.amountOwed)
      boats (boats.map (fun b => { b with amountOwed := F64.roundCents b.amountOwed })) := by
  induction boats with
  | nil => exact List.Forall₂.nil
  | cons b rest ih =>
    exact List.Forall₂.cons
      ⟨rfl, rfl, rfl, rfl, F64.printf2_roundCents b.amountOwed (hs b (List.mem_cons_self _ _))⟩
      (ih (fun x hx => hs x (List.mem_cons_of_mem _ hx)))

/-! ## Save and load (C10) -/

set_option maxRecDepth 100000 in
/-- Counterexample to C10: `longBoat` has a name and a license tag of 127
characters without comma or newline, a length that is a value of `int` and the
amount 0, and its line has 272 characters; `fgets` delivers it in two pieces, so
loading the file that holds this one boat gives two records. -/
theorem save_load_long_line :
    FieldText longBoat.name ∧ IntRange longBoat.length ∧ DetailOk longBoat.locationInfo ∧
    F64.InFormat longBoat.amountOwed ∧ (boatLine longBoat).length = 272 ∧
    ∀ init : Nat → Fields F64,
      (loadBoatsFromCSV init (saveBoatsToCSV [longBoat])).length = 2 := by
  refine ⟨by decide, by decide, by decide, by decide, by decide, ?_⟩
  intro init
  rw [loadBoatsFromCSV_length]
  decide

/-- C10, amended: for at most 120 records whose lines in the file are lines of
at most 255 characters with the newline (name and license tag not empty and
without comma, newline and NUL; bay letter not a comma, newline or NUL), with
finite amounts, loading the file that `saveBoatsToCSV` writes gives the same
number of records and, record by record in the same order, the same name,
length, kind and detail, and the amount rounded to two decimal places: the
binary64 value nearest to the two-decimal numeral in the file, which has the
two-decimal text of the amount saved.  Saving what was loaded writes the same
file again. -/
theorem save_load_roundtrip (init : Nat → Fields F64) (boats : List (Boat F64))
    (hn : boats.length ≤ 120)
    (hs : ∀ b ∈ boats, Storable b ∧ F64.InFormat b.amountOwed) :
    (loadBoatsFromCSV init (saveBoatsToCSV boats)).length = boats.length ∧
    List.Forall₂
      (fun b b2 => b2.name = b.name ∧ b2.length = b.length ∧
        b2.locationInfo = b.locationInfo ∧ b2.amountOwed = F64.roundCents b.amountOwed ∧
        F64.printf2 b2.amountOwed = F64.printf2 b.amountOwed)
      boats (loadBoatsFromCSV init (saveBoatsToCSV boats)) ∧
    saveBoatsToCSV (loadBoatsFromCSV init (saveBoatsToCSV boats)) = saveBoatsToCSV boats := by
  have e : loadBoatsFromCSV init (saveBoatsToCSV boats) =
      boats.map (fun b => { b with amountOwed := F64.roundCents b.amountOwed }) := by
    rw [loadBoatsFromCSV_eq, fileLines_save boats (fun b hb => (hs b hb).1),
      List.take_of_length_le (by simpa using hn), recordsFrom_save init 0 boats hs]
  rw [e]
  exact ⟨by rw [List.length_map], forall₂_roundCents boats (fun b hb => (hs b hb).2),
    saveBoatsToCSV_roundCents boats (fun b hb => (hs b hb).2)⟩

set_option maxRecDepth 100000 in
/-- Witness of C10: a boat in a slip that owes 250, a boat on a trailer that owes
1234.567 and comes back owing 1234.57, and a boat on land with a credit of 0.125
that comes back with a credit of 0.12. -/
theorem save_load_roundtrip_witness :
    [pierOne64 (F64.ofInt 250), seaBreeze64, pierOneLand64].length ≤ 120 ∧
    (∀ b ∈ [pierOne64 (F64.ofInt 250), seaBreeze64, pierOneLand64],
      Storable b ∧ F64.InFormat b.amountOwed) ∧
    saveBoatsToCSV [pierOne64 (F64.ofInt 250), seaBreeze64, pierOneLand64] =
      ("Pier One,20,slip,5,250.00\n" ++ "Sea Breeze,31,trailor,XY 12,1234.57\n" ++
        "PIER ONE,7,land,Q,-0.12\n").toList ∧
    loadBoatsFromCSV (fun _ => sampleFields64)
        (saveBoatsToCSV [pierOne64 (F64.ofInt 250), seaBreeze64, pierOneLand64]) =
      [pierOne64 (F64.ofInt 250), { seaBreeze64 with amountOwed := F64.ofDecimal 123457 2 },
        { pierOneLand64 with amountOwed := F64.ofDecimal (-12) 2 }] ∧
    (loadBoatsFromCSV (fun _ => sampleFields64)
        (saveBoatsToCSV [pierOne64 (F64.ofInt 250), seaBreeze64, pierOneLand64])).length =
      [pierOne64 (F64.ofInt 250), seaBreeze64, pierOneLand64].length ∧
    List.Forall₂
      (fun b b2 => b2.name = b.name ∧ b2.length = b.length ∧
        b2.locationInfo = b.locationInfo ∧ b2.amountOwed = F64.roundCents b.amountOwed ∧
        F64.printf2 b2.amountOwed = F64.printf2 b.amountOwed)
      [pierOne64 (F64.ofInt 250), seaBreeze64, pierOneLand64]
      (loadBoatsFromCSV (fun _ => sampleFields64)
        (saveBoatsToCSV [pierOne64 (F64.ofInt 250), seaBreeze64, pierOneLand64])) ∧
    saveBoatsToCSV (loadBoatsFromCSV (fun _ => sampleFields64)
        (saveBoatsToCSV [pierOne64 (F64.ofInt 250), seaBreeze64, pierOneLand64])) =
      saveBoatsToCSV [pierOne64 (F64.ofInt 250), seaBreeze64, pierOneLand64] :=
  ⟨by decide, by decide, by decide, by decide,
    save_load_roundtrip (fun _ => sampleFields64)
      [pierOne64 (F64.ofInt 250), seaBreeze64, pierOneLand64] (by decide) (by decide)⟩

/-! ## Location kinds (C12, C18) -/

theorem cstr_cons (a : Char) (s : List Char) :
    cstr (a :: s) = if a = NUL then [] else a :: cstr s := by
  unfold cstr
  by_cases h : a = NUL
  · simp [h]
  · simp [h]

/-- `strcasecmp` returns 0 exactly when the two strings are equal ignoring
case. -/
theorem strcasecmp_eq_zero_iff (s t : List Char) :
    strcasecmp s t = 0 ↔ equalsIgnoringCase (cstr s) (cstr t) := by
  unfold equalsIgnoringCase
  induction s generalizing t with
  | nil =>
    cases t with
    | nil => simp [strcasecmp, cstr]
    | cons b u =>
      have hb := lowerCode_eq_zero_iff b
      rw [cstr_cons]
      simp only [strcasecmp]
      by_cases h : b = NUL
      · subst h
        simp [show lowerCode NUL = 0 from by decide, cstr]
      · have : lowerCode b ≠ 0 := fun e => h (hb.1 e)
        simp only [h, if_false, cstr, List.takeWhile_nil, List.map_nil, List.map_cons]
        constructor
        · intro e; omega
        · intro e; cases e
  | cons a r ih =>
    have ha := lowerCode_eq_zero_iff a
    cases t with
    | nil =>
      rw [cstr_cons]
      simp only [strcasecmp]
      by_cases h : a = NUL
      · subst h
        simp [show lowerCode NUL = 0 from by decide, cstr]
      · have : lowerCode a ≠ 0 := fun e => h (ha.1 e)
        simp only [h, if_false, cstr, List.takeWhile_nil, List.map_nil, List.map_cons]
        constructor
        · intro e; omega
        · intro e; cases e
    | cons b u =>
      have hb := lowerCode_eq_zero_iff b
      rw [cstr_cons, cstr_cons]
      simp only [strcasecmp]
      by_cases hab : lowerCode a = lowerCode b
      · by_cases h : a = NUL
        · have h2 : b = NUL := hb.1 (by rw [← hab]; exact ha.2 h)
          simp [hab, h, h2]
        · have h2 : ¬ b = NUL := fun e => h (ha.1 (by rw [hab]; exact hb.2 e))
          simp only [hab, ne_eq, not_true_eq_false, if_false, h, h2, List.map_cons,
            List.cons.injEq, true_and]
          exact ih u
      · have hne : lowerCode a - lowerCode b ≠ 0 := by omega
        simp only [ne_eq, hab, not_false_eq_true, if_true, hne, false_iff]
        by_cases h : a = NUL
        · have h2 : ¬ b = NUL := fun e => hab (by rw [ha.2 h, hb.2 e])
          simp [h, h2]
        · by_cases h2 : b = NUL
          · simp [h, h2]
          · simp [h, h2, hab]

/-- C12: `getLocationType` returns `SLIP` exactly for the texts equal to "slip"
ignoring case, `LAND` exactly for "land", `TRAILOR` exactly for "trailor", and
`STORAGE` exactly for every other text: "storage" in any case, and the
unrecognized ones such as "trailer".  The text compared is `cstr text`, the
string the array holds, which is `text` itself when `text` has no NUL. -/
theorem getLocationType_spec (text : List Char) :
    (getLocationType text = .SLIP ↔ equalsIgnoringCase (cstr text) ['s', 'l', 'i', 'p']) ∧
    (getLocationType text = .LAND ↔ equalsIgnoringCase (cstr text) ['l', 'a', 'n', 'd']) ∧
    (getLocationType text = .TRAILOR ↔
      equalsIgnoringCase (cstr text) ['t', 'r', 'a', 'i', 'l', 'o', 'r']) ∧
    (getLocationType text = .STORAGE ↔
      ¬ equalsIgnoringCase (cstr text) ['s', 'l', 'i', 'p'] ∧
      ¬ equalsIgnoringCase (cstr text) ['l', 'a', 'n', 'd'] ∧
      ¬ equalsIgnoringCase (cstr text) ['t', 'r', 'a', 'i', 'l', 'o', 'r']) ∧
    getLocationType ['S', 't', 'o', 'r', 'a', 'g', 'e'] = .STORAGE ∧
    getLocationType ['t', 'r', 'a', 'i', 'l', 'e', 'r'] = .STORAGE ∧
    getLocationType ['T', 'R', 'A', 'I', 'L', 'O', 'R'] = .TRAILOR := by
  have e1 := strcasecmp_eq_zero_iff text ['s', 'l', 'i', 'p']
  have e2 := strcasecmp_eq_zero_iff text ['l', 'a', 'n', 'd']
  have e3 := strcasecmp_eq_zero_iff text ['t', 'r', 'a', 'i', 'l', 'o', 'r']
  have c1 : cstr ['s', 'l', 'i', 'p'] = ['s', 'l', 'i', 'p'] := by decide
  have c2 : cstr ['l', 'a', 'n', 'd'] = ['l', 'a', 'n', 'd'] := by decide
  have c3 : cstr ['t', 'r', 'a', 'i', 'l', 'o', 'r'] = ['t', 'r', 'a', 'i', 'l', 'o', 'r'] := by
    decide
  rw [c1] at e1
  rw [c2] at e2
  rw [c3] at e3
  rw [← e1, ← e2, ← e3]
  have x12 : strcasecmp text ['s', 'l', 'i', 'p'] = 0 →
      ¬ strcasecmp text ['l', 'a', 'n', 'd'] = 0 := by
    intro h h2
    have := (strcasecmp_eq_zero_congr text ['s', 'l', 'i', 'p'] ['l', 'a', 'n', 'd'] h).1 h2
    revert this
    decide
  have x13 : strcasecmp text ['s', 'l', 'i', 'p'] = 0 →
      ¬ strcasecmp text ['t', 'r', 'a', 'i', 'l', 'o', 'r'] = 0 := by
    intro h h2
    have := (strcasecmp_eq_zero_congr text ['s', 'l', 'i', 'p']
      ['t', 'r', 'a', 'i', 'l', 'o', 'r'] h).1 h2
    revert this
    decide
  have x23 : strcasecmp text ['l', 'a', 'n', 'd'] = 0 →
      ¬ strcasecmp text ['t', 'r', 'a', 'i', 'l', 'o', 'r'] = 0 := by
    intro h h2
    have := (strcasecmp_eq_zero_congr text ['l', 'a', 'n', 'd']
      ['t', 'r', 'a', 'i', 'l', 'o', 'r'] h).1 h2
    revert this
    decide
  refine ⟨?_, ?_, ?_, ?_, by decide, by decide, by decide⟩
  · unfold getLocationType
    split_ifs <;> simp_all
  · unfold getLocationType
    split_ifs <;> simp_all
  · unfold getLocationType
    split_ifs <;> simp_all
  · unfold getLocationType
    split_ifs <;> simp_all

/-- C18: for each of the four kinds the tag `saveBoatsToCSV` writes in the
line of a boat is one of the lower-case texts "slip", "land", "trailor",
"storage", and `getLocationType` maps that tag back to the kind. -/
theorem kindTag_roundtrip {D : Type} [CDouble D] (b : Boat D) :
    boatLine b =
      cstr b.name ++ ',' :: (printInt b.length ++ ',' :: (kindTag b.locationInfo ++
        ',' :: (detailText b.locationInfo ++ ',' :: (CDouble.printf2 b.amountOwed ++ ['\n'])))) ∧
    (b.locationType = .SLIP → kindTag b.locationInfo = ['s', 'l', 'i', 'p']) ∧
    (b.locationType = .LAND → kindTag b.locationInfo = ['l', 'a', 'n', 'd']) ∧
    (b.locationType = .TRAILOR → kindTag b.locationInfo = ['t', 'r', 'a', 'i', 'l', 'o', 'r']) ∧
    (b.locationType = .STORAGE → kindTag b.locationInfo = ['s', 't', 'o', 'r', 'a', 'g', 'e']) ∧
    getLocationType (kindTag b.locationInfo) = b.locationType := by
  refine ⟨boatLine_eq b, ?_⟩
  unfold Boat.locationType
  cases b.locationInfo <;> simp [kindTag, LocationInfo.locationType] <;> decide

/-! ## Payment changes one amount (C17) -/

/-- The array after the loop of `acceptPayment`, index by index. -/
theorem paymentLoop_getElem {D : Type} [CDouble D] (name : List Char) (payment : D)
    (boats : List (Boat D)) (i : Nat) (b : Boat D) (hb : boats[i]? = some b) :
    ∃ b2 : Boat D, (paymentLoop name payment boats).1[i]? = some b2 ∧
      b2.name = b.name ∧ b2.length = b.length ∧ b2.locationInfo = b.locationInfo ∧
      (b2.amountOwed = b.amountOwed ∨
        (b2.amountOwed = CDouble.sub b.amountOwed payment ∧ strcasecmp b.name name = 0 ∧
          ∀ (j : Nat) (c : Boat D), j < i → boats[j]? = some c → strcasecmp c.name name ≠ 0)) := by
  induction boats generalizing i with
  | nil => simp at hb
  | cons a rest ih =>
    by_cases ha : strcasecmp a.name name = 0
    · cases i with
      | zero =>
        simp only [List.getElem?_cons_zero, Option.some.injEq] at hb
        subst hb
        rw [paymentLoop, if_pos ha]
        split_ifs
        · exact ⟨a, by simp, rfl, rfl, rfl, Or.inl rfl⟩
        · exact ⟨{ a with amountOwed := CDouble.sub a.amountOwed payment }, by simp, rfl, rfl,
            rfl, Or.inr ⟨rfl, ha, fun j c hj => by omega⟩⟩
      | succ i =>
        simp only [List.getElem?_cons_succ] at hb
        rw [paymentLoop, if_pos ha]
        split_ifs
        · exact ⟨b, by simpa using hb, rfl, rfl, rfl, Or.inl rfl⟩
        · exact ⟨b, by simpa using hb, rfl, rfl, rfl, Or.inl rfl⟩
    · cases i with
      | zero =>
        simp only [List.getElem?_cons_zero, Option.some.injEq] at hb
        subst hb
        simp only [paymentLoop, ha, if_false]
        exact ⟨a, by simp, rfl, rfl, rfl, Or.inl rfl⟩
      | succ i =>
        simp only [List.getElem?_cons_succ] at hb
        obtain ⟨b2, h1, h2, h3, h4, h5⟩ := ih i hb
        simp only [paymentLoop, ha, if_false]
        refine ⟨b2, by simpa using h1, h2, h3, h4, ?_⟩
        rcases h5 with h5 | ⟨h5, h6, h7⟩
        · exact Or.inl h5
        · refine Or.inr ⟨h5, h6, ?_⟩
          intro j c hj hc
          cases j with
          | zero =>
            simp only [List.getElem?_cons_zero, Option.some.injEq] at hc
            rw [← hc]; exact ha
          | succ j =>
            simp only [List.getElem?_cons_succ] at hc
            exact h7 j c (by omega) hc

theorem acceptPayment_fst {D : Type} [CDouble D] (name : List Char) (payment : D)
    (boats : List (Boat D)) :
    (acceptPayment name payment boats).1 = (paymentLoop name payment boats).1 := by
  unfold acceptPayment
  split <;> rename_i heq <;> rw [heq]

/-- C17: the Payment command keeps the number of records and, at every index,
the name, length, kind and detail of the record; the only `amountOwed` it can
change (to the old one minus the amount) is that of a record whose name matches
and before which no record matches, that is of the first match; and when no
record matches, the array is unchanged. -/
theorem acceptPayment_frame {D : Type} [CDouble D] (name : List Char) (payment : D)
    (boats : List (Boat D)) :
    (acceptPayment name payment boats).1.length = boats.length ∧
    (∀ (i : Nat) (b : Boat D), boats[i]? = some b →
      ∃ b2 : Boat D, (acceptPayment name payment boats).1[i]? = some b2 ∧
        b2.name = b.name ∧ b2.length = b.length ∧ b2.locationInfo = b.locationInfo ∧
        (b2.amountOwed = b.amountOwed ∨
          (b2.amountOwed = CDouble.sub b.amountOwed payment ∧ strcasecmp b.name name = 0 ∧
            ∀ (j : Nat) (c : Boat D), j < i → boats[j]? = some c →
              strcasecmp c.name name ≠ 0))) ∧
    ((∀ x ∈ boats, strcasecmp x.name name ≠ 0) →
      acceptPayment name payment boats = (boats, promptName ++ msgNoBoat)) := by
  refine ⟨acceptPayment_length name payment boats, ?_, acceptPayment_absent name payment boats⟩
  intro i b hb
  rw [acceptPayment_fst]
  exact paymentLoop_getElem name payment boats i b hb

/-! ## Add and load read a line alike (C16) -/

theorem fgetsChars_nil (n : Nat) : fgetsChars n [] = ([], []) := by
  cases n <;> rfl

theorem fgetsChars_whole (n : Nat) (l : List Char) (hlen : l.length ≤ n)
    (hnl : ∀ c ∈ l.dropLast, c ≠ '\n') : fgetsChars n l = (l, []) := by
  induction l generalizing n with
  | nil => exact fgetsChars_nil n
  | cons c r ih =>
    obtain ⟨m, rfl⟩ : ∃ m, n = m + 1 := ⟨n - 1, by simp at hlen; omega⟩
    cases r with
    | nil =>
      simp only [fgetsChars, fgetsChars_nil]
      split_ifs <;> rfl
    | cons d r2 =>
      have hc : c ≠ '\n' := hnl c (by simp [List.dropLast])
      have ih2 := ih m (by simp only [List.length_cons] at hlen ⊢; omega)
        (fun x hx => hnl x (by
          simp only [List.dropLast_cons₂, List.mem_cons]
          exact Or.inr hx))
      simp only [fgetsChars, if_neg hc, ih2]

theorem fileLines_single (line : List Char) (hne : line ≠ []) (hlen : line.length ≤ 255)
    (hnl : ∀ c ∈ line.dropLast, c ≠ '\n') : fileLines line = [line] := by
  cases line with
  | nil => exact absurd rfl hne
  | cons c l =>
    have hg : fgets LINE_SIZE (c :: l) = (c :: l, []) := by
      unfold fgets LINE_SIZE
      exact fgetsChars_whole 255 (c :: l) hlen hnl
    unfold fileLines
    simp only [List.length_cons, fgetsAll, hg, fgetsAll_nil]

/-- Counterexample to C16: from the line ` Pier One,20,slip,5,250.00`, which
begins with a blank, `loadBoatsFromCSV` builds a boat named " Pier One" and
`addBoat` a boat named "Pier One". -/
theorem add_skips_leading_space :
    loadBoatsFromCSV (fun _ => sampleFields) spacedLine =
      [⟨" Pier One".toList, 20, .slipNumber 5, ⟨25000, 2⟩⟩] ∧
    (addBoat sampleFields spacedLine []).1 =
      [⟨"Pier One".toList, 20, .slipNumber 5, ⟨25000, 2⟩⟩] ∧
    loadBoatsFromCSV (fun _ => sampleFields) spacedLine ≠
      (addBoat sampleFields spacedLine []).1 := by
  decide

/-! ### The directives stop inside a line of five fields -/

/-- A run of characters ends at the first character after it that is not of its
kind. -/
theorem takeWhile_stopper {α : Type} (p : α → Bool) (x : α) (hp : p x = false)
    (u r : List α) :
    (u ++ x :: r).takeWhile p = u.takeWhile p ∧
      (u ++ x :: r).dropWhile p = u.dropWhile p ++ x :: r := by
  induction u with
  | nil => simp [List.takeWhile, List.dropWhile, hp]
  | cons a u ih =>
    by_cases ha : p a = true
    · simp [List.takeWhile, List.dropWhile, ha, ih.1, ih.2]
    · simp [List.takeWhile, List.dropWhile, ha]

theorem startsWithWord_newline (u r word : List Char) (hw : ∀ w ∈ word, lowerCode w ≠ 10) :
    startsWithWord (u ++ '\n' :: r) word = startsWithWord u word := by
  induction u generalizing word with
  | nil =>
    cases word with
    | nil => simp [startsWithWord]
    | cons w word =>
      have h := hw w (List.mem_cons_self _ _)
      have e : lowerCode '\n' = 10 := by decide
      simp [startsWithWord, e, Ne.symm h]
  | cons a u ih =>
    cases word with
    | nil => simp [startsWithWord]
    | cons w word =>
      show (decide (lowerCode a = lowerCode w) && startsWithWord (u ++ '\n' :: r) word) =
        (decide (lowerCode a = lowerCode w) && startsWithWord u word)
      rw [ih word (fun x hx => hw x (List.mem_cons_of_mem _ hx))]

theorem fractionDigits_newline (p : Char → Bool) (hp : p '\n' = false) (u r : List Char) :
    fractionDigits p (u ++ '\n' :: r) = fractionDigits p u := by
  cases u with
  | nil =>
    have h : ¬ ('\n' = '.') := by decide
    simp [fractionDigits, h]
  | cons c u =>
    simp only [List.cons_append, fractionDigits]
    rw [(takeWhile_stopper p '\n' hp u r).1]

theorem afterMantissa_newline (p : Char → Bool) (hp : p '\n' = false) (u r : List Char) :
    afterMantissa p (u ++ '\n' :: r) = afterMantissa p u ++ '\n' :: r := by
  unfold afterMantissa
  rw [(takeWhile_stopper p '\n' hp u r).2]
  cases hd : u.dropWhile p with
  | nil =>
    have h : ¬ ('\n' = '.') := by decide
    simp [h]
  | cons c t =>
    by_cases hc : c = '.'
    · simp only [List.cons_append, hc, if_true]
      rw [(takeWhile_stopper p '\n' hp t r).2]
    · simp only [List.cons_append, hc, if_false]

theorem exponentPart_newline (mark : Char) (hm : lowerCode mark ≠ 10) (a r : List Char) :
    exponentPart mark (a ++ '\n' :: r) = exponentPart mark a := by
  have e : lowerCode '\n' = 10 := by decide
  have hnl : isdigit '\n' = false := by decide
  cases a with
  | nil =>
    have h : ¬ (lowerCode '\n' = lowerCode mark) := by rw [e]; exact Ne.symm hm
    simp only [List.nil_append, exponentPart, if_neg h]
  | cons c s =>
    simp only [List.cons_append, exponentPart]
    by_cases hc : lowerCode c = lowerCode mark
    · rw [if_pos hc, if_pos hc]
      cases s with
      | nil =>
        have h1 : ¬ ('\n' = '-') := by decide
        have h2 : ¬ ('\n' = '+') := by decide
        simp [h1, h2, List.takeWhile, hnl, digitsVal]
      | cons d t =>
        simp only [List.cons_append]
        rw [(takeWhile_stopper isdigit '\n' hnl t r).1]
        have h3 : (d :: (t ++ '\n' :: r)).takeWhile isdigit = (d :: t).takeWhile isdigit :=
          (takeWhile_stopper isdigit '\n' hnl (d :: t) r).1
        rw [h3]
    · rw [if_neg hc, if_neg hc]

theorem F64.scanDecimal_newline (neg : Bool) (u r : List Char) :
    F64.scanDecimal neg (u ++ '\n' :: r) = F64.scanDecimal neg u := by
  have hnl : isdigit '\n' = false := by decide
  unfold F64.scanDecimal
  rw [(takeWhile_stopper isdigit '\n' hnl u r).1, (takeWhile_stopper isdigit '\n' hnl u r).2,
    fractionDigits_newline isdigit hnl, afterMantissa_newline isdigit hnl,
    exponentPart_newline 'e' (by decide)]

theorem F64.scanHex_newline (neg : Bool) (u r : List Char) :
    F64.scanHex neg (u ++ '\n' :: r) = F64.scanHex neg u := by
  have hnl : isxdigit '\n' = false := by decide
  unfold F64.scanHex
  rw [(takeWhile_stopper isxdigit '\n' hnl u r).1, (takeWhile_stopper isxdigit '\n' hnl u r).2,
    fractionDigits_newline isxdigit hnl, afterMantissa_newline isxdigit hnl,
    exponentPart_newline 'p' (by decide)]

theorem startsWithWord_length (u word : List Char) (h : startsWithWord u word = true) :
    word.length ≤ u.length := by
  induction u generalizing word with
  | nil =>
    cases word with
    | nil => simp
    | cons w word => simp [startsWithWord] at h
  | cons a u ih =>
    cases word with
    | nil => simp
    | cons w word =>
      simp only [startsWithWord, Bool.and_eq_true] at h
      have := ih word h.2
      simp only [List.length_cons]
      omega

theorem F64.scanMagnitude_newline (neg : Bool) (u r : List Char) :
    F64.scanMagnitude neg (u ++ '\n' :: r) = F64.scanMagnitude neg u := by
  unfold F64.scanMagnitude
  rw [startsWithWord_newline u r ['n', 'a', 'n'] (by decide),
    startsWithWord_newline u r ['i', 'n', 'f'] (by decide),
    startsWithWord_newline u r ['i', 'n', 'f', 'i'] (by decide),
    startsWithWord_newline u r ['i', 'n', 'f', 'i', 'n', 'i', 't', 'y'] (by decide),
    startsWithWord_newline u r ['0', 'x'] (by decide), F64.scanDecimal_newline]
  by_cases hx : startsWithWord u ['0', 'x'] = true
  · have hlen : 2 ≤ u.length := startsWithWord_length u ['0', 'x'] hx
    have hd : (u ++ '\n' :: r).drop 2 = u.drop 2 ++ '\n' :: r := by
      rw [List.drop_append_of_le_length hlen]
    rw [hd, F64.scanHex_newline]
  · simp only [hx]
    simp

theorem F64.scanSigned_newline (u r : List Char) :
    F64.scanSigned (u ++ '\n' :: r) = F64.scanSigned u := by
  cases u with
  | nil =>
    have h1 : ¬ ('\n' = '-') := by decide
    have h2 : ¬ ('\n' = '+') := by decide
    have h3 := F64.scanMagnitude_newline false [] r
    simp only [List.nil_append] at h3
    simp only [List.nil_append, F64.scanSigned, if_neg h1, if_neg h2, h3]
    rfl
  | cons c u =>
    simp only [List.cons_append, F64.scanSigned]
    rw [F64.scanMagnitude_newline true u r, F64.scanMagnitude_newline false u r]
    have h3 := F64.scanMagnitude_newline false (c :: u) r
    simp only [List.cons_append] at h3
    rw [h3]

theorem skipSpace_append (u s : List Char) (hu : skipSpace u ≠ []) :
    skipSpace (u ++ s) = skipSpace u ++ s := by
  induction u with
  | nil => exact absurd rfl hu
  | cons a u ih =>
    unfold skipSpace at hu ih ⊢
    by_cases ha : isspace a = true
    · simp only [List.cons_append, List.dropWhile_cons_of_pos ha] at hu ⊢
      exact ih hu
    · simp only [List.cons_append, List.dropWhile_cons_of_neg ha]

theorem skipSpace_spaces (ws s : List Char) (hws : ∀ c ∈ ws, isspace c = true) :
    skipSpace (ws ++ s) = skipSpace s := by
  induction ws with
  | nil => rfl
  | cons a ws ih =>
    have ha := hws a (List.mem_cons_self _ _)
    have ih2 := ih (fun c hc => hws c (List.mem_cons_of_mem _ hc))
    unfold skipSpace at ih2 ⊢
    simp only [List.cons_append, List.dropWhile_cons_of_pos ha]
    exact ih2

/-- What `%lf` reads from a field that is not blank does not depend on what
follows the newline after it. -/
theorem F64.scanDouble_newline (u r : List Char) (hu : skipSpace u ≠ []) :
    F64.scanDouble (u ++ '\n' :: r) = F64.scanDouble u := by
  unfold F64.scanDouble
  rw [skipSpace_append u _ hu, F64.scanSigned_newline]

/-- The directive `%N[^,]` on a field that a comma follows. -/
theorem scanSet_comma (w : Nat) (f t : List Char) (hf : ∀ c ∈ f, c ≠ ',') :
    scanSet w (f ++ ',' :: t) =
      if f.take w = [] then none else some (cstr (f.take w), f.drop w ++ ',' :: t) := by
  have htw : ((f ++ ',' :: t).take w).takeWhile (fun c => c ≠ ',') = f.take w := by
    rcases le_or_lt w f.length with h | h
    · rw [List.take_append_of_le_length h, List.takeWhile_eq_self_iff]
      intro c hc
      simpa using hf c (List.mem_of_mem_take hc)
    · obtain ⟨k, hk⟩ : ∃ k, w = f.length + (k + 1) := ⟨w - f.length - 1, by omega⟩
      rw [hk, List.take_append, List.take_of_length_le (by omega : f.length ≤ f.length + (k + 1))]
      have hstop : ∀ c ∈ (((',' :: t).take (k + 1))).head?,
          (fun c : Char => decide (c ≠ ',')) c = false := by
        intro c hc
        simp only [List.take_succ_cons, List.head?_cons, Option.mem_def,
          Option.some.injEq] at hc
        rw [← hc]
        decide
      exact (takeWhile_append_stop (fun c : Char => decide (c ≠ ',')) f _
        (fun c hc => by simpa using hf c hc) hstop).1
  unfold scanSet
  rw [htw]
  have hd : (f ++ ',' :: t).drop (f.take w).length = f.drop w ++ ',' :: t := by
    rw [List.length_take]
    rcases le_or_lt w f.length with h | h
    · rw [min_eq_left h, List.drop_append_of_le_length h]
    · rw [min_eq_right (le_of_lt h), List.drop_append_of_le_length (le_refl _),
        List.drop_length, List.drop_of_length_le (le_of_lt h)]
  rw [hd]

/-- The comma of the format after a field that a comma follows. -/
theorem matchChar_comma (g t : List Char) (hg : ∀ c ∈ g, c ≠ ',') :
    matchChar ',' (g ++ ',' :: t) = if g = [] then some t else none := by
  cases g with
  | nil => simp [matchChar]
  | cons c g =>
    have hc := hg c (List.mem_cons_self _ _)
    simp [matchChar, hc]

theorem scanUnsigned_comma (neg : Bool) (v t : List Char) :
    scanUnsigned neg (v ++ ',' :: t) =
      (scanUnsigned neg v).map (fun p => (p.1, p.2 ++ ',' :: t)) := by
  have hc : isdigit ',' = false := by decide
  unfold scanUnsigned
  rw [(takeWhile_stopper isdigit ',' hc v t).1, (takeWhile_stopper isdigit ',' hc v t).2]
  split_ifs <;> rfl

/-- The directive `%d` on a field that a comma follows. -/
theorem scanInt_comma (f t : List Char) :
    scanInt (f ++ ',' :: t) = (scanInt f).map (fun p => (p.1, p.2 ++ ',' :: t)) := by
  have hc : isspace ',' = false := by decide
  unfold scanInt skipSpace
  rw [(takeWhile_stopper isspace ',' hc f t).2]
  cases hv : f.dropWhile isspace with
  | nil =>
    have h1 : ¬ (',' = '-') := by decide
    have h2 : ¬ (',' = '+') := by decide
    have h3 := scanUnsigned_comma false [] t
    simp only [List.nil_append] at h3
    simp only [List.nil_append, scanSigned, if_neg h1, if_neg h2, h3]
    rfl
  | cons c v =>
    simp only [List.cons_append, scanSigned]
    rw [scanUnsigned_comma true v t, scanUnsigned_comma false v t]
    have h3 := scanUnsigned_comma false (c :: v) t
    simp only [List.cons_append] at h3
    rw [h3]
    split_ifs <;> rfl

/-- What `%d` leaves of a field is part of the field. -/
theorem scanInt_rest (f : List Char) (v : Int) (g : List Char) (h : scanInt f = some (v, g)) :
    ∀ c ∈ g, c ∈ f := by
  have hu : ∀ (neg : Bool) (s : List Char), scanUnsigned neg s = some (v, g) →
      ∀ c ∈ g, c ∈ s := by
    intro neg s hs c hc
    unfold scanUnsigned at hs
    split_ifs at hs <;>
    · simp only [Option.some.injEq, Prod.mk.injEq] at hs
      rw [← hs.2] at hc
      exact (List.dropWhile_suffix _).subset hc
  intro c hc
  unfold scanInt skipSpace at h
  have hsub : ∀ x ∈ f.dropWhile isspace, x ∈ f := fun x hx =>
    (List.dropWhile_suffix _).subset hx
  cases hv : f.dropWhile isspace with
  | nil => rw [hv] at h; simp [scanSigned] at h
  | cons a s =>
    rw [hv] at h hsub
    simp only [scanSigned] at h
    split_ifs at h
    · exact hsub c (List.mem_cons_of_mem _ (hu true s h c hc))
    · exact hsub c (List.mem_cons_of_mem _ (hu false s h c hc))
    · exact hsub c (hu false (a :: s) h c hc)

/-- On a line of five fields the four directives before `%lf` stop at the
commas: the call depends on what follows the fourth comma only through what
`%lf` reads there. -/
theorem scanFields_line {D : Type} [CDouble D] (init : Fields D)
    (f1 f2 f3 f4 t1 t2 : List Char)
    (h1 : ∀ c ∈ f1, c ≠ ',') (h2 : ∀ c ∈ f2, c ≠ ',') (h3 : ∀ c ∈ f3, c ≠ ',')
    (h4 : ∀ c ∈ f4, c ≠ ',')
    (ht : (CDouble.scanDouble t1 : Option D) = CDouble.scanDouble t2) :
    scanFields init (f1 ++ ',' :: (f2 ++ ',' :: (f3 ++ ',' :: (f4 ++ ',' :: t1)))) =
      scanFields init (f1 ++ ',' :: (f2 ++ ',' :: (f3 ++ ',' :: (f4 ++ ',' :: t2)))) := by
  have hd : ∀ (w : Nat) (f : List Char), (∀ c ∈ f, c ≠ ',') → ∀ c ∈ f.drop w, c ≠ ',' :=
    fun w f hf c hc => hf c (List.mem_of_mem_drop hc)
  unfold scanFields
  rw [scanSet_comma 127 f1 _ h1, scanSet_comma 127 f1 _ h1]
  by_cases c1 : f1.take 127 = []
  · simp only [c1, if_true]
  simp only [c1, if_false]
  rw [matchChar_comma _ _ (hd 127 f1 h1), matchChar_comma _ _ (hd 127 f1 h1)]
  by_cases c2 : f1.drop 127 = []
  swap
  · simp only [c2, if_false]
  simp only [c2, if_true]
  rw [scanInt_comma f2, scanInt_comma f2]
  cases hi : scanInt f2 with
  | none => simp only [Option.map_none']
  | some p =>
    obtain ⟨len, g⟩ := p
    have hg : ∀ c ∈ g, c ≠ ',' := fun c hc => h2 c (scanInt_rest f2 len g hi c hc)
    simp only [Option.map_some']
    rw [matchChar_comma _ _ hg, matchChar_comma _ _ hg]
    by_cases c3 : g = []
    swap
    · simp only [c3, if_false]
    simp only [c3, if_true]
    rw [scanSet_comma 9 f3 _ h3, scanSet_comma 9 f3 _ h3]
    by_cases c4 : f3.take 9 = []
    · simp only [c4, if_true]
    simp only [c4, if_false]
    rw [matchChar_comma _ _ (hd 9 f3 h3), matchChar_comma _ _ (hd 9 f3 h3)]
    by_cases c5 : f3.drop 9 = []
    swap
    · simp only [c5, if_false]
    simp only [c5, if_true]
    rw [scanSet_comma 127 f4 _ h4, scanSet_comma 127 f4 _ h4]
    by_cases c6 : f4.take 127 = []
    · simp only [c6, if_true]
    simp only [c6, if_false]
    rw [matchChar_comma _ _ (hd 127 f4 h4), matchChar_comma _ _ (hd 127 f4 h4)]
    by_cases c7 : f4.drop 127 = []
    swap
    · simp only [c7, if_false]
    simp only [c7, if_true]
    rw [ht]

/-- C16, amended: for a line of five fields (four commas before the amount
field) whose amount field is not blank, that does not begin with white space,
holds no NUL and has at most 255 characters with the newline that ends it, the
record `addBoat` builds when the standard input holds white space, the line
and then anything else (given room in the array) is the record
`loadBoatsFromCSV` builds from the line: both apply the same directives and the
same statements, and no directive reads beyond the line. -/
theorem addBoat_same_as_load (init : Fields F64) (line f1 f2 f3 f4 u ws rest : List Char)
    (boats : List (Boat F64)) (hroom : boats.length < 120)
    (hcsv : line = f1 ++ ',' :: (f2 ++ ',' :: (f3 ++ ',' :: (f4 ++ ',' :: (u ++ ['\n'])))))
    (h1 : ∀ c ∈ f1, c ≠ ',') (h2 : ∀ c ∈ f2, c ≠ ',') (h3 : ∀ c ∈ f3, c ≠ ',')
    (h4 : ∀ c ∈ f4, c ≠ ',') (hu : skipSpace u ≠ [])
    (hsp : ∀ c ∈ line.head?, isspace c = false) (hnul : ∀ c ∈ line, c ≠ NUL)
    (hlen : line.length ≤ 255) (hnl : ∀ c ∈ line.dropLast, c ≠ '\n')
    (hws : ∀ c ∈ ws, isspace c = true) :
    loadBoatsFromCSV (fun _ => init) line = [mkBoat (scanFields init line)] ∧
    (addBoat init (ws ++ line ++ rest) boats).1 = boats ++ [mkBoat (scanFields init line)] := by
  have hne : line ≠ [] := by rw [hcsv]; simp
  constructor
  · rw [loadBoatsFromCSV_eq, fileLines_single line hne hlen hnl]
    simp [recordsFrom, cstr_eq_self line hnul]
  · have hn : ¬ (120 ≤ boats.length) := by omega
    have hskip : skipSpace (ws ++ line ++ rest) = line ++ rest := by
      rw [List.append_assoc, skipSpace_spaces ws _ hws]
      apply skipSpace_eq_self
      intro c hc
      apply hsp c
      cases hl : line with
      | nil => exact absurd hl hne
      | cons a l => rw [hl] at hc; simpa using hc
    have hamt : (CDouble.scanDouble (u ++ '\n' :: rest) : Option F64) =
        CDouble.scanDouble (u ++ ['\n']) := by
      show F64.scanDouble (u ++ '\n' :: rest) = F64.scanDouble (u ++ ['\n'])
      rw [F64.scanDouble_newline u rest hu, F64.scanDouble_newline u [] hu]
    have hscan : scanFields init (line ++ rest) = scanFields init line := by
      rw [hcsv]
      have e : f1 ++ ',' :: (f2 ++ ',' :: (f3 ++ ',' :: (f4 ++ ',' :: (u ++ ['\n'])))) ++ rest =
          f1 ++ ',' :: (f2 ++ ',' :: (f3 ++ ',' :: (f4 ++ ',' :: (u ++ '\n' :: rest)))) := by
        simp
      rw [e]
      exact scanFields_line init f1 f2 f3 f4 _ _ h1 h2 h3 h4 hamt
    simp only [addBoat, MAX_BOATS, if_neg hn, hskip, hscan]

set_option maxRecDepth 100000 in
/-- Witness of C16: the line `Pier One,20,slip,5,250.00` typed after the newline
that the menu choice left on the standard input, with the next menu choice
behind it. -/
theorem addBoat_same_as_load_witness :
    ([dinghy] : List (Boat F64)).length < 120 ∧
    scenarioFile = "Pier One".toList ++ ',' :: ("20".toList ++ ',' :: ("slip".toList ++
      ',' :: ("5".toList ++ ',' :: ("250.00".toList ++ ['\n'])))) ∧
    skipSpace "250.00".toList ≠ [] ∧
    (∀ c ∈ scenarioFile.head?, isspace c = false) ∧ (∀ c ∈ scenarioFile, c ≠ NUL) ∧
    scenarioFile.length ≤ 255 ∧ (∀ c ∈ scenarioFile.dropLast, c ≠ '\n') ∧
    (∀ c ∈ ['\n'], isspace c = true) ∧
    mkBoat (scanFields sampleFields64 scenarioFile) = pierOne64 (F64.ofInt 250) ∧
    loadBoatsFromCSV (fun _ => sampleFields64) scenarioFile =
      [mkBoat (scanFields sampleFields64 scenarioFile)] ∧
    (addBoat sampleFields64 (['\n'] ++ scenarioFile ++ "I\n".toList) [dinghy]).1 =
      [dinghy] ++ [mkBoat (scanFields sampleFields64 scenarioFile)] :=
  ⟨by decide, by decide, by decide, by decide, by decide, by decide, by decide, by decide,
    by decide,
    addBoat_same_as_load sampleFields64 scenarioFile "Pier One".toList "20".toList
      "slip".toList "5".toList "250.00".toList ['\n'] "I\n".toList [dinghy]
      (by decide) (by decide) (by decide) (by decide) (by decide) (by decide) (by decide)
      (by decide) (by decide) (by decide) (by decide) (by decide)⟩

set_option maxRecDepth 100000 in
/-- The conditions on the fields are needed.  A line of four fields: the last
directive `%127[^,]` of `addBoat` reads on into the next line of the standard
input.  A line with a blank amount field: `%lf` of `addBoat` skips the newline
and reads the amount from the next line, while `loadBoatsFromCSV` leaves the
amount as it was. -/
theorem addBoat_reads_on :
    loadBoatsFromCSV (fun _ => sampleFields64) "Sea,31,trailor,XY 12\n".toList =
      [⟨"Sea".toList, 31, .licenseTag "XY 12\n".toList, F64.ofInt 777⟩] ∧
    (addBoat sampleFields64 "Sea,31,trailor,XY 12\n7.5\nX\n".toList []).1 =
      [⟨"Sea".toList, 31, .licenseTag "XY 12\n7.5\nX\n".toList, F64.ofInt 777⟩] ∧
    loadBoatsFromCSV (fun _ => sampleFields64) "Boat,20,slip,5,\n".toList =
      [⟨"Boat".toList, 20, .slipNumber 5, F64.ofInt 777⟩] ∧
    (addBoat sampleFields64 "Boat,20,slip,5,\n7.5\nX\n".toList []).1 =
      [⟨"Boat".toList, 20, .slipNumber 5, F64.ofDecimal 75 1⟩] := by
  decide

/-! ## Malformed numbers (C13) -/

/-- C13, the code at lines with a malformed number.  With a length that is
not a number the `%d` directive fails: the call ends, and the length, the kind,
the detail and the amount of the record are what the indeterminate objects
hold (`init 0`), not zero and not the fields of the line.  With an amount that
is not a number the amount is the indeterminate one.  Only a slip (or storage)
number that is not a number becomes 0 with the other fields read, through
`atoi`. -/
theorem load_malformed_number (init : Nat → Fields F64) :
    loadBoatsFromCSV init malformedLengthLine =
      [mkBoat { init 0 with name := "Boat".toList }] ∧
    (∀ b ∈ loadBoatsFromCSV init malformedLengthLine,
      b.length = (init 0).length ∧ b.amountOwed = (init 0).amountOwed) ∧
    loadBoatsFromCSV init malformedAmountLine =
      [⟨"Boat".toList, 20, .slipNumber 5, (init 0).amountOwed⟩] ∧
    loadBoatsFromCSV init malformedSlipLine =
      [⟨"Boat".toList, 20, .slipNumber 0, F64.ofInt 10⟩] := by
  have h1 : loadBoatsFromCSV init malformedLengthLine =
      [mkBoat { init 0 with name := "Boat".toList }] := rfl
  refine ⟨h1, ?_, rfl, rfl⟩
  intro b hb
  rw [h1, List.mem_singleton] at hb
  rw [hb]
  exact ⟨rfl, rfl⟩

/-! ## Inventory sorts the stored array (C14) -/

/-- In an array in strictly ascending order two records whose names compare
equal are the same record. -/
theorem eq_of_strict_sorted {D : Type} (boats : List (Boat D))
    (hs : boats.Pairwise (fun a b => compareBoats a b < 0)) (a b : Boat D) (ha : a ∈ boats)
    (hb : b ∈ boats) (hab : compareBoats a b = 0) : a = b := by
  induction boats with
  | nil => simp at ha
  | cons x rest ih =>
    rw [List.pairwise_cons] at hs
    have hswap := strcasecmp_swap a.name b.name
    unfold compareBoats at hab hs
    rcases List.mem_cons.1 ha with h1 | h1
    · rcases List.mem_cons.1 hb with h2 | h2
      · rw [h1, h2]
      · have := hs.1 b h2
        rw [h1] at hab
        omega
    · rcases List.mem_cons.1 hb with h2 | h2
      · have := hs.1 a h1
        rw [h2] at hswap
        rw [h2] at hab
        omega
      · exact ih hs.2 h1 h2

/-- An array in strictly ascending order is the only sorted arrangement of its
records. -/
theorem sorted_perm_unique {D : Type} (boats l : List (Boat D))
    (hs : boats.Pairwise (fun a b => compareBoats a b < 0)) (hp : l.Perm boats)
    (hl : l.Pairwise (fun a b => compareBoats a b ≤ 0)) : l = boats := by
  refine List.Perm.eq_of_sorted ?_ hl (hs.imp (fun h => le_of_lt h)) hp
  intro a b ha hb h1 h2
  have hswap := strcasecmp_swap a.name b.name
  have h0 : compareBoats a b = 0 := by
    unfold compareBoats at h1 h2 ⊢
    omega
  exact eq_of_strict_sorted boats hs a b (hp.subset ha) hb h0

/-- Counterexample to C14: the Inventory command turns the stored order
`seaBreeze, pierOne` into `pierOne, seaBreeze`, with every `qsort`, and the file
`saveBoatsToCSV` then writes is another one. -/
theorem inventory_changes_order :
    printInventory (qsortInsertion (Boat Dec)) [seaBreeze, pierOne] = [pierOne, seaBreeze] ∧
    saveBoatsToCSV (step (qsortInsertion (Boat Dec)) [seaBreeze, pierOne] .inventory) ≠
      saveBoatsToCSV [seaBreeze, pierOne] ∧
    ∀ Q : Qsort (Boat Dec), step Q [seaBreeze, pierOne] .inventory = [pierOne, seaBreeze] := by
  refine ⟨by decide, by decide, ?_⟩
  intro Q
  have hp : (printInventory Q [seaBreeze, pierOne]).Perm [pierOne, seaBreeze] :=
    (printInventory_perm Q [seaBreeze, pierOne]).trans (List.Perm.swap _ _ _)
  exact sorted_perm_unique [pierOne, seaBreeze] _ (by decide) hp
    (Q.sorted compareBoats _ (compareBoats_consistent Dec))

/-- C14, amended: the Inventory command sorts the stored array in place.  The
array after it is a permutation of the records in ascending order of
`compareBoats`, and this is the order `saveBoatsToCSV` writes afterwards; the
stored order is unchanged when it was in strictly ascending order already, and
only when it was in ascending order. -/
theorem inventory_sorts_store {D : Type} [CDouble D] (Q : Qsort (Boat D))
    (boats : List (Boat D)) :
    (step Q boats .inventory).Perm boats ∧
    (step Q boats .inventory).Pairwise (fun a b => compareBoats a b ≤ 0) ∧
    saveBoatsToCSV (runCommands Q boats [.inventory]) =
      saveBoatsToCSV (Q.sort compareBoats boats) ∧
    (boats.Pairwise (fun a b => compareBoats a b < 0) → step Q boats .inventory = boats) ∧
    (step Q boats .inventory = boats → boats.Pairwise (fun a b => compareBoats a b ≤ 0)) := by
  have hp : (step Q boats .inventory).Perm boats := printInventory_perm Q boats
  have hs : (step Q boats .inventory).Pairwise (fun a b => compareBoats a b ≤ 0) :=
    Q.sorted compareBoats boats (compareBoats_consistent D)
  refine ⟨hp, hs, rfl, fun h => sorted_perm_unique boats _ h hp hs, ?_⟩
  intro h
  rw [h] at hs
  exact hs

/-! ## The scenario (C15) -/

set_option maxRecDepth 100000 in
/-- C15: in binary64 arithmetic, loading the line `Pier One,20,slip,5,250.00`
gives one boat that owes 250; Month makes it 500 (text `500.00`); the payment
500.00 for "Pier One" is accepted and makes it 0 (text `0.00`); the payment
1.00 is then rejected with the report quoting `0.00`, and the amount stays 0. -/
theorem scenario_pier_one (Q : Qsort (Boat F64)) (init : Nat → Fields F64) :
    loadBoatsFromCSV init scenarioFile = [pierOne64 (F64.ofInt 250)] ∧
    loadBoatsFromCSV init "Pier One,20,slip,5,250.00".toList = [pierOne64 (F64.ofInt 250)] ∧
    step Q [pierOne64 (F64.ofInt 250)] .month = [pierOne64 (F64.ofInt 500)] ∧
    CDouble.printf2 (F64.ofInt 500) = "500.00".toList ∧
    F64.scanDouble "500.00\n".toList = some (F64.ofInt 500) ∧
    acceptPayment "Pier One".toList (F64.ofInt 500) [pierOne64 (F64.ofInt 500)] =
      ([pierOne64 (F64.ofInt 0)], promptName ++ promptAmount) ∧
    CDouble.printf2 (F64.ofInt 0) = "0.00".toList ∧
    F64.scanDouble "1.00\n".toList = some (F64.ofInt 1) ∧
    acceptPayment "Pier One".toList (F64.ofInt 1) [pierOne64 (F64.ofInt 0)] =
      ([pierOne64 (F64.ofInt 0)],
        promptName ++ (promptAmount ++ "That is more than the amount owed, $0.00 \n".toList)) ∧
    runCommands Q (loadBoatsFromCSV init scenarioFile)
        [.month, .payment "Pier One".toList (F64.ofInt 500),
          .payment "Pier One".toList (F64.ofInt 1)] =
      [pierOne64 (F64.ofInt 0)] := by
  have h0 : loadBoatsFromCSV init scenarioFile = [pierOne64 (F64.ofInt 250)] := rfl
  have h1 : updateMonthlyFees [pierOne64 (F64.ofInt 250)] = [pierOne64 (F64.ofInt 500)] := by
    decide
  have h2 : acceptPayment "Pier One".toList (F64.ofInt 500) [pierOne64 (F64.ofInt 500)] =
      ([pierOne64 (F64.ofInt 0)], promptName ++ promptAmount) := by decide
  have h3 : acceptPayment "Pier One".toList (F64.ofInt 1) [pierOne64 (F64.ofInt 0)] =
      ([pierOne64 (F64.ofInt 0)],
        promptName ++ (promptAmount ++ "That is more than the amount owed, $0.00 \n".toList)) := by
    decide
  refine ⟨h0, rfl, h1, by decide, by decide, h2, by decide, by decide, h3, ?_⟩
  rw [h0]
  show (acceptPayment "Pier One".toList (F64.ofInt 1)
    (acceptPayment "Pier One".toList (F64.ofInt 500)
      (updateMonthlyFees [pierOne64 (F64.ofInt 250)])).1).1 = _
  rw [h1, h2, h3]

/-! ## Two months (C11) -/

theorem monthlyFee_eq {D : Type} [CDouble D] (b : Boat D) :
    monthlyFee b = { b with amountOwed := CDouble.add b.amountOwed (monthlyCharge b) } := by
  unfold monthlyFee monthlyCharge
  cases b.locationType <;> rfl

theorem monthlyCharge_monthlyFee {D : Type} [CDouble D] (b : Boat D) :
    monthlyCharge (monthlyFee b) = monthlyCharge b := by
  rw [monthlyFee_eq]
  rfl

set_option maxRecDepth 100000 in
/-- Counterexample to C11: a boat of one foot in storage that owes 0.01.  After
two calls of `updateMonthlyFees` its amount owed is 22.409999999999997
(`6307854228085800 * 2 ^ -48`), while 0.01 + 2 * 11.2 * 1 is 22.41
(`6307854228085801 * 2 ^ -48`); and the charge accrued after two calls is not
twice the charge accrued after one. -/
theorem fees_twice_rounding :
    updateMonthlyFees (updateMonthlyFees [dinghy]) =
      [{ dinghy with amountOwed := .fin false 6307854228085800 (-48) }] ∧
    CDouble.add dinghy.amountOwed
        (CDouble.mul (CDouble.mul (CDouble.ofInt 2) (CDouble.ofDecimal 112 1))
          (CDouble.ofInt dinghy.length)) = F64.fin false 6307854228085801 (-48) ∧
    CDouble.add dinghy.amountOwed
        (CDouble.mul (CDouble.ofInt 2)
          (CDouble.mul (CDouble.ofDecimal 112 1) (CDouble.ofInt dinghy.length))) =
      F64.fin false 6307854228085801 (-48) ∧
    CDouble.sub (F64.fin false 6307854228085800 (-48)) dinghy.amountOwed ≠
      CDouble.mul (CDouble.ofInt 2)
        (CDouble.sub (CDouble.add dinghy.amountOwed (monthlyCharge dinghy)) dinghy.amountOwed) := by
  decide

set_option maxRecDepth 100000 in
/-- C11, amended: two calls of `updateMonthlyFees` in succession add the same
charge twice.  At every index the charge (rate times length) is the same in
both calls, the amount owed after one call is the original plus the charge, and
after two calls it is that sum plus the charge again, each sum rounded as
`double` addition rounds; the other fields are unchanged.  The second call
does change the array (250 becomes 500 and then 750), so the operation is not
idempotent. -/
theorem updateMonthlyFees_twice :
    (∀ (D : Type) [CDouble D] (boats : List (Boat D)),
      (updateMonthlyFees (updateMonthlyFees boats)).length = boats.length ∧
      ∀ (i : Nat) (b : Boat D), boats[i]? = some b →
        ∃ b1 b2 : Boat D, (updateMonthlyFees boats)[i]? = some b1 ∧
          (updateMonthlyFees (updateMonthlyFees boats))[i]? = some b2 ∧
          monthlyCharge b1 = monthlyCharge b ∧
          b1.amountOwed = CDouble.add b.amountOwed (monthlyCharge b) ∧
          b2.amountOwed =
            CDouble.add (CDouble.add b.amountOwed (monthlyCharge b)) (monthlyCharge b) ∧
          b2.name = b.name ∧ b2.length = b.length ∧ b2.locationInfo = b.locationInfo) ∧
    updateMonthlyFees [pierOne64 (F64.ofInt 250)] = [pierOne64 (F64.ofInt 500)] ∧
    updateMonthlyFees (updateMonthlyFees [pierOne64 (F64.ofInt 250)]) =
      [pierOne64 (F64.ofInt 750)] ∧
    updateMonthlyFees (updateMonthlyFees [pierOne64 (F64.ofInt 250)]) ≠
      updateMonthlyFees [pierOne64 (F64.ofInt 250)] := by
  refine ⟨?_, by decide, by decide, by decide⟩
  intro D _ boats
  refine ⟨by simp [updateMonthlyFees], ?_⟩
  intro i b hb
  refine ⟨monthlyFee b, monthlyFee (monthlyFee b), by simp [updateMonthlyFees, hb],
    by simp [updateMonthlyFees, hb], monthlyCharge_monthlyFee b, ?_, ?_, ?_, ?_, ?_⟩
  · rw [monthlyFee_eq]
  · rw [monthlyFee_eq (monthlyFee b), monthlyCharge_monthlyFee, monthlyFee_eq]
  · rw [monthlyFee_eq (monthlyFee b), monthlyFee_eq]
  · rw [monthlyFee_eq (monthlyFee b), monthlyFee_eq]
  · rw [monthlyFee_eq (monthlyFee b), monthlyFee_eq]

/-! ## Amounts stay non-negative (C19) -/

theorem F64.round_sign (neg : Bool) (M : Nat) (E : Int) :
    F64.round neg M E = .inf neg ∨ ∃ m e, F64.round neg M E = .fin neg m e := by
  unfold F64.round F64.finite
  split_ifs <;> simp

theorem F64.signOk_round (M : Nat) (E : Int) : F64.signOk (F64.round false M E) = true := by
  rcases F64.round_sign false M E with h | ⟨m, e, h⟩ <;> rw [h] <;> rfl

theorem F64.scaled_nonneg (n : Bool) (m : Nat) (e e0 : Int)
    (h : F64.signOk (.fin n m e) = true) : 0 ≤ F64.scaled n m e e0 := by
  unfold F64.scaled
  cases n with
  | false =>
    simp only [Bool.false_eq_true, if_false]
    positivity
  | true =>
    have hm : m = 0 := by simpa [F64.signOk] using h
    simp [hm]

theorem F64.scaled_not (n : Bool) (m : Nat) (e e0 : Int) :
    F64.scaled (!n) m e e0 = -F64.scaled n m e e0 := by
  unfold F64.scaled
  cases n <;> simp

/-- The comparison `x >= 0` is the sign test. -/
theorem F64.nonneg_iff (x : F64) : F64.nonneg x ↔ F64.signOk x = true := by
  have h0 : (CDouble.ofInt 0 : F64) = .fin false 0 0 := rfl
  unfold F64.nonneg
  rw [h0]
  cases x with
  | nan => simp [CDouble.le, F64.le, F64.signOk]
  | inf n => simp [CDouble.le, F64.le, F64.signOk]
  | fin n m e =>
    have hpos : (0 : Int) < ((2 ^ (e - min 0 e).toNat : Nat) : Int) := by positivity
    simp only [CDouble.le, F64.le, F64.scaled, Bool.false_eq_true, if_false, Nat.cast_zero,
      zero_mul, decide_eq_true_eq, F64.signOk, Bool.or_eq_true, Bool.not_eq_true']
    cases n with
    | false =>
      simp only [Bool.false_eq_true, if_false, true_or, iff_true]
      positivity
    | true =>
      simp only [if_true, Bool.true_eq_false, false_or]
      constructor
      · intro h
        by_contra hm
        have hm1 : (0 : Int) < (m : Int) := by
          have : 0 < m := Nat.pos_of_ne_zero hm
          exact_mod_cast this
        have : -(m : Int) * ((2 ^ (e - min 0 e).toNat : Nat) : Int) < 0 :=
          mul_neg_of_neg_of_pos (by omega) hpos
        omega
      · intro hm
        rw [hm]
        simp

theorem F64.signOk_add (a c : F64) (ha : F64.signOk a = true) (hc : F64.signOk c = true) :
    F64.signOk (F64.add a c) = true := by
  cases a with
  | nan => simp [F64.signOk] at ha
  | inf n1 =>
    cases c with
    | nan => simp [F64.signOk] at hc
    | inf n2 =>
      have h1 : n1 = false := by simpa [F64.signOk] using ha
      have h2 : n2 = false := by simpa [F64.signOk] using hc
      rw [h1, h2]
      rfl
    | fin n2 m2 e2 => exact ha
  | fin n1 m1 e1 =>
    cases c with
    | nan => simp [F64.signOk] at hc
    | inf n2 => exact hc
    | fin n2 m2 e2 =>
      have h1 := F64.scaled_nonneg n1 m1 e1 (min e1 e2) ha
      have h2 := F64.scaled_nonneg n2 m2 e2 (min e1 e2) hc
      simp only [F64.add]
      split_ifs with hz
      · simp [F64.signOk]
      · have hlt : decide (F64.scaled n1 m1 e1 (min e1 e2) + F64.scaled n2 m2 e2 (min e1 e2) < 0)
            = false := by
          rw [decide_eq_false_iff_not]
          omega
        rw [hlt]
        exact F64.signOk_round _ _

theorem F64.signOk_sub (a p : F64) (ha : F64.signOk a = true) (hnan : p ≠ .nan)
    (hinf : p ≠ .inf false) (hgt : F64.gt p a = false) : F64.signOk (F64.sub a p) = true := by
  cases p with
  | nan => exact absurd rfl hnan
  | inf n2 =>
    have h2 : n2 = true := by
      cases n2
      · exact absurd rfl hinf
      · rfl
    rw [h2]
    cases a with
    | nan => simp [F64.signOk] at ha
    | inf n1 =>
      have h1 : n1 = false := by simpa [F64.signOk] using ha
      rw [h1]
      rfl
    | fin n1 m1 e1 => rfl
  | fin n2 m2 e2 =>
    cases a with
    | nan => simp [F64.signOk] at ha
    | inf n1 => exact ha
    | fin n1 m1 e1 =>
      simp only [F64.gt, decide_eq_false_iff_not, not_lt] at hgt
      simp only [F64.sub, F64.neg, F64.add]
      rw [F64.scaled_not, min_comm e1 e2]
      split_ifs with hz
      · simp [F64.signOk]
      · have hlt : decide (F64.scaled n1 m1 e1 (min e2 e1) + -F64.scaled n2 m2 e2 (min e2 e1) < 0)
            = false := by
          rw [decide_eq_false_iff_not]
          omega
        rw [hlt]
        exact F64.signOk_round _ _

theorem F64.signOk_ofInt (n : Int) (h : 0 ≤ n) : F64.signOk (F64.ofInt n) = true := by
  unfold F64.ofInt
  have : decide (n < 0) = false := by
    rw [decide_eq_false_iff_not]
    omega
  rw [this]
  exact F64.signOk_round _ _

theorem F64.signOk_mul_rate (m : Nat) (e : Int) (hm : m ≠ 0) (n : Int) (h : 0 ≤ n) :
    F64.signOk (F64.mul (.fin false m e) (F64.ofInt n)) = true := by
  unfold F64.ofInt
  have hd : decide (n < 0) = false := by
    rw [decide_eq_false_iff_not]
    omega
  rw [hd]
  rcases F64.round_sign false n.natAbs 0 with h1 | ⟨m2, e2, h1⟩
  · rw [h1]
    simp [F64.mul, hm, F64.signOk]
  · rw [h1]
    simp only [F64.mul, Bool.xor_false]
    exact F64.signOk_round _ _

theorem F64.signOk_monthlyCharge (b : Boat F64) (h : 0 ≤ b.length) :
    F64.signOk (monthlyCharge b) = true := by
  have r1 : (CDouble.ofDecimal 125 1 : F64) = .fin false 7036874417766400 (-49) := by decide
  have r2 : (CDouble.ofDecimal 140 1 : F64) = .fin false 7881299347898368 (-49) := by decide
  have r3 : (CDouble.ofDecimal 250 1 : F64) = .fin false 7036874417766400 (-48) := by decide
  have r4 : (CDouble.ofDecimal 112 1 : F64) = .fin false 6305039478318694 (-49) := by decide
  unfold monthlyCharge
  cases b.locationType
  · simp only [r1]
    exact F64.signOk_mul_rate _ _ (by decide) _ h
  · simp only [r2]
    exact F64.signOk_mul_rate _ _ (by decide) _ h
  · simp only [r3]
    exact F64.signOk_mul_rate _ _ (by decide) _ h
  · simp only [r4]
    exact F64.signOk_mul_rate _ _ (by decide) _ h

theorem paymentLoop_forall {D : Type} [CDouble D] (P : Boat D → Prop) (name : List Char)
    (payment : D) (boats : List (Boat D)) (h : ∀ b ∈ boats, P b)
    (hsub : ∀ b ∈ boats, CDouble.gt payment b.amountOwed = false →
      P { b with amountOwed := CDouble.sub b.amountOwed payment }) :
    ∀ b ∈ (paymentLoop name payment boats).1, P b := by
  induction boats with
  | nil => intro b hb; simp [paymentLoop] at hb
  | cons a rest ih =>
    have ha := h a (List.mem_cons_self _ _)
    have hrest : ∀ b ∈ rest, P b := fun b hb => h b (List.mem_cons_of_mem _ hb)
    intro b hb
    simp only [paymentLoop] at hb
    split_ifs at hb with hm hg
    · exact h b hb
    · rcases List.mem_cons.1 hb with h1 | h1
      · rw [h1]
        exact hsub a (List.mem_cons_self _ _) (by simpa using hg)
      · exact hrest b h1
    · rcases List.mem_cons.1 hb with h1 | h1
      · rw [h1]; exact ha
      · exact ih hrest (fun x hx => hsub x (List.mem_cons_of_mem _ hx)) b h1

theorem removeLoop_subset {D : Type} (name : List Char) (boats r : List (Boat D))
    (h : removeLoop name boats = some r) : ∀ b ∈ r, b ∈ boats := by
  induction boats generalizing r with
  | nil => simp [removeLoop] at h
  | cons a rest ih =>
    simp only [removeLoop] at h
    split_ifs at h
    · cases h
      intro b hb
      exact List.mem_cons_of_mem _ hb
    · cases hr : removeLoop name rest with
      | none => rw [hr] at h; simp at h
      | some r2 =>
        rw [hr] at h
        simp only [Option.map_some', Option.some.injEq] at h
        rw [← h]
        intro b hb
        rcases List.mem_cons.1 hb with h1 | h1
        · rw [h1]; exact List.mem_cons_self _ _
        · exact List.mem_cons_of_mem _ (ih r2 hr b h1)

theorem removeBoat_subset {D : Type} (name : List Char) (boats : List (Boat D)) :
    ∀ b ∈ (removeBoat name boats).1, b ∈ boats := by
  unfold removeBoat
  split
  · rename_i r hr
    exact removeLoop_subset name boats r hr
  · intro b hb; exact hb

/-- One command keeps the amounts owed and the lengths non-negative. -/
theorem step_nonneg (Q : Qsort (Boat F64)) (boats : List (Boat F64)) (cmd : Command F64)
    (hc : Command.plain cmd) (h : ∀ b ∈ boats, F64.nonneg b.amountOwed ∧ 0 ≤ b.length) :
    ∀ b ∈ step Q boats cmd, F64.nonneg b.amountOwed ∧ 0 ≤ b.length := by
  cases cmd with
  | inventory =>
    intro b hb
    exact h b ((printInventory_perm Q boats).subset hb)
  | add init input => exact absurd hc (fun x => x)
  | remove name =>
    intro b hb
    exact h b (removeBoat_subset name boats b hb)
  | payment name amount =>
    intro b hb
    simp only [step] at hb
    rw [acceptPayment_fst] at hb
    refine paymentLoop_forall (fun b => F64.nonneg b.amountOwed ∧ 0 ≤ b.length) name amount
      boats h ?_ b hb
    intro x hx hgt
    have hx2 := h x hx
    refine ⟨?_, hx2.2⟩
    rw [F64.nonneg_iff]
    exact F64.signOk_sub x.amountOwed amount ((F64.nonneg_iff _).1 hx2.1) hc.1 hc.2 hgt
  | month =>
    intro b hb
    simp only [step, updateMonthlyFees, List.mem_map] at hb
    obtain ⟨x, hx, rfl⟩ := hb
    have hx2 := h x hx
    rw [monthlyFee_eq]
    refine ⟨?_, hx2.2⟩
    rw [F64.nonneg_iff]
    exact F64.signOk_add _ _ ((F64.nonneg_iff _).1 hx2.1) (F64.signOk_monthlyCharge x hx2.2)

set_option maxRecDepth 100000 in
/-- Counterexample to C19: `%lf` reads the input `nan` as a NaN; the test
`payment > amountOwed` is false for a NaN, so the payment is accepted, and the
boat that owed 250 owes a NaN afterwards, for which `amountOwed >= 0` is
false. -/
theorem payment_nan_breaks_nonneg :
    F64.scanDouble "nan\n".toList = some .nan ∧
    (∀ b ∈ [pierOne64 (F64.ofInt 250)], F64.nonneg b.amountOwed ∧ 0 ≤ b.length) ∧
    acceptPayment "Pier One".toList F64.nan [pierOne64 (F64.ofInt 250)] =
      ([pierOne64 .nan], promptName ++ promptAmount) ∧
    ¬ (∀ b ∈ (acceptPayment "Pier One".toList F64.nan [pierOne64 (F64.ofInt 250)]).1,
      F64.nonneg b.amountOwed) := by
  decide

/-- C19, amended: in binary64 arithmetic, if every record has `amountOwed >= 0`
and `length >= 0`, then after any sequence of Inventory, Remove, Month and
Payment commands whose payment amounts are numbers other than plus infinity
(negative amounts and minus infinity included, NaN excluded) every record
still has `amountOwed >= 0` and `length >= 0`. -/
theorem balance_nonneg (Q : Qsort (Boat F64)) (cmds : List (Command F64))
    (boats : List (Boat F64)) (hc : ∀ c ∈ cmds, Command.plain c)
    (h : ∀ b ∈ boats, F64.nonneg b.amountOwed ∧ 0 ≤ b.length) :
    ∀ b ∈ runCommands Q boats cmds, F64.nonneg b.amountOwed ∧ 0 ≤ b.length := by
  induction cmds generalizing boats with
  | nil => exact h
  | cons cmd rest ih =>
    exact ih (step Q boats cmd) (fun c hcm => hc c (List.mem_cons_of_mem _ hcm))
      (step_nonneg Q boats cmd (hc cmd (List.mem_cons_self _ _)) h)

set_option maxRecDepth 100000 in
/-- Witness of C19: a month, a negative payment, an inventory and a removal. -/
theorem balance_nonneg_witness :
    (∀ c ∈ [Command.month, .payment "Pier One".toList (F64.ofInt (-5)), .inventory,
        .remove "Dinghy".toList], Command.plain c) ∧
    (∀ b ∈ [pierOne64 (F64.ofInt 250), dinghy], F64.nonneg b.amountOwed ∧ 0 ≤ b.length) ∧
    ∀ b ∈ runCommands (qsortInsertion (Boat F64)) [pierOne64 (F64.ofInt 250), dinghy]
        [Command.month, .payment "Pier One".toList (F64.ofInt (-5)), .inventory,
          .remove "Dinghy".toList],
      F64.nonneg b.amountOwed ∧ 0 ≤ b.length :=
  ⟨by decide, by decide,
    balance_nonneg (qsortInsertion (Boat F64))
      [Command.month, .payment "Pier One".toList (F64.ofInt (-5)), .inventory,
        .remove "Dinghy".toList]
      [pierOne64 (F64.ofInt 250), dinghy] (by decide) (by decide)⟩

end Fleet
